import Mathlib

/-!
Verification of the `pangua` sorting library (`src/lib.rs`).

The mutable slice is embedded as a `List α`; the `T: Ord` bound is embedded as a
boolean comparison `le : α → α → Bool` (Rust's `a <= b`), with `a < b` and
`a > b` derived as in a total preorder.  Every Rust slice access that can panic
(indexing, `swap`, `rotate_right`, `expect`, `assert!`) is modelled in an
`Except` monad, and every loop whose bound is not structural carries an explicit
fuel counter; the theorems below prove the chosen fuels sufficient, so a
`.error .fuelOut` result never occurs for a lawful comparison.
-/

set_option maxHeartbeats 1000000

namespace Pangua

universe u

variable {α : Type u}

/-- Failure modes of the embedded Rust code: an out-of-bounds slice access or a
failing `expect` (both panic in Rust), a failing `assert!`, or exhaustion of the
fuel that models an unbounded loop. -/
inductive SortErr : Type where
  | oobPanic : SortErr
  | assertPanic : SortErr
  | fuelOut : SortErr
deriving DecidableEq

/-- Result monad of the embedding: a sort either returns the final list or fails. -/
abbrev M (β : Type u) : Type u := Except SortErr β

/-- Rust `a < b` for a type whose `Ord` is the boolean total preorder `le`. -/
def ltB (le : α → α → Bool) (a b : α) : Bool := !(le b a)

/-- Rust `a > b`. -/
def gtB (le : α → α → Bool) (a b : α) : Bool := !(le a b)

/-- Rust indexing `slice[i]`: panics when out of bounds. -/
def getE (l : List α) (i : Nat) : M α :=
  match l[i]? with
  | some a => .ok a
  | none => .error .oobPanic

/-- Rust `slice.swap(i, j)`: panics when an index is out of bounds. -/
def swapE (l : List α) (i j : Nat) : M (List α) :=
  match getE l i, getE l j with
  | .ok a, .ok b => .ok ((l.set i b).set j a)
  | .error e, _ => .error e
  | _, .error e => .error e

/-- Rust `slice[i..=j].rotate_right(1)` acting on the full slice `l`: the
subrange must be nonempty and inside the slice, otherwise Rust panics. -/
def rotSegE (l : List α) (i j : Nat) : M (List α) :=
  if h : i ≤ j ∧ j < l.length then
    .ok (l.take i ++ l.get ⟨j, h.2⟩ :: ((l.drop i).take (j - i)) ++ l.drop (j + 1))
  else .error .oobPanic

/-- Rust comparison `left.last() <= right.first()` on `Option` values: `None`
compares below `Some`. -/
def optLe (le : α → α → Bool) : Option α → Option α → Bool
  | none, _ => true
  | some _, none => false
  | some a, some b => le a b

/-- One bubble pass of `BubbleSort::sort`
(`for i in 1..slice.len() { if slice[i] < slice[i-1] { swap; swapped = true } }`),
resumed at index `i` with accumulated `swapped` flag; `k` counts the remaining
iterations of the range `1..slice.len()`, which Rust fixes at loop entry. -/
def bubblePass (le : α → α → Bool) (l : List α) (i : Nat) (k : Nat) (swapped : Bool) :
    M (List α × Bool) :=
  match k with
  | 0 => .ok (l, swapped)
  | k + 1 =>
    match getE l i, getE l (i - 1) with
    | .ok a, .ok b =>
      if ltB le a b then
        match swapE l i (i - 1) with
        | .ok l2 => bubblePass le l2 (i + 1) k true
        | .error e => .error e
      else bubblePass le l (i + 1) k swapped
    | .error e, _ => .error e
    | _, .error e => .error e

/-- The outer `while swapped` loop of `BubbleSort::sort`, with fuel. -/
def bubbleLoop (le : α → α → Bool) (fuel : Nat) (l : List α) : M (List α) :=
  match fuel with
  | 0 => .error .fuelOut
  | fuel + 1 =>
    match bubblePass le l 1 (l.length - 1) false with
    | .ok (l2, swapped) => if swapped then bubbleLoop le fuel l2 else .ok l2
    | .error e => .error e

/-- Number of inverted pairs of `l`; the fuel bound for the bubble loop. -/
def invCount (le : α → α → Bool) : List α → Nat
  | [] => 0
  | x :: xs => xs.countP (fun y => !(le x y)) + invCount le xs

/-- `BubbleSort::sort`. -/
def bubbleSort (le : α → α → Bool) (l : List α) : M (List α) :=
  bubbleLoop le (invCount le l + 1) l

/-- Structural description of one bubble pass carrying the element `x` under the
cursor: new list and whether any swap occurred. -/
def passGo (le : α → α → Bool) (x : α) : List α → List α × Bool
  | [] => ([x], false)
  | y :: t =>
    if ltB le y x then
      (y :: (passGo le x t).1, true)
    else
      (x :: (passGo le y t).1, (passGo le y t).2)

/-- Structural description of one bubble pass; proven below to agree with
`bubblePass` started at index 1. -/
def passL (le : α → α → Bool) (l : List α) : List α × Bool :=
  match l with
  | [] => ([], false)
  | x :: t => passGo le x t

/-- Inner loop of the linear ("dumb") insertion variant:
`while i > 0 && slice[i-1] > slice[i] { swap(i-1, i); i -= 1 }`. -/
def insertInner (le : α → α → Bool) (l : List α) (i : Nat) : M (List α) :=
  match i with
  | 0 => .ok l
  | k + 1 =>
    match getE l k, getE l (k + 1) with
    | .ok a, .ok b =>
      if gtB le a b then
        match swapE l k (k + 1) with
        | .ok l2 => insertInner le l2 k
        | .error e => .error e
      else .ok l
    | .error e, _ => .error e
    | _, .error e => .error e

/-- Modelled from the Rust standard library: the loop of `slice::binary_search`
(`binary_search_by`), which the source calls on the sorted prefix.  It probes
`mid = left + size / 2` and narrows `[left, right)`; `size` tracks
`right - left` as in the library code.  `Sum.inl i` is `Ok(i)`, `Sum.inr i` is
`Err(i)`. -/
def bsLoop (le : α → α → Bool) (l : List α) (tgt : α) (fuel left right size : Nat) :
    M (Nat ⊕ Nat) :=
  match fuel with
  | 0 => .error .fuelOut
  | fuel + 1 =>
    if left < right then
      match getE l (left + size / 2) with
      | .ok p =>
        if ltB le p tgt then
          bsLoop le l tgt fuel (left + size / 2 + 1) right (right - (left + size / 2 + 1))
        else if gtB le p tgt then
          bsLoop le l tgt fuel left (left + size / 2) (left + size / 2 - left)
        else .ok (.inl (left + size / 2))
      | .error e => .error e
    else .ok (.inr left)

/-- `slice[..u].binary_search(&x)` collapsed as in the source
(`Ok(i) | Err(i) => i`). -/
def binSearchIdx (le : α → α → Bool) (l : List α) (tgt : α) : M Nat :=
  match bsLoop le l tgt (l.length + 1) 0 l.length l.length with
  | .ok (.inl i) => .ok i
  | .ok (.inr i) => .ok i
  | .error e => .error e

/-- One outer iteration of `InsertionSort::sort` at index `u`. -/
def insertionStep (le : α → α → Bool) (smart : Bool) (l : List α) (u : Nat) : M (List α) :=
  if smart then
    match getE l u with
    | .ok x =>
      match binSearchIdx le (l.take u) x with
      | .ok i => rotSegE l i u
      | .error e => .error e
    | .error e => .error e
  else insertInner le l u

/-- Outer `for unsorted in 1..slice.len()` loop of `InsertionSort::sort`; `k`
counts the remaining iterations of the range, fixed at loop entry. -/
def insertionOuter (le : α → α → Bool) (smart : Bool) (l : List α) (u : Nat) (k : Nat) :
    M (List α) :=
  match k with
  | 0 => .ok l
  | k + 1 =>
    match insertionStep le smart l u with
    | .ok l2 => insertionOuter le smart l2 (u + 1) k
    | .error e => .error e

/-- `InsertionSort::sort` (the `smart` flag selects the binary-search variant). -/
def insertionSort (le : α → α → Bool) (smart : Bool) (l : List α) : M (List α) :=
  insertionOuter le smart l 1 (l.length - 1)

/-- Modelled from the Rust standard library: the fold inside
`Iterator::min_by_key`, which keeps the first minimum. -/
def minFold (le : α → α → Bool) (xs : List (Nat × α)) (acc : Nat × α) : Nat × α :=
  match xs with
  | [] => acc
  | y :: t => minFold le t (if gtB le acc.2 y.2 then y else acc)

/-- `slice[u..].iter().enumerate().min_by_key(|t| t.1).map(|t| u + t.0)` with the
`expect("slice is non-empty")` panic. -/
def selectIdx (le : α → α → Bool) (l : List α) (u : Nat) : M Nat :=
  match (l.drop u).enum with
  | [] => .error .oobPanic
  | p :: rest => .ok (u + (minFold le rest p).1)

/-- One outer iteration of `SelectionSort::sort`. -/
def selectStep (le : α → α → Bool) (l : List α) (u : Nat) : M (List α) :=
  match selectIdx le l u with
  | .ok m => if u ≠ m then swapE l u m else .ok l
  | .error e => .error e

/-- Outer `for unsorted in 0..slice.len()` loop of `SelectionSort::sort`; `k`
counts the remaining iterations of the range, fixed at loop entry. -/
def selectOuter (le : α → α → Bool) (l : List α) (u : Nat) (k : Nat) : M (List α) :=
  match k with
  | 0 => .ok l
  | k + 1 =>
    match selectStep le l u with
    | .ok l2 => selectOuter le l2 (u + 1) k
    | .error e => .error e

/-- `SelectionSort::sort`. -/
def selectionSort (le : α → α → Bool) (l : List α) : M (List α) :=
  selectOuter le l 0 l.length

/-- The cursor loop of the `quicksort` partition step, with fuel:
`while left <= right` over `rest`, including both `right == 0` break checks. -/
def partitionLoop (le : α → α → Bool) (pivot : α) (rest : List α) (fuel left right : Nat) :
    M (List α × Nat) :=
  match fuel with
  | 0 => .error .fuelOut
  | fuel + 1 =>
    if left ≤ right then
      match getE rest left with
      | .ok a =>
        if le a pivot then partitionLoop le pivot rest fuel (left + 1) right
        else
          match getE rest right with
          | .ok b =>
            if gtB le b pivot then
              if right = 0 then .ok (rest, left)
              else partitionLoop le pivot rest fuel left (right - 1)
            else
              match swapE rest left right with
              | .ok rest2 =>
                if right = 0 then .ok (rest2, left + 1)
                else partitionLoop le pivot rest2 fuel (left + 1) (right - 1)
              | .error e => .error e
          | .error e => .error e
      | .error e => .error e
    else .ok (rest, left)

/-- The recursive `quicksort` free function, with fuel for the recursion depth:
base cases for lengths 0, 1 and 2, then `split_first_mut`, the partition loop,
`swap(0, left)`, `split_at_mut(left)`, the boundary `assert!`, and the two
recursive calls. -/
def quicksortRec (le : α → α → Bool) (fuel : Nat) (l : List α) : M (List α) :=
  match fuel with
  | 0 => .error .fuelOut
  | fuel + 1 =>
    match l.length with
    | 0 | 1 => .ok l
    | 2 =>
      match getE l 0, getE l 1 with
      | .ok a, .ok b => if gtB le a b then swapE l 0 1 else .ok l
      | .error e, _ => .error e
      | _, .error e => .error e
    | _ + 3 =>
      match l with
      | [] => .error .oobPanic
      | pivot :: rest =>
        match partitionLoop le pivot rest (rest.length + 1) 0 (rest.length - 1) with
        | .ok (rest2, lf) =>
          match swapE (pivot :: rest2) 0 lf with
          | .ok l2 =>
            if optLe le (l2.take lf).getLast? (l2.drop lf).head? then
              match quicksortRec le fuel (l2.take lf) with
              | .ok ls =>
                match l2.drop lf with
                | [] => .error .oobPanic
                | rh :: rt =>
                  match quicksortRec le fuel rt with
                  | .ok rs => .ok (ls ++ rh :: rs)
                  | .error e => .error e
              | .error e => .error e
            else .error .assertPanic
          | .error e => .error e
        | .error e => .error e

/-- `QuickSort::sort`. -/
def quickSort (le : α → α → Bool) (l : List α) : M (List α) :=
  quicksortRec le (l.length + 1) l

/-- The `sift_down` loop of `HeapSort` (`left_child i = 2*i+1`), with fuel. -/
def siftLoop (le : α → α → Bool) (fuel : Nat) (l : List α) (root endI : Nat) : M (List α) :=
  match fuel with
  | 0 => .error .fuelOut
  | fuel + 1 =>
    if 2 * root + 1 ≤ endI then
      match getE l root, getE l (2 * root + 1) with
      | .ok vr, .ok vc =>
        if 2 * root + 2 ≤ endI then
          match getE l (2 * root + 2) with
          | .ok vc1 =>
            if ltB le (if ltB le vr vc then vc else vr) vc1 then
              match swapE l root (2 * root + 2) with
              | .ok l2 => siftLoop le fuel l2 (2 * root + 2) endI
              | .error e => .error e
            else
              if (if ltB le vr vc then 2 * root + 1 else root) = root then .ok l
              else
                match swapE l root (2 * root + 1) with
                | .ok l2 => siftLoop le fuel l2 (2 * root + 1) endI
                | .error e => .error e
          | .error e => .error e
        else
          if (if ltB le vr vc then 2 * root + 1 else root) = root then .ok l
          else
            match swapE l root (2 * root + 1) with
            | .ok l2 => siftLoop le fuel l2 (2 * root + 1) endI
            | .error e => .error e
      | .error e, _ => .error e
      | _, .error e => .error e
    else .ok l

/-- The backward `while start >= 0` loop of `HeapSort::heapify`, counting
`start` down to zero. -/
def heapifyLoop (le : α → α → Bool) (l : List α) (start : Nat) : M (List α) :=
  match siftLoop le (l.length + 1) l start (l.length - 1) with
  | .ok l2 =>
    match start with
    | 0 => .ok l2
    | s + 1 => heapifyLoop le l2 s
  | .error e => .error e

/-- `HeapSort::heapify`; the `(i - 1) / 2` parent computation underflows (a
panic in debug builds) on slices of length below two, which the caller rules
out; `parent (len - 1) = (len - 2) / 2`. -/
def heapify (le : α → α → Bool) (l : List α) : M (List α) :=
  match l.length with
  | 0 => .error .oobPanic
  | 1 => .error .oobPanic
  | n + 2 => heapifyLoop le l (n / 2)

/-- The extraction loop of `HeapSort::sort`:
`while end > 0 { swap(0, end); end -= 1; sift_down(0, end) }`. -/
def extractLoop (le : α → α → Bool) (l : List α) (endI : Nat) : M (List α) :=
  match endI with
  | 0 => .ok l
  | e + 1 =>
    match swapE l 0 (e + 1) with
    | .ok l2 =>
      match siftLoop le (l2.length + 1) l2 0 e with
      | .ok l3 => extractLoop le l3 e
      | .error er => .error er
    | .error er => .error er

/-- `HeapSort::sort`. -/
def heapSort (le : α → α → Bool) (l : List α) : M (List α) :=
  if l.length ≤ 1 then .ok l
  else
    match heapify le l with
    | .ok l2 => extractLoop le l2 (l.length - 1)
    | .error e => .error e

/-- The cursor loop of `MergeSort::merge`, with fuel: advance `start` while its
element is `<=` the element at `start2`, otherwise rotate `slice[start..=start2]`
one step right and advance `start`, `mid` and `start2`. -/
def mergeLoop (le : α → α → Bool) (fuel : Nat) (l : List α) (start mid start2 endI : Nat) :
    M (List α) :=
  match fuel with
  | 0 => .error .fuelOut
  | fuel + 1 =>
    if start ≤ mid ∧ start2 ≤ endI then
      match getE l start, getE l start2 with
      | .ok a, .ok b =>
        if le a b then mergeLoop le fuel l (start + 1) mid start2 endI
        else
          match rotSegE l start start2 with
          | .ok l2 => mergeLoop le fuel l2 (start + 1) (mid + 1) (start2 + 1) endI
          | .error e => .error e
      | .error e, _ => .error e
      | _, .error e => .error e
    else .ok l

/-- `MergeSort::merge` with `start2 = mid + 1` and the early exit
`if slice[mid] <= slice[start2] { return }`. -/
def mergeSeg (le : α → α → Bool) (l : List α) (start mid endI : Nat) : M (List α) :=
  match getE l mid, getE l (mid + 1) with
  | .ok a, .ok b =>
    if le a b then .ok l
    else mergeLoop le (endI + 2 - start) l start mid (mid + 1) endI
  | .error e, _ => .error e
  | _, .error e => .error e

/-- `MergeSort::merge_sort`, with fuel for the recursion depth. -/
def mergeSortRec (le : α → α → Bool) (fuel : Nat) (l : List α) (left right : Nat) :
    M (List α) :=
  match fuel with
  | 0 => .error .fuelOut
  | fuel + 1 =>
    if left < right then
      match mergeSortRec le fuel l left ((left + right) / 2) with
      | .ok l2 =>
        match mergeSortRec le fuel l2 ((left + right) / 2 + 1) right with
        | .ok l3 => mergeSeg le l3 left ((left + right) / 2) right
        | .error e => .error e
      | .error e => .error e
    else .ok l

/-- `MergeSort::sort`. -/
def mergeSort (le : α → α → Bool) (l : List α) : M (List α) :=
  if l.length ≤ 1 then .ok l
  else mergeSortRec le l.length l 0 (l.length - 1)

/-- Standard textbook merge of two lists by `le`; the `mergeLoop` rotation loop
is proven below to implement it on the designated segment. -/
def mergeL (le : α → α → Bool) (ls rs : List α) : List α :=
  match ls, rs with
  | [], r => r
  | a :: ls1, [] => a :: ls1
  | x :: ls1, y :: rs1 =>
    if le x y then x :: mergeL le ls1 (y :: rs1) else y :: mergeL le (x :: ls1) rs1
termination_by ls.length + rs.length
decreasing_by all_goals simp [List.length_cons]

/-- Insert `x` into `pre` in front of the first element strictly greater than
`x` (so after all elements `≤ x`); the linear insertion loop is proven below to
realize it on a sorted prefix. -/
def insUB (le : α → α → Bool) (pre : List α) (x : α) : List α :=
  match pre with
  | [] => [x]
  | y :: t => if ltB le x y then x :: y :: t else y :: insUB le t x

/-- Modelled from the spec: `StdSorter` delegates to the platform built-in sort
(`slice::sort`, code outside this repository); modelled as a comparison sort by
repeated ordered insertion. -/
def stdSort (le : α → α → Bool) (l : List α) : List α :=
  l.foldl (fun acc x => insUB le acc x) []

/-- Modelled from the spec: the "first position not less than the new element"
in the searched segment (its length if there is none). -/
def lowIdx (le : α → α → Bool) (l : List α) (x : α) : Nat :=
  (l.findIdx? fun y => !(ltB le y x)).getD l.length

/-- Modelled from the spec: the first position whose element is strictly
greater than the new element, i.e. the insertion point "after existing equal
elements" (the length if there is none). -/
def upIdx (le : α → α → Bool) (l : List α) (x : α) : Nat :=
  (l.findIdx? fun y => gtB le y x).getD l.length

/-- The list is ascending for `le`: every earlier element is `le` every later
one. -/
abbrev SortedLe (le : α → α → Bool) (l : List α) : Prop :=
  List.Pairwise (fun a b => le a b = true) l

/-- Totality of the boolean comparison (part of Rust's `Ord` contract). -/
abbrev TotalLe (le : α → α → Bool) : Prop := ∀ a b, le a b = true ∨ le b a = true

/-- Transitivity of the boolean comparison (part of Rust's `Ord` contract). -/
abbrev TransLe (le : α → α → Bool) : Prop :=
  ∀ a b c, le a b = true → le b c = true → le a c = true

/-- Comparison fact between two positions, stated through optional indexing. -/
abbrev elemLe (le : α → α → Bool) (l : List α) (i j : Nat) : Prop :=
  ∀ a b, l[i]? = some a → l[j]? = some b → le a b = true

/-- Max-heap property on positions `[0, endI]` above the root bound `s0`: each
position `i ≥ 1` in range whose parent `(i-1)/2` is `≥ s0` is `le` its parent. -/
abbrev HeapUpTo (le : α → α → Bool) (l : List α) (s0 endI : Nat) : Prop :=
  ∀ i, 1 ≤ i → i ≤ endI → s0 ≤ (i - 1) / 2 → elemLe le l i ((i - 1) / 2)

/-- `HeapUpTo` with the edges into position `r` exempt: the sifting hole. -/
abbrev HeapExcept (le : α → α → Bool) (l : List α) (s0 endI r : Nat) : Prop :=
  ∀ i, 1 ≤ i → i ≤ endI → s0 ≤ (i - 1) / 2 → (i - 1) / 2 ≠ r →
    elemLe le l i ((i - 1) / 2)

/-- The children of the hole `r` are bounded by the hole's parent, recorded
whenever the hole has moved down at least one level. -/
abbrev HoleBound (le : α → α → Bool) (l : List α) (s0 endI r : Nat) : Prop :=
  r ≠ s0 → s0 ≤ (r - 1) / 2 →
    ∀ i, 1 ≤ i → i ≤ endI → (i - 1) / 2 = r → elemLe le l i ((r - 1) / 2)

/-- Key-only comparison on key-tag pairs, for the stability claims. -/
def keyLe {κ : Type u} [LinearOrder κ] (a b : κ × Nat) : Bool := decide (a.1 ≤ b.1)

/-! ### Basic facts about the slice primitives -/

theorem getE_eq_ok_iff {l : List α} {i : Nat} {a : α} :
    getE l i = .ok a ↔ l[i]? = some a := by
  unfold getE
  cases h : l[i]? <;> simp

theorem getE_ok_of_lt {l : List α} {i : Nat} (h : i < l.length) :
    getE l i = .ok (l.get ⟨i, h⟩) := by
  rw [getE_eq_ok_iff, List.getElem?_eq_getElem h]
  rfl

theorem getE_err {l : List α} {i : Nat} {e : SortErr} (h : getE l i = .error e) :
    l.length ≤ i ∧ e = .oobPanic := by
  unfold getE at h
  cases hg : l[i]? with
  | none =>
    rw [hg] at h
    exact ⟨by simpa using List.getElem?_eq_none_iff.mp hg, by
      simpa using h.symm⟩
  | some a => rw [hg] at h; simp at h

theorem getE_lt_of_ok {l : List α} {i : Nat} {a : α} (h : getE l i = .ok a) :
    i < l.length := by
  rw [getE_eq_ok_iff] at h
  exact (List.getElem?_eq_some.mp h).1

theorem swapE_eq_ok {l r : List α} {i j : Nat} (h : swapE l i j = .ok r) :
    ∃ a b, l[i]? = some a ∧ l[j]? = some b ∧ r = (l.set i b).set j a := by
  unfold swapE at h
  cases hi : getE l i with
  | error e => rw [hi] at h; simp at h
  | ok a =>
    cases hj : getE l j with
    | error e => rw [hi, hj] at h; simp at h
    | ok b =>
      rw [hi, hj] at h
      exact ⟨a, b, getE_eq_ok_iff.mp hi, getE_eq_ok_iff.mp hj, by simpa using h.symm⟩

theorem swapE_ok_of_lt {l : List α} {i j : Nat} (hi : i < l.length) (hj : j < l.length) :
    swapE l i j = .ok ((l.set i (l.get ⟨j, hj⟩)).set j (l.get ⟨i, hi⟩)) := by
  unfold swapE
  rw [getE_ok_of_lt hi, getE_ok_of_lt hj]

theorem swapE_length {l r : List α} {i j : Nat} (h : swapE l i j = .ok r) :
    r.length = l.length := by
  obtain ⟨a, b, _, _, hr⟩ := swapE_eq_ok h
  simp [hr]

theorem swapE_getElem? {l r : List α} {i j : Nat} (h : swapE l i j = .ok r) (k : Nat) :
    r[k]? = if k = j then l[i]? else if k = i then l[j]? else l[k]? := by
  obtain ⟨a, b, ha, hb, hr⟩ := swapE_eq_ok h
  have hi : i < l.length := (List.getElem?_eq_some.mp ha).1
  have hj : j < l.length := (List.getElem?_eq_some.mp hb).1
  subst hr
  rw [List.getElem?_set, List.getElem?_set, List.length_set]
  by_cases hkj : k = j
  · rw [if_pos hkj.symm, if_pos hj, if_pos hkj, ha]
  · rw [if_neg (fun hh => hkj hh.symm), if_neg hkj]
    by_cases hki : k = i
    · rw [if_pos hki.symm, if_pos hi, if_pos hki, hb]
    · rw [if_neg (fun hh => hki hh.symm), if_neg hki]

theorem getElem_cons_set_perm :
    ∀ (t : List α) (k : Nat) (x b : α), t[k]? = some b → (b :: t.set k x).Perm (x :: t) := by
  intro t
  induction t with
  | nil => intro k x b hb; simp at hb
  | cons y s ih =>
    intro k x b hb
    cases k with
    | zero =>
      have hby : y = b := by simpa using hb
      have he : (b :: (y :: s).set 0 x) = b :: x :: s := by simp
      rw [he, ← hby]
      exact List.Perm.swap x y s
    | succ m =>
      simp only [List.getElem?_cons_succ] at hb
      have he : (b :: (y :: s).set (m + 1) x) = b :: y :: s.set m x := by simp
      rw [he]
      exact (List.Perm.swap y b _).trans
        ((List.Perm.cons y (ih m x b hb)).trans (List.Perm.swap x y s))

theorem set_set_perm :
    ∀ (l : List α) (i j : Nat) (a b : α), l[i]? = some a → l[j]? = some b →
      ((l.set i b).set j a).Perm l := by
  intro l
  induction l with
  | nil => intro i j a b ha _; simp at ha
  | cons x t ih =>
    intro i j a b ha hb
    cases i with
    | zero =>
      have hax : x = a := by simpa using ha
      cases j with
      | zero =>
        subst hax
        simp
      | succ k =>
        simp only [List.getElem?_cons_succ] at hb
        have he : ((x :: t).set 0 b).set (k + 1) a = b :: t.set k a := by simp
        rw [he, ← hax]
        exact getElem_cons_set_perm t k x b hb
    | succ m =>
      simp only [List.getElem?_cons_succ] at ha
      cases j with
      | zero =>
        have hbx : x = b := by simpa using hb
        have he : ((x :: t).set (m + 1) b).set 0 a = a :: t.set m b := by simp
        rw [he, ← hbx]
        exact getElem_cons_set_perm t m x a ha
      | succ k =>
        simp only [List.getElem?_cons_succ] at hb
        have he : ((x :: t).set (m + 1) b).set (k + 1) a = x :: (t.set m b).set k a := by simp
        rw [he]
        exact List.Perm.cons x (ih m k a b ha hb)

theorem swapE_perm {l r : List α} {i j : Nat} (h : swapE l i j = .ok r) : r.Perm l := by
  obtain ⟨a, b, ha, hb, hr⟩ := swapE_eq_ok h
  subst hr
  exact set_set_perm l i j a b ha hb

theorem swapE_take {l r : List α} {i j : Nat} (h : swapE l i j = .ok r) {m : Nat}
    (hmi : m ≤ i) (hmj : m ≤ j) : r.take m = l.take m := by
  apply List.ext_getElem?
  intro k
  rw [List.getElem?_take, List.getElem?_take]
  by_cases hk : k < m
  · simp only [hk, if_true]
    rw [swapE_getElem? h k, if_neg (by omega), if_neg (by omega)]
  · simp [hk]

theorem swapE_drop {l r : List α} {i j : Nat} (h : swapE l i j = .ok r) {m : Nat}
    (hmi : i < m) (hmj : j < m) : r.drop m = l.drop m := by
  apply List.ext_getElem?
  intro k
  rw [List.getElem?_drop, List.getElem?_drop]
  rw [swapE_getElem? h (m + k), if_neg (by omega), if_neg (by omega)]

theorem rotSegE_perm {l r : List α} {i j : Nat} (h : rotSegE l i j = .ok r) : r.Perm l := by
  unfold rotSegE at h
  split at h
  case isFalse => simp at h
  case isTrue hb =>
    simp only [Except.ok.injEq] at h
    subst h
    have hseg : (l.drop i).take (j - i + 1)
        = (l.drop i).take (j - i) ++ [l.get ⟨j, hb.2⟩] := by
      rw [List.take_succ]
      have hg : (l.drop i)[j - i]? = some (l.get ⟨j, hb.2⟩) := by
        rw [List.getElem?_drop]
        have hij : i + (j - i) = j := by omega
        rw [hij, List.getElem?_eq_getElem hb.2]
        rfl
      rw [hg]
      rfl
    have h1 : (l.drop i).drop (j - i + 1) = l.drop (j + 1) := by
      rw [List.drop_drop]
      congr 1
      omega
    have h2 : l.drop i = (l.drop i).take (j - i) ++ [l.get ⟨j, hb.2⟩] ++ l.drop (j + 1) := by
      conv_lhs => rw [← List.take_append_drop (j - i + 1) (l.drop i)]
      rw [hseg, h1]
    have h3 : (l.get ⟨j, hb.2⟩ :: ((l.drop i).take (j - i) ++ l.drop (j + 1))).Perm
        (l.drop i) := by
      conv_rhs => rw [h2]
      rw [List.append_assoc, List.singleton_append]
      exact List.perm_middle.symm
    have h4 : (l.take i ++ l.get ⟨j, hb.2⟩ :: (l.drop i).take (j - i) ++ l.drop (j + 1))
        = l.take i ++ (l.get ⟨j, hb.2⟩ :: ((l.drop i).take (j - i) ++ l.drop (j + 1))) := by
      simp [List.append_assoc]
    rw [h4]
    exact (List.Perm.append_left (l.take i) h3).trans
      (by rw [List.take_append_drop])

theorem rotSegE_insert {pre suf : List α} {x : α} {i : Nat} (hi : i ≤ pre.length) :
    rotSegE (pre ++ x :: suf) i pre.length = .ok (pre.take i ++ x :: (pre.drop i ++ suf)) := by
  unfold rotSegE
  have hlen : i ≤ pre.length ∧ pre.length < (pre ++ x :: suf).length := by
    constructor
    · exact hi
    · simp
  rw [dif_pos hlen]
  congr 1
  have hget : (pre ++ x :: suf).get ⟨pre.length, hlen.2⟩ = x := by
    have h1 : (pre ++ x :: suf)[pre.length]? = some x := by
      rw [List.getElem?_append_right (le_refl _)]
      simp
    have h2 : (pre ++ x :: suf)[pre.length]?
        = some ((pre ++ x :: suf).get ⟨pre.length, hlen.2⟩) := by
      rw [List.getElem?_eq_getElem hlen.2, List.get_eq_getElem]
    rw [h1] at h2
    exact (Option.some_inj.mp h2).symm
  have htake : (pre ++ x :: suf).take i = pre.take i := by
    rw [List.take_append_of_le_length hi]
  have hdrop1 : (pre ++ x :: suf).drop i = pre.drop i ++ x :: suf := by
    rw [List.drop_append_of_le_length hi]
  have hdrop2 : (pre ++ x :: suf).drop (pre.length + 1) = suf := by
    have he : pre ++ x :: suf = (pre ++ [x]) ++ suf := by simp
    rw [he]
    have hl : pre.length + 1 = (pre ++ [x]).length := by simp
    rw [hl, List.drop_left]
  rw [hget, htake, hdrop1, hdrop2, List.take_left' (by simp)]
  simp [List.append_assoc]

theorem rotSegE_length {l r : List α} {i j : Nat} (h : rotSegE l i j = .ok r) :
    r.length = l.length := by
  exact (rotSegE_perm h).length_eq

theorem sortedLe_of_chain {le : α → α → Bool} (htrans : TransLe le) {l : List α}
    (h : List.Chain' (fun a b => le a b = true) l) : SortedLe le l := by
  haveI : IsTrans α (fun a b => le a b = true) := ⟨fun a b c => htrans a b c⟩
  exact List.chain'_iff_pairwise.mp h

/-! ### Bubble sort -/

theorem swapE_adjacent (front : List α) (x y : α) (t : List α) :
    swapE (front ++ x :: y :: t) (front.length + 1) front.length
      = .ok (front ++ y :: x :: t) := by
  have hi : front.length + 1 < (front ++ x :: y :: t).length := by simp
  have hj : front.length < (front ++ x :: y :: t).length := by simp
  have h := swapE_ok_of_lt hi hj
  rw [h]
  congr 1
  apply List.ext_getElem?
  intro k
  rw [swapE_getElem? h k]
  by_cases hkj : k = front.length
  · subst hkj
    rw [if_pos rfl]
    rw [List.getElem?_append_right (by omega), List.getElem?_append_right (by omega)]
    simp
  · rw [if_neg hkj]
    by_cases hki : k = front.length + 1
    · subst hki
      rw [if_pos rfl]
      rw [List.getElem?_append_right (by omega), List.getElem?_append_right (by omega)]
      simp
    · rw [if_neg hki]
      by_cases hlt : k < front.length
      · rw [List.getElem?_append_left hlt, List.getElem?_append_left hlt]
      · rw [List.getElem?_append_right (by omega), List.getElem?_append_right (by omega)]
        have h2 : k - front.length = (k - front.length - 2) + 2 := by omega
        rw [h2]
        simp

theorem bubblePass_bridge (le : α → α → Bool) :
    ∀ (rest front : List α) (x : α) (s : Bool),
      bubblePass le (front ++ x :: rest) (front.length + 1) rest.length s
        = .ok (front ++ (passGo le x rest).1, s || (passGo le x rest).2) := by
  intro rest
  induction rest with
  | nil =>
    intro front x s
    simp [bubblePass, passGo]
  | cons y t ih =>
    intro front x s
    rw [List.length_cons, bubblePass]
    have hgi : getE (front ++ x :: y :: t) (front.length + 1) = .ok y := by
      rw [getE_eq_ok_iff, List.getElem?_append_right (by omega)]
      simp
    have hgj : getE (front ++ x :: y :: t) (front.length + 1 - 1) = .ok x := by
      rw [getE_eq_ok_iff]
      have h1 : front.length + 1 - 1 = front.length := by omega
      rw [h1, List.getElem?_append_right (by omega)]
      simp
    simp only [hgi, hgj]
    by_cases hyx : ltB le y x = true
    · rw [if_pos hyx]
      have h1 : front.length + 1 - 1 = front.length := by omega
      have hih := ih (front ++ [y]) x true
      have he : front ++ y :: x :: t = (front ++ [y]) ++ x :: t := by simp
      have he2 : front.length + 1 + 1 = (front ++ [y]).length + 1 := by simp
      rw [h1, swapE_adjacent, he, he2]
      simp only [hih]
      simp only [passGo]
      rw [if_pos hyx]
      simp
    · rw [if_neg hyx]
      have he : front ++ x :: y :: t = (front ++ [x]) ++ y :: t := by simp
      have he2 : front.length + 1 + 1 = (front ++ [x]).length + 1 := by simp
      rw [he, he2, ih (front ++ [x]) y s]
      simp only [passGo]
      rw [if_neg hyx]
      simp

theorem bubblePass_eq_passL (le : α → α → Bool) (l : List α) :
    bubblePass le l 1 (l.length - 1) false = .ok (passL le l) := by
  cases l with
  | nil => simp [bubblePass, passL]
  | cons x t =>
    have h := bubblePass_bridge le t [] x false
    simpa [passL] using h

theorem passGo_perm (le : α → α → Bool) :
    ∀ (t : List α) (x : α), (passGo le x t).1.Perm (x :: t) := by
  intro t
  induction t with
  | nil => intro x; simp [passGo]
  | cons y t ih =>
    intro x
    by_cases hyx : ltB le y x = true
    · simp only [passGo, hyx, if_pos]
      exact (List.Perm.cons y (ih x)).trans (List.Perm.swap x y t)
    · have hyx' : ltB le y x = false := by simpa using hyx
      simp only [passGo, hyx', Bool.false_eq_true, if_neg, not_false_iff]
      exact List.Perm.cons x (ih y)

theorem passGo_false (le : α → α → Bool) :
    ∀ (t : List α) (x : α), (passGo le x t).2 = false →
      (passGo le x t).1 = x :: t ∧ List.Chain' (fun a b => le a b = true) (x :: t) := by
  intro t
  induction t with
  | nil => intro x _; simp [passGo]
  | cons y t ih =>
    intro x hs
    by_cases hyx : ltB le y x = true
    · simp only [passGo, hyx, if_pos] at hs
      simp at hs
    · have hyx' : ltB le y x = false := by simpa using hyx
      simp only [passGo, hyx', Bool.false_eq_true, if_neg, not_false_iff] at hs ⊢
      obtain ⟨h1, h2⟩ := ih y hs
      refine ⟨by rw [h1], ?_⟩
      rw [List.chain'_cons]
      refine ⟨?_, h2⟩
      have hb : !(le x y) = false := by simpa [ltB] using hyx'
      simpa using hb

theorem passGo_invCount (le : α → α → Bool) (htot : TotalLe le) :
    ∀ (t : List α) (x : α), (passGo le x t).2 = true →
      invCount le (passGo le x t).1 < invCount le (x :: t) := by
  intro t
  induction t with
  | nil => intro x h; simp [passGo] at h
  | cons y t ih =>
    intro x hs
    by_cases hyx : ltB le y x = true
    · have hxy : le x y = false := by simpa [ltB] using hyx
      have hyx2 : le y x = true := by
        rcases htot x y with h | h
        · rw [h] at hxy; cases hxy
        · exact h
      simp only [passGo, hyx, if_pos]
      have hcount : (passGo le x t).1.countP (fun z => !(le y z))
          = (x :: t).countP (fun z => !(le y z)) :=
        List.Perm.countP_eq _ (passGo_perm le t x)
      have hle : invCount le (passGo le x t).1 ≤ invCount le (x :: t) := by
        by_cases hsw : (passGo le x t).2 = true
        · exact Nat.le_of_lt (ih x hsw)
        · have h1 := (passGo_false le t x (by simpa using hsw)).1
          rw [h1]
      have hsplit : invCount le (y :: x :: t)
          = (x :: t).countP (fun z => !(le y z)) + invCount le (x :: t) := rfl
      have hsplit2 : invCount le (x :: y :: t)
          = (y :: t).countP (fun z => !(le x z)) + invCount le (y :: t) := rfl
      have hc1 : (x :: t).countP (fun z => !(le y z))
          = (if !(le y x) then 1 else 0) + t.countP (fun z => !(le y z)) := by
        rw [List.countP_cons]
        omega
      have hc2 : (y :: t).countP (fun z => !(le x z))
          = (if !(le x y) then 1 else 0) + t.countP (fun z => !(le x z)) := by
        rw [List.countP_cons]
        omega
      have hinv1 : invCount le (x :: t) = t.countP (fun z => !(le x z)) + invCount le t := rfl
      have hinv2 : invCount le (y :: t) = t.countP (fun z => !(le y z)) + invCount le t := rfl
      have hxy1 : (if !(le x y) then 1 else 0) = 1 := by rw [hxy]; rfl
      have hyx1 : (if !(le y x) then 1 else 0) = 0 := by rw [hyx2]; rfl
      calc invCount le (y :: (passGo le x t).1)
          = (passGo le x t).1.countP (fun z => !(le y z)) + invCount le (passGo le x t).1 := rfl
        _ ≤ (x :: t).countP (fun z => !(le y z)) + invCount le (x :: t) := by
            rw [hcount]; omega
        _ < invCount le (x :: y :: t) := by
            rw [hsplit2, hc1, hc2, hinv1, hinv2, hxy1, hyx1]
            omega
    · have hyx' : ltB le y x = false := by simpa using hyx
      simp only [passGo, hyx', Bool.false_eq_true, if_neg, not_false_iff] at hs ⊢
      have hsw := ih y hs
      have hcount : (passGo le y t).1.countP (fun z => !(le x z))
          = (y :: t).countP (fun z => !(le x z)) :=
        List.Perm.countP_eq _ (passGo_perm le t y)
      calc invCount le (x :: (passGo le y t).1)
          = (passGo le y t).1.countP (fun z => !(le x z)) + invCount le (passGo le y t).1 := rfl
        _ < (y :: t).countP (fun z => !(le x z)) + invCount le (y :: t) := by
            rw [hcount]; omega
        _ = invCount le (x :: y :: t) := rfl

theorem passGo_filter (le : α → α → Bool) (p : α → Bool)
    (hp : ∀ a b, ltB le b a = true → ¬(p a = true ∧ p b = true)) :
    ∀ (t : List α) (x : α), (passGo le x t).1.filter p = (x :: t).filter p := by
  intro t
  induction t with
  | nil => intro x; simp [passGo]
  | cons y t ih =>
    intro x
    by_cases hyx : ltB le y x = true
    · simp only [passGo, hyx, if_pos]
      have hnp := hp x y hyx
      rw [List.filter_cons, ih x, List.filter_cons, List.filter_cons, List.filter_cons]
      by_cases hpy : p y = true
      · have hpx : p x = false := by
          cases hpx : p x
          · rfl
          · exact absurd ⟨hpx, hpy⟩ hnp
        rw [hpy, hpx]
        simp
      · have hpy' : p y = false := by simpa using hpy
        rw [hpy']
        simp
    · have hyx' : ltB le y x = false := by simpa using hyx
      simp only [passGo, hyx', Bool.false_eq_true, if_neg, not_false_iff]
      rw [List.filter_cons, ih y]
      simp [List.filter_cons]

theorem passL_perm (le : α → α → Bool) (l : List α) : (passL le l).1.Perm l := by
  cases l with
  | nil => simp [passL]
  | cons x t => exact passGo_perm le t x

theorem passL_false {le : α → α → Bool} {l l2 : List α} (h : passL le l = (l2, false)) :
    l2 = l ∧ List.Chain' (fun a b => le a b = true) l := by
  cases l with
  | nil =>
    simp [passL] at h
    simp [h]
  | cons x t =>
    simp only [passL] at h
    have h2 : (passGo le x t).2 = false := by rw [h]
    obtain ⟨h1, hc⟩ := passGo_false le t x h2
    have h3 : l2 = (passGo le x t).1 := by rw [h]
    exact ⟨by rw [h3, h1], hc⟩

theorem passL_invCount {le : α → α → Bool} (htot : TotalLe le) {l : List α}
    (h : (passL le l).2 = true) : invCount le (passL le l).1 < invCount le l := by
  cases l with
  | nil => simp [passL] at h
  | cons x t => exact passGo_invCount le htot t x h

theorem passL_filter {le : α → α → Bool} {p : α → Bool}
    (hp : ∀ a b, ltB le b a = true → ¬(p a = true ∧ p b = true)) (l : List α) :
    (passL le l).1.filter p = l.filter p := by
  cases l with
  | nil => simp [passL]
  | cons x t => exact passGo_filter le p hp t x

theorem bubbleLoop_sorted {le : α → α → Bool} (htrans : TransLe le) :
    ∀ (fuel : Nat) (l r : List α), bubbleLoop le fuel l = .ok r → SortedLe le r := by
  intro fuel
  induction fuel with
  | zero => intro l r h; simp [bubbleLoop] at h
  | succ fuel ih =>
    intro l r h
    rw [bubbleLoop, bubblePass_eq_passL] at h
    rcases hpass : passL le l with ⟨l2, sw⟩
    rw [hpass] at h
    cases sw
    · simp at h
      obtain ⟨he, hc⟩ := passL_false hpass
      rw [← h, he]
      exact sortedLe_of_chain htrans hc
    · simp at h
      exact ih _ _ h

theorem bubbleLoop_perm {le : α → α → Bool} :
    ∀ (fuel : Nat) (l r : List α), bubbleLoop le fuel l = .ok r → r.Perm l := by
  intro fuel
  induction fuel with
  | zero => intro l r h; simp [bubbleLoop] at h
  | succ fuel ih =>
    intro l r h
    rw [bubbleLoop, bubblePass_eq_passL] at h
    rcases hpass : passL le l with ⟨l2, sw⟩
    rw [hpass] at h
    have hl2 : l2.Perm l := by
      have := passL_perm le l
      rw [hpass] at this
      exact this
    cases sw
    · simp at h
      rw [← h]
      exact hl2
    · simp at h
      exact (ih _ _ h).trans hl2

theorem bubbleLoop_filter {le : α → α → Bool} {p : α → Bool}
    (hp : ∀ a b, ltB le b a = true → ¬(p a = true ∧ p b = true)) :
    ∀ (fuel : Nat) (l r : List α), bubbleLoop le fuel l = .ok r →
      r.filter p = l.filter p := by
  intro fuel
  induction fuel with
  | zero => intro l r h; simp [bubbleLoop] at h
  | succ fuel ih =>
    intro l r h
    rw [bubbleLoop, bubblePass_eq_passL] at h
    rcases hpass : passL le l with ⟨l2, sw⟩
    rw [hpass] at h
    have hl2 : l2.filter p = l.filter p := by
      have := @passL_filter _ le _ hp l
      rw [hpass] at this
      exact this
    cases sw
    · simp at h
      rw [← h, hl2]
    · simp at h
      rw [ih _ _ h, hl2]

theorem bubbleLoop_ok {le : α → α → Bool} (htot : TotalLe le) :
    ∀ (fuel : Nat) (l : List α), invCount le l < fuel →
      ∃ r, bubbleLoop le fuel l = .ok r := by
  intro fuel
  induction fuel with
  | zero => intro l h; omega
  | succ fuel ih =>
    intro l h
    rw [bubbleLoop, bubblePass_eq_passL]
    rcases hpass : passL le l with ⟨l2, sw⟩
    cases sw
    · exact ⟨l2, by simp⟩
    · have hlt : invCount le l2 < invCount le l := by
        have := @passL_invCount _ le htot l (by rw [hpass])
        rwa [hpass] at this
      obtain ⟨r, hr⟩ := ih l2 (by omega)
      exact ⟨r, by simpa using hr⟩

theorem bubbleSort_ok {le : α → α → Bool} (htot : TotalLe le) (l : List α) :
    ∃ r, bubbleSort le l = .ok r :=
  bubbleLoop_ok htot (invCount le l + 1) l (by omega)

theorem bubbleSort_sorted {le : α → α → Bool} (htrans : TransLe le) {l r : List α}
    (h : bubbleSort le l = .ok r) : SortedLe le r :=
  bubbleLoop_sorted htrans _ l r h

theorem bubbleSort_perm {le : α → α → Bool} {l r : List α}
    (h : bubbleSort le l = .ok r) : r.Perm l :=
  bubbleLoop_perm _ l r h

theorem bubbleSort_filter {le : α → α → Bool} {p : α → Bool}
    (hp : ∀ a b, ltB le b a = true → ¬(p a = true ∧ p b = true)) {l r : List α}
    (h : bubbleSort le l = .ok r) : r.filter p = l.filter p :=
  bubbleLoop_filter hp _ l r h

/-! ### Insertion sort, linear variant -/

theorem swapE_comm (l : List α) (i j : Nat) : swapE l i j = swapE l j i := by
  unfold swapE
  cases hi : getE l i with
  | error e =>
    cases hj : getE l j with
    | error e2 =>
      obtain ⟨_, he⟩ := getE_err hi
      obtain ⟨_, he2⟩ := getE_err hj
      rw [he, he2]
    | ok b => rfl
  | ok a =>
    cases hj : getE l j with
    | error e2 => rfl
    | ok b =>
      by_cases hij : i = j
      · subst hij
        have hab : a = b := by
          rw [getE_eq_ok_iff] at hi hj
          rw [hi] at hj
          exact Option.some_inj.mp hj
        subst hab
        rfl
      · simp only [Except.ok.injEq]
        rw [List.set_comm _ _ _ hij]

theorem swapE_adjacent2 (front : List α) (x y : α) (t : List α) :
    swapE (front ++ x :: y :: t) front.length (front.length + 1)
      = .ok (front ++ y :: x :: t) := by
  rw [swapE_comm]
  exact swapE_adjacent front x y t

theorem insertInner_perm {le : α → α → Bool} :
    ∀ (i : Nat) (l r : List α), insertInner le l i = .ok r → r.Perm l := by
  intro i
  induction i with
  | zero =>
    intro l r h
    simp only [insertInner, Except.ok.injEq] at h
    rw [← h]
  | succ k ih =>
    intro l r h
    rw [insertInner] at h
    cases hga : getE l k with
    | error e => rw [hga] at h; simp at h
    | ok a =>
      cases hgb : getE l (k + 1) with
      | error e => rw [hga, hgb] at h; simp at h
      | ok b =>
        rw [hga, hgb] at h
        simp only at h
        by_cases hab : gtB le a b = true
        · rw [if_pos hab] at h
          cases hsw : swapE l k (k + 1) with
          | error e => rw [hsw] at h; simp at h
          | ok l2 =>
            rw [hsw] at h
            simp only at h
            exact (ih l2 r h).trans (swapE_perm hsw)
        · rw [if_neg hab] at h
          simp only [Except.ok.injEq] at h
          rw [← h]

theorem insUB_perm (le : α → α → Bool) (x : α) :
    ∀ (pre : List α), (insUB le pre x).Perm (x :: pre) := by
  intro pre
  induction pre with
  | nil => simp [insUB]
  | cons y t ih =>
    rw [insUB]
    by_cases hxy : ltB le x y = true
    · rw [if_pos hxy]
    · rw [if_neg hxy]
      exact (List.Perm.cons y ih).trans (List.Perm.swap x y t)

theorem insUB_length (le : α → α → Bool) (x : α) (pre : List α) :
    (insUB le pre x).length = pre.length + 1 := by
  have := (insUB_perm le x pre).length_eq
  simpa using this

theorem insUB_mem {le : α → α → Bool} {x z : α} {pre : List α}
    (h : z ∈ insUB le pre x) : z = x ∨ z ∈ pre := by
  have := (insUB_perm le x pre).mem_iff.mp h
  simpa using this

theorem insUB_sorted {le : α → α → Bool} (htot : TotalLe le) (htrans : TransLe le) (x : α) :
    ∀ (pre : List α), SortedLe le pre → SortedLe le (insUB le pre x) := by
  intro pre
  induction pre with
  | nil => intro _; simpa [insUB, SortedLe] using List.pairwise_singleton _ x
  | cons y t ih =>
    intro hs
    obtain ⟨hy, ht⟩ := List.pairwise_cons.mp hs
    rw [insUB]
    by_cases hxy : ltB le x y = true
    · rw [if_pos hxy]
      have hxy2 : le x y = true := by
        rcases htot x y with h | h
        · exact h
        · exfalso
          simp [ltB, h] at hxy
      refine List.pairwise_cons.mpr ⟨?_, List.pairwise_cons.mpr ⟨hy, ht⟩⟩
      intro z hz
      rcases List.mem_cons.mp hz with hz | hz
      · exact hz ▸ hxy2
      · exact htrans x y z hxy2 (hy z hz)
    · rw [if_neg hxy]
      have hyx : le y x = true := by
        simpa [ltB] using hxy
      refine List.pairwise_cons.mpr ⟨?_, ih ht⟩
      intro z hz
      rcases insUB_mem hz with hz | hz
      · exact hz ▸ hyx
      · exact hy z hz

theorem insUB_append_last {le : α → α → Bool} {b x : α} (hbx : le b x = false) :
    ∀ (q : List α), insUB le (q ++ [b]) x = insUB le q x ++ [b] := by
  intro q
  induction q with
  | nil =>
    simp only [List.nil_append, insUB]
    rw [if_pos (by simp [ltB, hbx])]
    rfl
  | cons c q ih =>
    have he : (c :: q) ++ [b] = c :: (q ++ [b]) := by simp
    rw [he, insUB, insUB]
    by_cases hxc : ltB le x c = true
    · rw [if_pos hxc, if_pos hxc]
      simp
    · rw [if_neg hxc, if_neg hxc, ih]
      simp

theorem insUB_append_of_le {le : α → α → Bool} {x : α} :
    ∀ (pre : List α), (∀ c ∈ pre, le c x = true) → insUB le pre x = pre ++ [x] := by
  intro pre
  induction pre with
  | nil => intro _; simp [insUB]
  | cons c q ih =>
    intro hall
    rw [insUB]
    have hcx : le c x = true := hall c (by simp)
    rw [if_neg (by rw [ltB, hcx]; simp)]
    rw [ih (fun z hz => hall z (by simp [hz]))]
    simp

theorem filter_cons_comm {p : α → Bool} {x : α} {L : List α}
    (h : ∀ z ∈ L, ¬(p z = true ∧ p x = true)) :
    (x :: L).filter p = L.filter p ++ (if p x = true then [x] else []) := by
  rw [List.filter_cons]
  by_cases hx : p x = true
  · have hL : L.filter p = [] := by
      rw [List.filter_eq_nil_iff]
      intro z hz hpz
      exact h z hz ⟨hpz, hx⟩
    rw [hL, if_pos hx]
    simp
  · rw [if_neg hx, if_neg hx]
    simp

theorem insUB_filter {le : α → α → Bool} (htrans : TransLe le) {p : α → Bool}
    (hp : ∀ a b, ltB le b a = true → ¬(p a = true ∧ p b = true)) (x : α) :
    ∀ (pre : List α), SortedLe le pre →
      (insUB le pre x).filter p = pre.filter p ++ (if p x = true then [x] else []) := by
  intro pre
  induction pre with
  | nil =>
    intro _
    simp only [insUB, List.filter_nil, List.nil_append]
    rw [List.filter_cons]
    by_cases hx : p x = true
    · rw [if_pos hx, if_pos hx]
      rfl
    · rw [if_neg hx, if_neg hx]
      rfl
  | cons y t ih =>
    intro hs
    obtain ⟨hy, ht⟩ := List.pairwise_cons.mp hs
    rw [insUB]
    by_cases hxy : ltB le x y = true
    · rw [if_pos hxy]
      have hcomm : ∀ z ∈ y :: t, ¬(p z = true ∧ p x = true) := by
        intro z hz
        rcases List.mem_cons.mp hz with hz | hz
        · exact hz ▸ hp y x hxy
        · apply hp z x
          rw [ltB]
          by_contra hc
          have hzx : le z x = true := by simpa [ltB] using hc
          have hyz : le y z = true := hy z hz
          have hyx : le y x = true := htrans y z x hyz hzx
          simp [ltB, hyx] at hxy
      exact filter_cons_comm hcomm
    · rw [if_neg hxy]
      rw [List.filter_cons, List.filter_cons]
      by_cases hpy : p y = true
      · rw [if_pos hpy, if_pos hpy, ih ht]
        rfl
      · rw [if_neg hpy, if_neg hpy, ih ht]

theorem insertInner_bridge {le : α → α → Bool} (htot : TotalLe le) (htrans : TransLe le) :
    ∀ (pre : List α), SortedLe le pre → ∀ (x : α) (suf : List α),
      insertInner le (pre ++ x :: suf) pre.length = .ok (insUB le pre x ++ suf) := by
  intro pre
  induction pre using List.reverseRecOn with
  | nil =>
    intro _ x suf
    simp [insertInner, insUB]
  | append_singleton q b ih =>
    intro hsort x suf
    have hq : SortedLe le q := (List.pairwise_append.mp hsort).1
    have hqb : ∀ c ∈ q, le c b = true := by
      intro c hc
      exact (List.pairwise_append.mp hsort).2.2 c hc b (by simp)
    have hlen : (q ++ [b]).length = q.length + 1 := by simp
    rw [hlen, insertInner]
    have hl : (q ++ [b]) ++ x :: suf = q ++ b :: x :: suf := by simp
    rw [hl]
    have hgb : getE (q ++ b :: x :: suf) q.length = .ok b := by
      rw [getE_eq_ok_iff, List.getElem?_append_right (le_refl _)]
      simp
    have hgx : getE (q ++ b :: x :: suf) (q.length + 1) = .ok x := by
      rw [getE_eq_ok_iff, List.getElem?_append_right (by omega)]
      simp
    simp only [hgb, hgx]
    by_cases hbx : gtB le b x = true
    · rw [if_pos hbx]
      rw [swapE_adjacent2]
      have hih := ih hq x (b :: suf)
      simp only [hih]
      have hbx2 : le b x = false := by simpa [gtB] using hbx
      rw [insUB_append_last hbx2]
      simp
    · rw [if_neg hbx]
      have hbx2 : le b x = true := by simpa [gtB] using hbx
      have hall : ∀ c ∈ q ++ [b], le c x = true := by
        intro c hc
        rcases List.mem_append.mp hc with hc | hc
        · exact htrans c b x (hqb c hc) hbx2
        · have : c = b := by simpa using hc
          exact this ▸ hbx2
      rw [insUB_append_of_le _ hall]
      simp

theorem insertionStep_perm {le : α → α → Bool} {smart : Bool} {l r : List α} {u : Nat}
    (h : insertionStep le smart l u = .ok r) : r.Perm l := by
  rw [insertionStep] at h
  cases smart
  · rw [if_neg (by simp)] at h
    exact insertInner_perm u l r h
  · rw [if_pos rfl] at h
    cases hgx : getE l u with
    | error e => rw [hgx] at h; simp at h
    | ok x =>
      rw [hgx] at h
      simp only at h
      cases hbs : binSearchIdx le (l.take u) x with
      | error e => rw [hbs] at h; simp at h
      | ok i =>
        rw [hbs] at h
        simp only at h
        exact rotSegE_perm h

theorem insertionOuter_perm {le : α → α → Bool} {smart : Bool} :
    ∀ (k : Nat) (l : List α) (u : Nat) (r : List α),
      insertionOuter le smart l u k = .ok r → r.Perm l := by
  intro k
  induction k with
  | zero =>
    intro l u r h
    simp only [insertionOuter, Except.ok.injEq] at h
    rw [← h]
  | succ k ih =>
    intro l u r h
    rw [insertionOuter] at h
    cases hstep : insertionStep le smart l u with
    | error e => rw [hstep] at h; simp at h
    | ok l2 =>
      rw [hstep] at h
      simp only at h
      exact (ih l2 (u + 1) r h).trans (insertionStep_perm hstep)

theorem insertionOuter_dumb {le : α → α → Bool} (htot : TotalLe le) (htrans : TransLe le)
    (p : α → Bool) (hp : ∀ a b, ltB le b a = true → ¬(p a = true ∧ p b = true)) :
    ∀ (k : Nat) (l : List α) (u : Nat), u + k = l.length → SortedLe le (l.take u) →
      ∃ r, insertionOuter le false l u k = .ok r ∧ r.Perm l ∧ SortedLe le r ∧
        r.filter p = l.filter p := by
  intro k
  induction k with
  | zero =>
    intro l u hu hs
    have huL : u = l.length := by omega
    subst huL
    rw [List.take_length] at hs
    exact ⟨l, by simp [insertionOuter], List.Perm.refl l, hs, rfl⟩
  | succ k ih =>
    intro l u hu hs
    have hul : u < l.length := by omega
    have hdec : l = l.take u ++ l.get ⟨u, hul⟩ :: l.drop (u + 1) := by
      conv_lhs => rw [← List.take_append_drop u l]
      rw [List.drop_eq_getElem_cons hul, List.get_eq_getElem]
    have hlt : (l.take u).length = u := by
      rw [List.length_take]
      omega
    have hinner : insertInner le l u = .ok (insUB le (l.take u) (l.get ⟨u, hul⟩)
        ++ l.drop (u + 1)) := by
      have hb := insertInner_bridge htot htrans (l.take u) hs (l.get ⟨u, hul⟩)
        (l.drop (u + 1))
      rw [hlt] at hb
      rw [← hdec] at hb
      exact hb
    set x := l.get ⟨u, hul⟩ with hx
    set l2 := insUB le (l.take u) x ++ l.drop (u + 1) with hl2
    have hlen2 : l2.length = l.length := by
      rw [hl2]
      rw [List.length_append, insUB_length, hlt, List.length_drop]
      omega
    have htk : l2.take (u + 1) = insUB le (l.take u) x := by
      rw [hl2]
      exact List.take_left' (by rw [insUB_length, hlt])
    have hsort2 : SortedLe le (l2.take (u + 1)) := by
      rw [htk]
      exact insUB_sorted htot htrans x (l.take u) hs
    obtain ⟨r, hr, hperm, hrs, hfil⟩ := ih l2 (u + 1) (by omega) hsort2
    have hstep : insertionStep le false l u = .ok l2 := by
      rw [insertionStep, if_neg (by simp)]
      exact hinner
    refine ⟨r, ?_, ?_, hrs, ?_⟩
    · rw [insertionOuter, hstep]
      simpa using hr
    · refine hperm.trans ?_
      rw [hl2]
      have h1 : (insUB le (l.take u) x ++ l.drop (u + 1)).Perm
          (x :: (l.take u ++ l.drop (u + 1))) :=
        List.Perm.append (insUB_perm le x (l.take u)) (List.Perm.refl _)
      refine h1.trans ?_
      have h2 := @List.perm_middle _ x (l.take u) (l.drop (u + 1))
      refine h2.symm.trans ?_
      rw [← hdec]
    · rw [hfil, hl2, List.filter_append, insUB_filter htrans hp x (l.take u) hs]
      conv_rhs => rw [hdec]
      rw [List.filter_append, List.filter_cons]
      by_cases hpx : p x = true
      · rw [if_pos hpx, if_pos hpx]
        simp
      · rw [if_neg hpx, if_neg hpx]
        simp

theorem insertionSortDumb_main {le : α → α → Bool} (htot : TotalLe le) (htrans : TransLe le)
    (p : α → Bool) (hp : ∀ a b, ltB le b a = true → ¬(p a = true ∧ p b = true))
    (l : List α) :
    ∃ r, insertionSort le false l = .ok r ∧ r.Perm l ∧ SortedLe le r ∧
      r.filter p = l.filter p := by
  cases l with
  | nil =>
    exact ⟨[], by simp [insertionSort, insertionOuter], List.Perm.refl _,
      List.Pairwise.nil, rfl⟩
  | cons a t =>
    have h := insertionOuter_dumb htot htrans p hp t.length (a :: t) 1
      (by simp; omega) (by simp [List.pairwise_singleton])
    simpa [insertionSort] using h

/-! ### Insertion sort, binary-search variant -/

theorem sortedLe_le {le : α → α → Bool} (htot : TotalLe le) {l : List α}
    (hs : SortedLe le l) {i j : Nat} (hij : i ≤ j) {a b : α}
    (ha : l[i]? = some a) (hb : l[j]? = some b) : le a b = true := by
  rcases Nat.lt_or_ge i j with hlt | hge
  · have hi : i < l.length := (List.getElem?_eq_some.mp ha).1
    have hj : j < l.length := (List.getElem?_eq_some.mp hb).1
    have := List.pairwise_iff_getElem.mp hs i j hi hj hlt
    rw [List.getElem?_eq_getElem hi] at ha
    rw [List.getElem?_eq_getElem hj] at hb
    rw [← Option.some_inj.mp ha, ← Option.some_inj.mp hb]
    exact this
  · have hij2 : i = j := by omega
    subst hij2
    rw [ha] at hb
    rw [← Option.some_inj.mp hb]
    rcases htot a a with h | h <;> exact h

theorem bsLoop_spec {le : α → α → Bool} (htot : TotalLe le) (htrans : TransLe le)
    {l : List α} (hsort : SortedLe le l) (tgt : α) :
    ∀ (fuel left right : Nat), right - left < fuel → left ≤ right → right ≤ l.length →
      (∀ j a, j < left → l[j]? = some a → ltB le a tgt = true) →
      (∀ j a, right ≤ j → l[j]? = some a → gtB le a tgt = true) →
      ∃ res, bsLoop le l tgt fuel left right (right - left) = .ok res ∧
        ((∃ i, res = .inl i ∧ i < l.length ∧ left ≤ i ∧ i < right ∧
            ∀ a, l[i]? = some a → le a tgt = true ∧ le tgt a = true) ∨
         (∃ i, res = .inr i ∧ left ≤ i ∧ i ≤ right ∧
            (∀ j a, j < i → l[j]? = some a → ltB le a tgt = true) ∧
            (∀ j a, i ≤ j → l[j]? = some a → gtB le a tgt = true))) := by
  intro fuel
  induction fuel with
  | zero => intro left right hf; omega
  | succ fuel ih =>
    intro left right hf hlr hrl h1 h2
    rw [bsLoop]
    by_cases hcond : left < right
    · rw [if_pos hcond]
      have hmidlt : left + (right - left) / 2 < right := by omega
      have hmidlen : left + (right - left) / 2 < l.length := by omega
      rw [getE_ok_of_lt hmidlen]
      simp only
      set mid := left + (right - left) / 2 with hmid
      set pm := l.get ⟨mid, hmidlen⟩ with hpm
      have hpm? : l[mid]? = some pm := by
        rw [List.getElem?_eq_getElem hmidlen]
        rfl
      by_cases hlt : ltB le pm tgt = true
      · rw [if_pos hlt]
        have h1' : ∀ j a, j < mid + 1 → l[j]? = some a → ltB le a tgt = true := by
          intro j a hj ha
          by_cases hjl : j < left
          · exact h1 j a hjl ha
          · have hjm : j ≤ mid := by omega
            have hle : le a pm = true := sortedLe_le htot hsort hjm ha hpm?
            rw [ltB] at hlt ⊢
            by_contra hc
            have htga : le tgt a = true := by simpa using hc
            have : le tgt pm = true := htrans tgt a pm htga hle
            rw [this] at hlt
            simp at hlt
        have harith : right - (mid + 1) = right - (mid + 1) := rfl
        obtain ⟨res, hres, hcase⟩ := ih (mid + 1) right (by omega) (by omega) hrl h1' h2
        exact ⟨res, by rw [← hres], by
          rcases hcase with ⟨i, hi⟩ | ⟨i, hi⟩
          · exact Or.inl ⟨i, hi.1, hi.2.1, by omega, hi.2.2.2.1, hi.2.2.2.2⟩
          · exact Or.inr ⟨i, hi.1, by omega, hi.2.2.1, hi.2.2.2⟩⟩
      · rw [if_neg hlt]
        by_cases hgt : gtB le pm tgt = true
        · rw [if_pos hgt]
          have h2' : ∀ j a, mid ≤ j → l[j]? = some a → gtB le a tgt = true := by
            intro j a hj ha
            by_cases hjr : right ≤ j
            · exact h2 j a hjr ha
            · have hle : le pm a = true := sortedLe_le htot hsort hj hpm? ha
              rw [gtB] at hgt ⊢
              by_contra hc
              have hatg : le a tgt = true := by simpa using hc
              have : le pm tgt = true := htrans pm a tgt hle hatg
              rw [this] at hgt
              simp at hgt
          have hms : mid - left = mid - left := rfl
          obtain ⟨res, hres, hcase⟩ := ih left mid (by omega) (by omega) (by omega) h1 h2'
          exact ⟨res, by rw [← hres], by
            rcases hcase with ⟨i, hi⟩ | ⟨i, hi⟩
            · exact Or.inl ⟨i, hi.1, hi.2.1, hi.2.2.1, by omega, hi.2.2.2.2⟩
            · exact Or.inr ⟨i, hi.1, hi.2.1, by omega, hi.2.2.2.1, hi.2.2.2.2⟩⟩
        · rw [if_neg hgt]
          refine ⟨.inl mid, rfl, Or.inl ⟨mid, rfl, hmidlen, by omega, hmidlt, ?_⟩⟩
          intro a ha
          have haa : a = pm := by
            rw [hpm?] at ha
            exact Option.some_inj.mp ha.symm
          subst haa
          constructor
          · rw [gtB] at hgt
            simpa using hgt
          · rw [ltB] at hlt
            simpa using hlt
    · rw [if_neg hcond]
      refine ⟨.inr left, rfl, Or.inr ⟨left, rfl, le_refl _, hlr, h1, ?_⟩⟩
      intro j a hj ha
      exact h2 j a (by omega) ha

theorem binSearchIdx_spec {le : α → α → Bool} (htot : TotalLe le) (htrans : TransLe le)
    {l : List α} (hsort : SortedLe le l) (tgt : α) :
    ∃ i, binSearchIdx le l tgt = .ok i ∧ i ≤ l.length ∧
      (∀ j a, j < i → l[j]? = some a → le a tgt = true) ∧
      (∀ j a, i ≤ j → l[j]? = some a → le tgt a = true) := by
  have hspec := bsLoop_spec htot htrans hsort tgt (l.length + 1) 0 l.length
    (by omega) (by omega) (le_refl _)
    (fun j a hj _ => absurd hj (by omega))
    (fun j a hj ha => by
      have := (List.getElem?_eq_some.mp ha).1
      omega)
  have hsz : l.length - 0 = l.length := by omega
  rw [hsz] at hspec
  obtain ⟨res, hres, hcase⟩ := hspec
  rcases hcase with ⟨i, hi, hilen, _, _, hfact⟩ | ⟨i, hi, _, hir, hlo, hhi⟩
  · refine ⟨i, ?_, by omega, ?_, ?_⟩
    · rw [binSearchIdx, hres, hi]
    · intro j a hj ha
      have hji : j ≤ i := by omega
      have hpi : l[i]? = some (l.get ⟨i, hilen⟩) := by
        rw [List.getElem?_eq_getElem hilen]
        rfl
      have hfi := hfact _ hpi
      exact htrans a _ tgt (sortedLe_le htot hsort hji ha hpi) hfi.1
    · intro j a hj ha
      have hpi : l[i]? = some (l.get ⟨i, hilen⟩) := by
        rw [List.getElem?_eq_getElem hilen]
        rfl
      have hfi := hfact _ hpi
      exact htrans tgt _ a hfi.2 (sortedLe_le htot hsort hj hpi ha)
  · refine ⟨i, ?_, hir, ?_, ?_⟩
    · rw [binSearchIdx, hres, hi]
    · intro j a hj ha
      have := hlo j a hj ha
      rw [ltB] at this
      rcases htot a tgt with h | h
      · exact h
      · rw [h] at this
        simp at this
    · intro j a hj ha
      have := hhi j a hj ha
      rw [gtB] at this
      rcases htot tgt a with h | h
      · exact h
      · rw [h] at this
        simp at this

theorem insertionStep_smart {le : α → α → Bool} (htot : TotalLe le) (htrans : TransLe le)
    {l : List α} {u : Nat} (hul : u < l.length) (hs : SortedLe le (l.take u)) :
    ∃ l2, insertionStep le true l u = .ok l2 ∧ l2.Perm l ∧
      SortedLe le (l2.take (u + 1)) := by
  have hlt : (l.take u).length = u := by rw [List.length_take]; omega
  set x := l.get ⟨u, hul⟩ with hx
  have hdec : l = l.take u ++ x :: l.drop (u + 1) := by
    conv_lhs => rw [← List.take_append_drop u l]
    rw [List.drop_eq_getElem_cons hul, hx, List.get_eq_getElem]
  obtain ⟨i, hbs, hiu, hlo, hhi⟩ := binSearchIdx_spec htot htrans hs x
  rw [hlt] at hiu
  have hrot : rotSegE l i u
      = .ok ((l.take u).take i ++ x :: ((l.take u).drop i ++ l.drop (u + 1))) := by
    conv_lhs => rw [hdec]
    have hr := @rotSegE_insert _ (l.take u) (l.drop (u + 1)) x i (by omega)
    rw [hlt] at hr
    exact hr
  set l2 := (l.take u).take i ++ x :: ((l.take u).drop i ++ l.drop (u + 1)) with hl2
  have hstep : insertionStep le true l u = .ok l2 := by
    rw [insertionStep, if_pos rfl]
    simp only [getE_ok_of_lt hul]
    simp only [← hx, hbs]
    exact hrot
  have htk : l2.take (u + 1) = (l.take u).take i ++ x :: (l.take u).drop i := by
    rw [hl2]
    have he : (l.take u).take i ++ x :: ((l.take u).drop i ++ l.drop (u + 1))
        = ((l.take u).take i ++ x :: (l.take u).drop i) ++ l.drop (u + 1) := by simp
    rw [he]
    apply List.take_left'
    simp only [List.length_append, List.length_take, List.length_cons, List.length_drop, hlt]
    omega
  have hsorted2 : SortedLe le ((l.take u).take i ++ x :: (l.take u).drop i) := by
    refine List.pairwise_append.mpr ⟨?_, ?_, ?_⟩
    · exact List.Pairwise.sublist (List.take_sublist i _) hs
    · rw [List.pairwise_cons]
      refine ⟨?_, List.Pairwise.sublist (List.drop_sublist i _) hs⟩
      intro b hb
      obtain ⟨m, hm⟩ := List.mem_iff_getElem?.mp hb
      rw [List.getElem?_drop] at hm
      exact hhi (i + m) b (by omega) hm
    · intro a ha b hb
      obtain ⟨m, hm⟩ := List.mem_iff_getElem?.mp ha
      rw [List.getElem?_take] at hm
      by_cases hmi : m < i
      · rw [if_pos hmi] at hm
        have hax : le a x = true := hlo m a hmi hm
        rcases List.mem_cons.mp hb with hbx | hbd
        · exact hbx ▸ hax
        · obtain ⟨m2, hm2⟩ := List.mem_iff_getElem?.mp hbd
          rw [List.getElem?_drop] at hm2
          exact htrans a x b hax (hhi (i + m2) b (by omega) hm2)
      · rw [if_neg hmi] at hm
        exact absurd hm (by simp)
  exact ⟨l2, hstep, rotSegE_perm hrot, by rw [htk]; exact hsorted2⟩

theorem insertionOuter_smart {le : α → α → Bool} (htot : TotalLe le) (htrans : TransLe le) :
    ∀ (k : Nat) (l : List α) (u : Nat), u + k = l.length → SortedLe le (l.take u) →
      ∃ r, insertionOuter le true l u k = .ok r ∧ r.Perm l ∧ SortedLe le r := by
  intro k
  induction k with
  | zero =>
    intro l u hu hs
    have huL : u = l.length := by omega
    subst huL
    rw [List.take_length] at hs
    exact ⟨l, by simp [insertionOuter], List.Perm.refl l, hs⟩
  | succ k ih =>
    intro l u hu hs
    have hul : u < l.length := by omega
    obtain ⟨l2, hstep, hperm2, hsort2⟩ := insertionStep_smart htot htrans hul hs
    have hlen2 : l2.length = l.length := hperm2.length_eq
    obtain ⟨r, hr, hperm, hsort⟩ := ih l2 (u + 1) (by omega) hsort2
    refine ⟨r, ?_, hperm.trans hperm2, hsort⟩
    rw [insertionOuter, hstep]
    simpa using hr

theorem insertionSortSmart_main {le : α → α → Bool} (htot : TotalLe le) (htrans : TransLe le)
    (l : List α) :
    ∃ r, insertionSort le true l = .ok r ∧ r.Perm l ∧ SortedLe le r := by
  cases l with
  | nil =>
    exact ⟨[], by simp [insertionSort, insertionOuter], List.Perm.refl _, List.Pairwise.nil⟩
  | cons a t =>
    have h := insertionOuter_smart htot htrans t.length (a :: t) 1 (by simp; omega)
      (by simp [List.pairwise_singleton])
    simpa [insertionSort] using h

theorem insertionSort_small {le : α → α → Bool} {smart : Bool} {l : List α}
    (h : l.length ≤ 1) : insertionSort le smart l = .ok l := by
  have hk : l.length - 1 = 0 := by omega
  rw [insertionSort, hk]
  rfl

/-! ### Selection sort -/

theorem enumFrom_index_le :
    ∀ (s : List α) (n : Nat) (q : Nat × α), q ∈ List.enumFrom n s → n ≤ q.1 := by
  intro s
  induction s with
  | nil => intro n q hq; simp at hq
  | cons a s ih =>
    intro n q hq
    rw [List.enumFrom_cons] at hq
    rcases List.mem_cons.mp hq with hq | hq
    · rw [hq]
    · have := ih (n + 1) q hq
      omega

theorem enumFrom_pairwise :
    ∀ (s : List α) (n : Nat),
      List.Pairwise (fun a b : Nat × α => a.1 < b.1) (List.enumFrom n s) := by
  intro s
  induction s with
  | nil => intro n; simp
  | cons a s ih =>
    intro n
    rw [List.enumFrom_cons]
    refine List.pairwise_cons.mpr ⟨?_, ih (n + 1)⟩
    intro q hq
    have := enumFrom_index_le s (n + 1) q hq
    omega

theorem enumFrom_getElem? :
    ∀ (s : List α) (n : Nat) (q : Nat × α), q ∈ List.enumFrom n s →
      n ≤ q.1 ∧ s[q.1 - n]? = some q.2 := by
  intro s
  induction s with
  | nil => intro n q hq; simp at hq
  | cons a s ih =>
    intro n q hq
    rw [List.enumFrom_cons] at hq
    rcases List.mem_cons.mp hq with hq | hq
    · rw [hq]
      simp
    · obtain ⟨h1, h2⟩ := ih (n + 1) q hq
      refine ⟨by omega, ?_⟩
      have he : q.1 - n = (q.1 - (n + 1)) + 1 := by omega
      rw [he, List.getElem?_cons_succ]
      exact h2

theorem getElem?_enumFrom_mem :
    ∀ (s : List α) (n j : Nat) (a : α), s[j]? = some a →
      (n + j, a) ∈ List.enumFrom n s := by
  intro s
  induction s with
  | nil => intro n j a ha; simp at ha
  | cons x s ih =>
    intro n j a ha
    rw [List.enumFrom_cons]
    cases j with
    | zero =>
      simp at ha
      rw [ha]
      simp
    | succ j =>
      rw [List.getElem?_cons_succ] at ha
      have := ih (n + 1) j a ha
      have he : n + (j + 1) = (n + 1) + j := by omega
      rw [he]
      exact List.mem_cons_of_mem _ this

theorem minFold_spec {le : α → α → Bool} (htot : TotalLe le) (htrans : TransLe le) :
    ∀ (xs : List (Nat × α)) (acc : Nat × α),
      (∀ q ∈ xs, acc.1 < q.1) →
      List.Pairwise (fun a b : Nat × α => a.1 < b.1) xs →
      (minFold le xs acc = acc ∨ minFold le xs acc ∈ xs) ∧
      le (minFold le xs acc).2 acc.2 = true ∧
      (∀ q ∈ xs, le (minFold le xs acc).2 q.2 = true) ∧
      (minFold le xs acc ≠ acc → le acc.2 (minFold le xs acc).2 = false) ∧
      (∀ q ∈ xs, q.1 < (minFold le xs acc).1 → le q.2 (minFold le xs acc).2 = false) := by
  intro xs
  induction xs with
  | nil =>
    intro acc _ _
    refine ⟨Or.inl rfl, ?_, by simp, fun h => absurd rfl h, by simp⟩
    rcases htot acc.2 acc.2 with h | h <;> exact h
  | cons y t ih =>
    intro acc hinc hpw
    obtain ⟨hy, hpw2⟩ := List.pairwise_cons.mp hpw
    rw [minFold]
    by_cases hgt : gtB le acc.2 y.2 = true
    · rw [if_pos hgt]
      obtain ⟨ha, hb, hc, hd, he⟩ := ih y hy hpw2
      have hya : le y.2 acc.2 = true := by
        rcases htot acc.2 y.2 with h | h
        · rw [gtB, h] at hgt
          simp at hgt
        · exact h
      have hacc_ne : le acc.2 y.2 = false := by
        rw [gtB] at hgt
        simpa using hgt
      set r := minFold le t y with hr
      have hrya : le r.2 acc.2 = true := htrans r.2 y.2 acc.2 hb hya
      have haccr : le acc.2 r.2 = false := by
        by_contra hcon
        have h1 : le acc.2 r.2 = true := by simpa using hcon
        have h2 : le acc.2 y.2 = true := htrans acc.2 r.2 y.2 h1 hb
        rw [h2] at hacc_ne
        cases hacc_ne
      refine ⟨?_, hrya, ?_, fun _ => haccr, ?_⟩
      · rcases ha with h | h
        · exact Or.inr (h ▸ List.mem_cons_self y t)
        · exact Or.inr (List.mem_cons_of_mem y h)
      · intro q hq
        rcases List.mem_cons.mp hq with hq | hq
        · exact hq ▸ hb
        · exact hc q hq
      · intro q hq hqr
        rcases List.mem_cons.mp hq with hq | hq
        · have hry : r ≠ y := by
            intro hcon
            rw [hq, hcon] at hqr
            omega
          rw [hq]
          exact hd hry
        · exact he q hq hqr
    · rw [if_neg hgt]
      have hay : le acc.2 y.2 = true := by
        rw [gtB] at hgt
        simpa using hgt
      have hinc2 : ∀ q ∈ t, acc.1 < q.1 := fun q hq => hinc q (List.mem_cons_of_mem y hq)
      obtain ⟨ha, hb, hc, hd, he⟩ := ih acc hinc2 hpw2
      set r := minFold le t acc with hr
      refine ⟨?_, hb, ?_, hd, ?_⟩
      · rcases ha with h | h
        · exact Or.inl h
        · exact Or.inr (List.mem_cons_of_mem y h)
      · intro q hq
        rcases List.mem_cons.mp hq with hq | hq
        · exact hq ▸ htrans r.2 acc.2 y.2 hb hay
        · exact hc q hq
      · intro q hq hqr
        rcases List.mem_cons.mp hq with hq | hq
        · have hrne : r ≠ acc := by
            intro hcon
            have hay1 : acc.1 < y.1 := hinc y (List.mem_cons_self y t)
            rw [hq, hcon] at hqr
            omega
          have haccr := hd hrne
          rw [hq]
          by_contra hcon
          have hyr : le y.2 r.2 = true := by simpa using hcon
          have h1 : le acc.2 r.2 = true := htrans acc.2 y.2 r.2 hay hyr
          rw [h1] at haccr
          cases haccr
        · exact he q hq hqr

theorem selectIdx_spec {le : α → α → Bool} (htot : TotalLe le) (htrans : TransLe le)
    {l : List α} {u : Nat} (hul : u < l.length) :
    ∃ m, selectIdx le l u = .ok m ∧ u ≤ m ∧ m < l.length ∧
      (∀ j a b, u ≤ j → l[j]? = some a → l[m]? = some b → le b a = true) ∧
      (∀ j a b, u ≤ j → j < m → l[j]? = some a → l[m]? = some b → le a b = false) := by
  have hdlen : (l.drop u).length = l.length - u := by rw [List.length_drop]
  have hdnn : l.drop u ≠ [] := by
    intro hcon
    rw [hcon] at hdlen
    simp at hdlen
    omega
  obtain ⟨a0, d', hd'⟩ := List.exists_cons_of_ne_nil hdnn
  have henum : (l.drop u).enum = (0, a0) :: List.enumFrom 1 d' := by
    rw [hd']
    rfl
  obtain ⟨ha, hb, hc, hd, he⟩ := minFold_spec htot htrans (List.enumFrom 1 d') (0, a0)
    (fun q hq => enumFrom_index_le d' 1 q hq)
    (enumFrom_pairwise d' 1)
  set r := minFold le (List.enumFrom 1 d') (0, a0) with hrdef
  have hdr : (l.drop u)[r.1]? = some r.2 := by
    rcases ha with h | h
    · rw [h, hd']
      simp
    · obtain ⟨h1, h2⟩ := enumFrom_getElem? d' 1 r h
      rw [hd']
      have he2 : r.1 = (r.1 - 1) + 1 := by omega
      rw [he2, List.getElem?_cons_succ]
      exact h2
  have hmin : ∀ (j : Nat) (a : α), (l.drop u)[j]? = some a → le r.2 a = true := by
    intro j a hj
    cases j with
    | zero =>
      rw [hd'] at hj
      simp at hj
      exact hj ▸ hb
    | succ j =>
      rw [hd', List.getElem?_cons_succ] at hj
      exact hc (1 + j, a) (getElem?_enumFrom_mem d' 1 j a hj)
  have hfirst : ∀ (j : Nat) (a : α), j < r.1 → (l.drop u)[j]? = some a → le a r.2 = false := by
    intro j a hj hja
    cases j with
    | zero =>
      rw [hd'] at hja
      simp at hja
      subst hja
      have hrne : r ≠ (0, a0) := by
        intro hcon
        rw [hcon] at hj
        omega
      exact hd hrne
    | succ j =>
      rw [hd', List.getElem?_cons_succ] at hja
      exact he (1 + j, a) (getElem?_enumFrom_mem d' 1 j a hja) (by omega)
  have hrlen : r.1 < (l.drop u).length := (List.getElem?_eq_some.mp hdr).1
  refine ⟨u + r.1, ?_, by omega, by omega, ?_, ?_⟩
  · rw [selectIdx, henum]
  · intro j a b hj hja hjb
    rw [List.getElem?_drop] at hdr
    rw [hdr] at hjb
    have hbr : b = r.2 := Option.some_inj.mp hjb.symm
    subst hbr
    have hja2 : (l.drop u)[j - u]? = some a := by
      rw [List.getElem?_drop]
      have : u + (j - u) = j := by omega
      rw [this]
      exact hja
    exact hmin (j - u) a hja2
  · intro j a b hj hjm hja hjb
    rw [List.getElem?_drop] at hdr
    rw [hdr] at hjb
    have hbr : b = r.2 := Option.some_inj.mp hjb.symm
    subst hbr
    have hja2 : (l.drop u)[j - u]? = some a := by
      rw [List.getElem?_drop]
      have : u + (j - u) = j := by omega
      rw [this]
      exact hja
    exact hfirst (j - u) a (by omega) hja2

theorem selectStep_spec {le : α → α → Bool} (htot : TotalLe le) (htrans : TransLe le)
    {l : List α} {u : Nat} (hul : u < l.length) :
    ∃ l2 v, selectStep le l u = .ok l2 ∧ l2.Perm l ∧ l2.take u = l.take u ∧
      l2.length = l.length ∧ l2[u]? = some v ∧ v ∈ l.drop u ∧
      (∀ b ∈ l.drop u, le v b = true) := by
  obtain ⟨m, hm, hum, hml, hmin, _⟩ := selectIdx_spec htot htrans hul
  have hlm : ∃ vm, l[m]? = some vm := by
    rw [List.getElem?_eq_getElem hml]
    exact ⟨_, rfl⟩
  obtain ⟨vm, hvm⟩ := hlm
  have hmem : vm ∈ l.drop u := by
    rw [List.mem_iff_getElem?]
    refine ⟨m - u, ?_⟩
    rw [List.getElem?_drop]
    have : u + (m - u) = m := by omega
    rw [this]
    exact hvm
  have hminall : ∀ b ∈ l.drop u, le vm b = true := by
    intro b hbm
    obtain ⟨j, hj⟩ := List.mem_iff_getElem?.mp hbm
    rw [List.getElem?_drop] at hj
    exact hmin (u + j) b vm (by omega) hj hvm
  by_cases hueq : u = m
  · refine ⟨l, vm, ?_, List.Perm.refl l, rfl, rfl, ?_, hmem, hminall⟩
    · rw [selectStep, hm]
      simp [hueq]
    · rw [← hueq] at hvm
      exact hvm
  · have hsw := swapE_ok_of_lt hul hml
    set l2 := (l.set u (l.get ⟨m, hml⟩)).set m (l.get ⟨u, hul⟩) with hl2
    refine ⟨l2, vm, ?_, swapE_perm hsw, swapE_take hsw (le_refl u) hum, swapE_length hsw,
      ?_, hmem, hminall⟩
    · rw [selectStep, hm]
      simp only [hueq, if_pos, ne_eq, not_false_iff]
      exact hsw
    · rw [swapE_getElem? hsw u, if_neg (by omega), if_pos rfl, hvm]

theorem selectStep_perm {le : α → α → Bool} {l r : List α} {u : Nat}
    (h : selectStep le l u = .ok r) : r.Perm l := by
  rw [selectStep] at h
  cases hidx : selectIdx le l u with
  | error e => rw [hidx] at h; simp at h
  | ok m =>
    rw [hidx] at h
    simp only at h
    by_cases hueq : u ≠ m
    · rw [if_pos hueq] at h
      exact swapE_perm h
    · rw [if_neg hueq] at h
      simp at h
      rw [← h]

theorem selectOuter_perm {le : α → α → Bool} :
    ∀ (k : Nat) (l : List α) (u : Nat) (r : List α),
      selectOuter le l u k = .ok r → r.Perm l := by
  intro k
  induction k with
  | zero =>
    intro l u r h
    simp only [selectOuter, Except.ok.injEq] at h
    rw [← h]
  | succ k ih =>
    intro l u r h
    rw [selectOuter] at h
    cases hstep : selectStep le l u with
    | error e => rw [hstep] at h; simp at h
    | ok l2 =>
      rw [hstep] at h
      simp only at h
      exact (ih l2 (u + 1) r h).trans (selectStep_perm hstep)

theorem selectOuter_main {le : α → α → Bool} (htot : TotalLe le) (htrans : TransLe le) :
    ∀ (k : Nat) (l : List α) (u : Nat), u + k = l.length →
      SortedLe le (l.take u) →
      (∀ a ∈ l.take u, ∀ b ∈ l.drop u, le a b = true) →
      ∃ r, selectOuter le l u k = .ok r ∧ r.Perm l ∧ SortedLe le r := by
  intro k
  induction k with
  | zero =>
    intro l u hu hs _
    have huL : u = l.length := by omega
    subst huL
    rw [List.take_length] at hs
    exact ⟨l, by simp [selectOuter], List.Perm.refl l, hs⟩
  | succ k ih =>
    intro l u hu hs hbd
    have hul : u < l.length := by omega
    obtain ⟨l2, v, hstep, hperm2, htke, hlen2, hv, hvmem, hvmin⟩ :=
      selectStep_spec htot htrans hul
    have hul2 : u < l2.length := by omega
    have hdperm : (l2.drop u).Perm (l.drop u) := by
      have h1 : (l2.take u ++ l2.drop u).Perm (l.take u ++ l.drop u) := by
        rw [List.take_append_drop, List.take_append_drop]
        exact hperm2
      rw [htke] at h1
      exact (List.perm_append_left_iff (l.take u)).mp h1
    have htk1 : l2.take (u + 1) = l.take u ++ [v] := by
      rw [List.take_succ, hv, htke]
      rfl
    have hdropc : l2.drop u = v :: l2.drop (u + 1) := by
      rw [List.drop_eq_getElem_cons hul2]
      rw [List.getElem?_eq_getElem hul2] at hv
      rw [Option.some_inj.mp hv]
    have hsort2 : SortedLe le (l2.take (u + 1)) := by
      rw [htk1]
      refine List.pairwise_append.mpr ⟨hs, List.pairwise_singleton _ v, ?_⟩
      intro a ha b hb
      have hbv : b = v := by simpa using hb
      rw [hbv]
      exact hbd a ha v hvmem
    have hbd2 : ∀ a ∈ l2.take (u + 1), ∀ b ∈ l2.drop (u + 1), le a b = true := by
      intro a ha b hb
      have hbmem : b ∈ l.drop u := by
        refine hdperm.mem_iff.mp ?_
        rw [hdropc]
        exact List.mem_cons_of_mem v hb
      rw [htk1] at ha
      rcases List.mem_append.mp ha with ha | ha
      · exact hbd a ha b hbmem
      · have hav : a = v := by simpa using ha
        subst hav
        exact hvmin b hbmem
    obtain ⟨r, hr, hperm, hsort⟩ := ih l2 (u + 1) (by omega) hsort2 hbd2
    refine ⟨r, ?_, hperm.trans hperm2, hsort⟩
    rw [selectOuter, hstep]
    simpa using hr

theorem selectionSort_main {le : α → α → Bool} (htot : TotalLe le) (htrans : TransLe le)
    (l : List α) :
    ∃ r, selectionSort le l = .ok r ∧ r.Perm l ∧ SortedLe le r := by
  have h := selectOuter_main htot htrans l.length l 0 (by omega)
    (by simp) (by simp)
  simpa [selectionSort] using h

theorem selectionSort_small {le : α → α → Bool} {l : List α} (h : l.length ≤ 1) :
    selectionSort le l = .ok l := by
  cases l with
  | nil => rfl
  | cons x t =>
    cases t with
    | nil => rfl
    | cons y s => simp at h

/-! ### Quick sort -/

theorem partitionLoop_perm {le : α → α → Bool} {pivot : α} :
    ∀ (fuel : Nat) (rest : List α) (left right : Nat) (rest2 : List α) (lf : Nat),
      partitionLoop le pivot rest fuel left right = .ok (rest2, lf) → rest2.Perm rest := by
  intro fuel
  induction fuel with
  | zero => intro rest left right rest2 lf h; simp [partitionLoop] at h
  | succ fuel ih =>
    intro rest left right rest2 lf h
    rw [partitionLoop] at h
    by_cases hlr : left ≤ right
    · rw [if_pos hlr] at h
      cases hga : getE rest left with
      | error e => rw [hga] at h; simp at h
      | ok a =>
        rw [hga] at h
        simp only at h
        by_cases hap : le a pivot = true
        · rw [if_pos hap] at h
          exact ih rest (left + 1) right rest2 lf h
        · rw [if_neg hap] at h
          cases hgb : getE rest right with
          | error e => rw [hgb] at h; simp at h
          | ok b =>
            rw [hgb] at h
            simp only at h
            by_cases hbp : gtB le b pivot = true
            · rw [if_pos hbp] at h
              by_cases hr0 : right = 0
              · rw [if_pos hr0] at h
                simp at h
                rw [← h.1]
              · rw [if_neg hr0] at h
                exact ih rest left (right - 1) rest2 lf h
            · rw [if_neg hbp] at h
              cases hsw : swapE rest left right with
              | error e => rw [hsw] at h; simp at h
              | ok restS =>
                rw [hsw] at h
                simp only at h
                by_cases hr0 : right = 0
                · rw [if_pos hr0] at h
                  simp at h
                  rw [← h.1]
                  exact swapE_perm hsw
                · rw [if_neg hr0] at h
                  exact (ih restS (left + 1) (right - 1) rest2 lf h).trans (swapE_perm hsw)
    · rw [if_neg hlr] at h
      simp at h
      rw [← h.1]

theorem partitionLoop_spec {le : α → α → Bool} {pivot : α} :
    ∀ (fuel : Nat) (rest : List α) (left right : Nat),
      right + 1 - left < fuel → left ≤ right + 1 → right < rest.length →
      (∀ (j : Nat) (a : α), j < left → rest[j]? = some a → le a pivot = true) →
      (∀ (j : Nat) (a : α), right < j → rest[j]? = some a → le a pivot = false) →
      ∃ rest2 lf, partitionLoop le pivot rest fuel left right = .ok (rest2, lf) ∧
        rest2.Perm rest ∧ rest2.length = rest.length ∧ lf ≤ right + 1 ∧ left ≤ lf ∧
        (∀ (j : Nat) (a : α), j < lf → rest2[j]? = some a → le a pivot = true) ∧
        (∀ (j : Nat) (a : α), lf ≤ j → rest2[j]? = some a → le a pivot = false) := by
  intro fuel
  induction fuel with
  | zero => intro rest left right hf; omega
  | succ fuel ih =>
    intro rest left right hf hlr1 hrlen h1 h2
    rw [partitionLoop]
    by_cases hlr : left ≤ right
    · rw [if_pos hlr]
      have hllen : left < rest.length := by omega
      rw [getE_ok_of_lt hllen]
      simp only
      set a := rest.get ⟨left, hllen⟩ with hadef
      have ha? : rest[left]? = some a := by
        rw [List.getElem?_eq_getElem hllen]
        rfl
      by_cases hap : le a pivot = true
      · rw [if_pos hap]
        have h1' : ∀ (j : Nat) (c : α), j < left + 1 → rest[j]? = some c →
            le c pivot = true := by
          intro j c hj hc
          by_cases hjl : j < left
          · exact h1 j c hjl hc
          · have hjeq : j = left := by omega
            subst hjeq
            rw [ha?] at hc
            rw [← Option.some_inj.mp hc]
            exact hap
        obtain ⟨rest2, lf, hres, hperm, hlen, hub, hlb, hf1, hf2⟩ :=
          ih rest (left + 1) right (by omega) (by omega) hrlen h1' h2
        exact ⟨rest2, lf, hres, hperm, hlen, hub, by omega, hf1, hf2⟩
      · rw [if_neg hap]
        rw [getE_ok_of_lt hrlen]
        simp only
        set b := rest.get ⟨right, hrlen⟩ with hbdef
        have hb? : rest[right]? = some b := by
          rw [List.getElem?_eq_getElem hrlen]
          rfl
        by_cases hbp : gtB le b pivot = true
        · rw [if_pos hbp]
          have hbpf : le b pivot = false := by simpa [gtB] using hbp
          by_cases hr0 : right = 0
          · rw [if_pos hr0]
            have hleq : left = 0 := by omega
            refine ⟨rest, left, rfl, List.Perm.refl _, rfl, by omega, le_refl _, ?_, ?_⟩
            · intro j c hj _
              omega
            · intro j c hj hc
              by_cases hjr : right < j
              · exact h2 j c hjr hc
              · have hjeq : j = 0 := by omega
                subst hjeq
                rw [hleq] at ha?
                rw [ha?] at hc
                rw [← Option.some_inj.mp hc]
                simpa using hap
          · rw [if_neg hr0]
            have h2' : ∀ (j : Nat) (c : α), right - 1 < j → rest[j]? = some c →
                le c pivot = false := by
              intro j c hj hc
              by_cases hjr : right < j
              · exact h2 j c hjr hc
              · have hjeq : j = right := by omega
                subst hjeq
                rw [hb?] at hc
                rw [← Option.some_inj.mp hc]
                exact hbpf
            obtain ⟨rest2, lf, hres, hperm, hlen, hub, hlb, hf1, hf2⟩ :=
              ih rest left (right - 1) (by omega) (by omega) (by omega) h1 h2'
            exact ⟨rest2, lf, hres, hperm, hlen, by omega, hlb, hf1, hf2⟩
        · rw [if_neg hbp]
          have hbpt : le b pivot = true := by simpa [gtB] using hbp
          have hlneq : left ≠ right := by
            intro hcon
            rw [hcon] at ha?
            rw [ha?] at hb?
            have : a = b := Option.some_inj.mp hb?
            rw [this, hbpt] at hap
            exact hap rfl
          have hsw := swapE_ok_of_lt hllen hrlen
          rw [hsw]
          simp only
          set restS := (rest.set left (rest.get ⟨right, hrlen⟩)).set right
            (rest.get ⟨left, hllen⟩) with hrsdef
          have hswg := swapE_getElem? hsw
          have hlenS : restS.length = rest.length := swapE_length hsw
          have hpermS : restS.Perm rest := swapE_perm hsw
          have h1' : ∀ (j : Nat) (c : α), j < left + 1 → restS[j]? = some c →
              le c pivot = true := by
            intro j c hj hc
            rw [hswg j] at hc
            by_cases hjr : j = right
            · omega
            · rw [if_neg hjr] at hc
              by_cases hjl : j = left
              · rw [if_pos hjl] at hc
                rw [hb?] at hc
                rw [← Option.some_inj.mp hc]
                exact hbpt
              · rw [if_neg hjl] at hc
                exact h1 j c (by omega) hc
          have h2' : ∀ (j : Nat) (c : α), right - 1 < j → restS[j]? = some c →
              le c pivot = false := by
            intro j c hj hc
            rw [hswg j] at hc
            by_cases hjr : j = right
            · rw [if_pos hjr] at hc
              rw [ha?] at hc
              rw [← Option.some_inj.mp hc]
              simpa using hap
            · rw [if_neg hjr] at hc
              by_cases hjl : j = left
              · omega
              · rw [if_neg hjl] at hc
                exact h2 j c (by omega) hc
          by_cases hr0 : right = 0
          · omega
          · rw [if_neg hr0]
            obtain ⟨rest2, lf, hres, hperm, hlen, hub, hlb, hf1, hf2⟩ :=
              ih restS (left + 1) (right - 1) (by omega) (by omega) (by omega) h1' h2'
            exact ⟨rest2, lf, hres, hperm.trans hpermS, by omega, by omega, by omega,
              hf1, hf2⟩
    · rw [if_neg hlr]
      have hleq : left = right + 1 := by omega
      refine ⟨rest, left, rfl, List.Perm.refl _, rfl, by omega, le_refl _, h1, ?_⟩
      intro j c hj hc
      exact h2 j c (by omega) hc

theorem quicksortSwap_facts {le : α → α → Bool} {pivot : α} {rest rest2 : List α} {lf : Nat}
    (hlen : rest2.length = rest.length) (hub : lf ≤ rest.length)
    (hf1 : ∀ (j : Nat) (a : α), j < lf → rest2[j]? = some a → le a pivot = true)
    (hf2 : ∀ (j : Nat) (a : α), lf ≤ j → rest2[j]? = some a → le a pivot = false) :
    ∃ l2, swapE (pivot :: rest2) 0 lf = .ok l2 ∧ l2.Perm (pivot :: rest2) ∧
      l2.length = rest.length + 1 ∧ l2[lf]? = some pivot ∧
      (∀ (j : Nat) (a : α), j < lf → l2[j]? = some a → le a pivot = true) ∧
      (∀ (j : Nat) (a : α), lf < j → l2[j]? = some a → le a pivot = false) ∧
      optLe le (l2.take lf).getLast? (l2.drop lf).head? = true := by
  have hplen : (pivot :: rest2).length = rest.length + 1 := by simp [hlen]
  have h0 : 0 < (pivot :: rest2).length := by simp
  have hlf : lf < (pivot :: rest2).length := by omega
  have hsw := swapE_ok_of_lt h0 hlf
  set l2 := ((pivot :: rest2).set 0 ((pivot :: rest2).get ⟨lf, hlf⟩)).set lf
    ((pivot :: rest2).get ⟨0, h0⟩) with hl2
  have hg := swapE_getElem? hsw
  have hlen2 : l2.length = rest.length + 1 := by rw [swapE_length hsw]; exact hplen
  have hpl : l2[lf]? = some pivot := by
    rw [hg lf, if_pos rfl]
    simp
  have hlow : ∀ (j : Nat) (a : α), j < lf → l2[j]? = some a → le a pivot = true := by
    intro j a hj ha
    rw [hg j, if_neg (by omega)] at ha
    by_cases hj0 : j = 0
    · rw [if_pos hj0] at ha
      have hlf1 : lf = (lf - 1) + 1 := by omega
      rw [hlf1, List.getElem?_cons_succ] at ha
      exact hf1 (lf - 1) a (by omega) ha
    · rw [if_neg hj0] at ha
      have hj1 : j = (j - 1) + 1 := by omega
      rw [hj1, List.getElem?_cons_succ] at ha
      exact hf1 (j - 1) a (by omega) ha
  have hhigh : ∀ (j : Nat) (a : α), lf < j → l2[j]? = some a → le a pivot = false := by
    intro j a hj ha
    rw [hg j, if_neg (by omega), if_neg (by omega)] at ha
    have hj1 : j = (j - 1) + 1 := by omega
    rw [hj1, List.getElem?_cons_succ] at ha
    exact hf2 (j - 1) a (by omega) ha
  have hassert : optLe le (l2.take lf).getLast? (l2.drop lf).head? = true := by
    have hhead : (l2.drop lf).head? = some pivot := by
      rw [List.head?_eq_getElem?, List.getElem?_drop]
      simpa using hpl
    by_cases hlf0 : lf = 0
    · rw [hlf0]
      simp [optLe]
    · have htlen : (l2.take lf).length = lf := by
        rw [List.length_take]
        omega
      have hlast : (l2.take lf).getLast? = l2[lf - 1]? := by
        rw [List.getLast?_eq_getElem?, htlen]
        rw [List.getElem?_take, if_pos (by omega)]
      have hm : lf - 1 < l2.length := by omega
      rw [hlast, hhead, List.getElem?_eq_getElem hm]
      have hl := hlow (lf - 1) (l2.get ⟨lf - 1, hm⟩) (by omega)
        (by rw [List.getElem?_eq_getElem hm]; rfl)
      simpa [optLe] using hl
  exact ⟨l2, hsw, swapE_perm hsw, hlen2, hpl, hlow, hhigh, hassert⟩

theorem quicksortRec_nil (le : α → α → Bool) (fuel : Nat) :
    quicksortRec le (fuel + 1) ([] : List α) = .ok [] := rfl

theorem quicksortRec_one (le : α → α → Bool) (fuel : Nat) (x : α) :
    quicksortRec le (fuel + 1) [x] = .ok [x] := rfl

theorem quicksortRec_two (le : α → α → Bool) (fuel : Nat) (x y : α) :
    quicksortRec le (fuel + 1) [x, y]
      = if gtB le x y = true then .ok [y, x] else .ok [x, y] := rfl

theorem quicksortRec_cons3 (le : α → α → Bool) (fuel : Nat) (x y z : α) (t : List α) :
    quicksortRec le (fuel + 1) (x :: y :: z :: t)
      = (match partitionLoop le x (y :: z :: t) ((y :: z :: t).length + 1) 0
            ((y :: z :: t).length - 1) with
        | .ok (rest2, lf) =>
          match swapE (x :: rest2) 0 lf with
          | .ok l2 =>
            if optLe le (l2.take lf).getLast? (l2.drop lf).head? = true then
              match quicksortRec le fuel (l2.take lf) with
              | .ok ls =>
                match l2.drop lf with
                | [] => .error .oobPanic
                | rh :: rt =>
                  match quicksortRec le fuel rt with
                  | .ok rs => .ok (ls ++ rh :: rs)
                  | .error e => .error e
              | .error e => .error e
            else .error .assertPanic
          | .error e => .error e
        | .error e => .error e) := rfl

theorem quicksortRec_main {le : α → α → Bool} (htot : TotalLe le) (htrans : TransLe le) :
    ∀ (fuel : Nat) (l : List α), l.length < fuel →
      ∃ r, quicksortRec le fuel l = .ok r ∧ r.Perm l ∧ SortedLe le r := by
  intro fuel
  induction fuel with
  | zero => intro l h; omega
  | succ fuel ih =>
    intro l hlen
    cases l with
    | nil =>
      exact ⟨[], quicksortRec_nil le fuel, List.Perm.refl _, List.Pairwise.nil⟩
    | cons x l1 =>
      cases l1 with
      | nil =>
        exact ⟨[x], quicksortRec_one le fuel x, List.Perm.refl _,
          List.pairwise_singleton _ x⟩
      | cons y l2 =>
        cases l2 with
        | nil =>
          rw [quicksortRec_two]
          by_cases hgt : gtB le x y = true
          · rw [if_pos hgt]
            refine ⟨[y, x], rfl, List.Perm.swap x y [], ?_⟩
            have hyx : le y x = true := by
              rcases htot x y with h | h
              · rw [gtB, h] at hgt
                simp at hgt
              · exact h
            refine List.pairwise_cons.mpr ⟨?_, List.pairwise_singleton _ x⟩
            intro b hb
            have hbx : b = x := by simpa using hb
            rw [hbx]
            exact hyx
          · rw [if_neg hgt]
            have hxy : le x y = true := by simpa [gtB] using hgt
            refine ⟨[x, y], rfl, List.Perm.refl _, ?_⟩
            refine List.pairwise_cons.mpr ⟨?_, List.pairwise_singleton _ y⟩
            intro b hb
            have hby : b = y := by simpa using hb
            rw [hby]
            exact hxy
        | cons z t =>
          have hlen4 : t.length + 4 ≤ fuel + 1 := by
            simp only [List.length_cons] at hlen
            omega
          obtain ⟨rest2, lf, hpart, hpermR, hlenR, hubR, _, hf1, hf2⟩ :=
            @partitionLoop_spec _ le x ((y :: z :: t : List α).length + 1)
              (y :: z :: t) 0 ((y :: z :: t : List α).length - 1)
              (by simp only [List.length_cons]; omega)
              (by omega)
              (by simp only [List.length_cons]; omega)
              (fun j a hj _ => absurd hj (by omega))
              (fun j a hj ha => by
                have hlt := (List.getElem?_eq_some.mp ha).1
                simp only [List.length_cons] at hj hlt
                omega)
          have hub2 : lf ≤ (y :: z :: t : List α).length := by
            simp only [List.length_cons] at hubR ⊢
            omega
          obtain ⟨l2, hswap, hpermS, hlen2, hpl, hlow, hhigh, hassert⟩ :=
            @quicksortSwap_facts _ le x _ _ _ hlenR hub2 hf1 hf2
          have hlf3 : lf ≤ t.length + 2 := by
            simp only [List.length_cons] at hub2
            omega
          have hlen2b : l2.length = t.length + 3 := by
            simp only [List.length_cons] at hlen2
            omega
          have hlfl2 : lf < l2.length := by omega
          have hdropc : l2.drop lf = x :: l2.drop (lf + 1) := by
            rw [List.drop_eq_getElem_cons hlfl2]
            rw [List.getElem?_eq_getElem hlfl2] at hpl
            rw [Option.some_inj.mp hpl]
          have hlpl : (l2.take lf).length = lf := by
            rw [List.length_take]
            omega
          have hrtl : (l2.drop (lf + 1)).length = t.length + 2 - lf := by
            rw [List.length_drop]
            omega
          obtain ⟨ls, hls, hlsperm, hlssort⟩ := ih (l2.take lf)
            (by rw [hlpl]; omega)
          obtain ⟨rs, hrs, hrsperm, hrssort⟩ := ih (l2.drop (lf + 1))
            (by rw [hrtl]; omega)
          refine ⟨ls ++ x :: rs, ?_, ?_, ?_⟩
          · rw [quicksortRec_cons3]
            simp only [hpart, hswap]
            rw [if_pos hassert]
            simp only [hls, hdropc, hrs]
          · have h1 : (ls ++ x :: rs).Perm (l2.take lf ++ x :: l2.drop (lf + 1)) :=
              List.Perm.append hlsperm (List.Perm.cons x hrsperm)
            refine h1.trans ?_
            rw [← hdropc, List.take_append_drop]
            exact hpermS.trans (List.Perm.cons x hpermR)
          · have hmemlp : ∀ a ∈ l2.take lf, le a x = true := by
              intro a ha
              obtain ⟨k, hk⟩ := List.mem_iff_getElem?.mp ha
              rw [List.getElem?_take] at hk
              by_cases hkl : k < lf
              · rw [if_pos hkl] at hk
                exact hlow k a hkl hk
              · rw [if_neg hkl] at hk
                exact absurd hk (by simp)
            have hmemrt : ∀ b ∈ l2.drop (lf + 1), le x b = true := by
              intro b hb
              obtain ⟨m, hm⟩ := List.mem_iff_getElem?.mp hb
              rw [List.getElem?_drop] at hm
              have hf := hhigh (lf + 1 + m) b (by omega) hm
              rcases htot x b with h | h
              · exact h
              · rw [hf] at h
                cases h
            refine List.pairwise_append.mpr ⟨hlssort, ?_, ?_⟩
            · refine List.pairwise_cons.mpr ⟨?_, hrssort⟩
              intro b hb
              exact hmemrt b (hrsperm.mem_iff.mp hb)
            · intro a ha b hb
              have hax : le a x = true := hmemlp a (hlsperm.mem_iff.mp ha)
              rcases List.mem_cons.mp hb with hbx | hbr
              · rw [hbx]
                exact hax
              · exact htrans a x b hax (hmemrt b (hrsperm.mem_iff.mp hbr))

theorem quicksortRec_perm {le : α → α → Bool} :
    ∀ (fuel : Nat) (l r : List α), quicksortRec le fuel l = .ok r → r.Perm l := by
  intro fuel
  induction fuel with
  | zero => intro l r h; simp [quicksortRec] at h
  | succ fuel ih =>
    intro l r h
    cases l with
    | nil =>
      rw [quicksortRec_nil] at h
      simp at h
      rw [← h]
    | cons x l1 =>
      cases l1 with
      | nil =>
        rw [quicksortRec_one] at h
        simp at h
        rw [← h]
      | cons y l2 =>
        cases l2 with
        | nil =>
          rw [quicksortRec_two] at h
          by_cases hgt : gtB le x y = true
          · rw [if_pos hgt] at h
            simp at h
            rw [← h]
            exact List.Perm.swap x y []
          · rw [if_neg hgt] at h
            simp at h
            rw [← h]
        | cons z t =>
          rw [quicksortRec_cons3] at h
          cases hpart : partitionLoop le x (y :: z :: t) ((y :: z :: t).length + 1) 0
              ((y :: z :: t).length - 1) with
          | error e =>
            rw [hpart] at h
            simp at h
          | ok p =>
            obtain ⟨rest2, lf⟩ := p
            rw [hpart] at h
            simp only at h
            cases hswap : swapE (x :: rest2) 0 lf with
            | error e => rw [hswap] at h; simp at h
            | ok l2 =>
              rw [hswap] at h
              simp only at h
              by_cases hopt : optLe le (l2.take lf).getLast? (l2.drop lf).head? = true
              · rw [if_pos hopt] at h
                cases hls : quicksortRec le fuel (l2.take lf) with
                | error e => rw [hls] at h; simp at h
                | ok ls =>
                  rw [hls] at h
                  simp only at h
                  cases hdrop : l2.drop lf with
                  | nil => rw [hdrop] at h; simp at h
                  | cons rh rt =>
                    rw [hdrop] at h
                    simp only at h
                    cases hrs : quicksortRec le fuel rt with
                    | error e => rw [hrs] at h; simp at h
                    | ok rs =>
                      rw [hrs] at h
                      simp only [Except.ok.injEq] at h
                      rw [← h]
                      have h1 : (ls ++ rh :: rs).Perm (l2.take lf ++ rh :: rt) :=
                        List.Perm.append (ih _ _ hls) (List.Perm.cons rh (ih _ _ hrs))
                      refine h1.trans ?_
                      rw [← hdrop, List.take_append_drop]
                      exact (swapE_perm hswap).trans
                        (List.Perm.cons x (partitionLoop_perm _ _ _ _ _ _ hpart))
              · rw [if_neg hopt] at h
                simp at h

theorem quickSort_main {le : α → α → Bool} (htot : TotalLe le) (htrans : TransLe le)
    (l : List α) : ∃ r, quickSort le l = .ok r ∧ r.Perm l ∧ SortedLe le r :=
  quicksortRec_main htot htrans (l.length + 1) l (by omega)

theorem quickSort_perm {le : α → α → Bool} {l r : List α} (h : quickSort le l = .ok r) :
    r.Perm l :=
  quicksortRec_perm _ l r h

theorem quickSort_small {le : α → α → Bool} {l : List α} (h : l.length ≤ 1) :
    quickSort le l = .ok l := by
  cases l with
  | nil => rfl
  | cons x t =>
    cases t with
    | nil => rfl
    | cons y s => simp at h

theorem quicksortPartition_claim {le : α → α → Bool} (htot : TotalLe le)
    {x : α} {rest : List α} (hrl : 1 ≤ rest.length) :
    ∃ rest2 lf l2,
      partitionLoop le x rest (rest.length + 1) 0 (rest.length - 1) = .ok (rest2, lf) ∧
      swapE (x :: rest2) 0 lf = .ok l2 ∧ l2[lf]? = some x ∧
      (∀ (j : Nat) (a : α), j < lf → l2[j]? = some a → le a x = true) ∧
      (∀ (j : Nat) (a : α), lf < j → l2[j]? = some a → le x a = true) ∧
      optLe le (l2.take lf).getLast? (l2.drop lf).head? = true := by
  obtain ⟨rest2, lf, hpart, _, hlenR, hubR, _, hf1, hf2⟩ :=
    @partitionLoop_spec _ le x (rest.length + 1) rest 0
      (rest.length - 1) (by omega) (by omega) (by omega)
      (fun j a hj _ => absurd hj (by omega))
      (fun j a hj ha => by
        have hlt := (List.getElem?_eq_some.mp ha).1
        omega)
  have hub2 : lf ≤ rest.length := by omega
  obtain ⟨l2, hswap, _, _, hpl, hlow, hhigh, hassert⟩ :=
    @quicksortSwap_facts _ le x _ _ _ hlenR hub2 hf1 hf2
  refine ⟨rest2, lf, l2, hpart, hswap, hpl, hlow, ?_, hassert⟩
  intro j a hj ha
  have hf := hhigh j a hj ha
  rcases htot x a with h | h
  · exact h
  · rw [hf] at h
    cases h

theorem bubbleSort_small {le : α → α → Bool} {l : List α} (h : l.length ≤ 1) :
    bubbleSort le l = .ok l := by
  cases l with
  | nil =>
    rw [bubbleSort, bubbleLoop, bubblePass_eq_passL]
    simp [passL]
  | cons x t =>
    cases t with
    | nil =>
      rw [bubbleSort, bubbleLoop, bubblePass_eq_passL]
      simp [passL, passGo]
    | cons y s => simp at h

/-! ### Heap sort -/

/-- One downward move of the sifting hole: swapping the hole `root` with the
chosen child `w` preserves the heap-with-hole invariants, with the hole now
at `w`. -/
theorem siftSwap_step {le : α → α → Bool} {l : List α} {s0 root endI w : Nat}
    (hel : endI < l.length) (hsr : s0 ≤ root)
    (hw : w = 2 * root + 1 ∨ w = 2 * root + 2) (hwe : w ≤ endI)
    (hA : HeapExcept le l s0 endI root) (hQ : HoleBound le l s0 endI root)
    (hvw : elemLe le l root w)
    (hother : ∀ o, (o = 2 * root + 1 ∨ o = 2 * root + 2) → o ≠ w → o ≤ endI →
      elemLe le l o w) :
    ∃ l2, swapE l root w = .ok l2 ∧ l2.Perm l ∧ l2.length = l.length ∧
      (∀ j, j ≠ root → j ≠ w → l2[j]? = l[j]?) ∧
      HeapExcept le l2 s0 endI w ∧ HoleBound le l2 s0 endI w := by
  have hrl : root < l.length := by omega
  have hwl : w < l.length := by omega
  obtain ⟨l2, hswap⟩ : ∃ l2, swapE l root w = .ok l2 := ⟨_, swapE_ok_of_lt hrl hwl⟩
  have hg := swapE_getElem? hswap
  have hperm := swapE_perm hswap
  have hlen := swapE_length hswap
  have hfr : ∀ j, j ≠ root → j ≠ w → l2[j]? = l[j]? := by
    intro j h1 h2
    rw [hg j, if_neg h2, if_neg h1]
  have hl2w : l2[w]? = l[root]? := by rw [hg w, if_pos rfl]
  have hl2r : l2[root]? = l[w]? := by
    rw [hg root, if_neg (by omega), if_pos rfl]
  refine ⟨l2, hswap, hperm, hlen, hfr, ?_, ?_⟩
  · intro i h1 hi hs hnw a b ha hb
    by_cases hpr : (i - 1) / 2 = root
    · have hio : i = 2 * root + 1 ∨ i = 2 * root + 2 := by omega
      have hir : i ≠ root := by omega
      rw [hpr, hl2r] at hb
      by_cases hiw : i = w
      · rw [hiw, hl2w] at ha
        exact hvw a b ha hb
      · rw [hfr i hir hiw] at ha
        exact hother i hio hiw hi a b ha hb
    · rw [hfr ((i - 1) / 2) hpr hnw] at hb
      by_cases hiw : i = w
      · exfalso
        apply hpr
        omega
      · by_cases hir : i = root
        · rw [hir, hl2r] at ha
          rw [hir] at h1 hs hb
          have hrs : root ≠ s0 := by
            intro he
            omega
          have := hQ hrs hs w (by omega) hwe (by omega) a b ha hb
          exact this
        · rw [hfr i hir hiw] at ha
          exact hA i h1 hi hs hpr a b ha hb
  · intro hws hsw i h1 hi hp a b ha hb
    have hwp : (w - 1) / 2 = root := by omega
    have hig : 2 * w + 1 ≤ i := by omega
    rw [hfr i (by omega) (by omega)] at ha
    rw [hwp, hl2r] at hb
    have hstep := hA i h1 hi (by omega) (by omega) a b ha
    rw [hp] at hstep
    exact hstep hb

/-- Full specification of `HeapSort::sift_down` (`siftLoop`): with sufficient
fuel and the heap-with-hole invariants, it succeeds, permutes only positions
`[root, endI]`, and restores the heap property above `s0` on `[0, endI]`. -/
theorem siftLoop_spec {le : α → α → Bool} (htot : TotalLe le) (htrans : TransLe le) :
    ∀ (fuel : Nat) (l : List α) (s0 root endI : Nat), endI < l.length → s0 ≤ root →
      endI + 1 - root < fuel → HeapExcept le l s0 endI root → HoleBound le l s0 endI root →
      ∃ l2, siftLoop le fuel l root endI = .ok l2 ∧ l2.Perm l ∧ l2.length = l.length ∧
        (∀ j, j < root ∨ endI < j → l2[j]? = l[j]?) ∧ HeapUpTo le l2 s0 endI := by
  intro fuel
  induction fuel with
  | zero =>
    intro l s0 root endI h1 h2 h3 _ _
    omega
  | succ fuel ih =>
    intro l s0 root endI hel hsr hfuel hA hQ
    rw [siftLoop]
    by_cases hc : 2 * root + 1 ≤ endI
    case neg =>
      rw [if_neg hc]
      refine ⟨l, rfl, List.Perm.refl l, rfl, fun j _ => rfl, ?_⟩
      intro i h1 hi hs a b ha hb
      exact hA i h1 hi hs (by omega) a b ha hb
    case pos =>
      rw [if_pos hc]
      have hrl : root < l.length := by omega
      have hcl : 2 * root + 1 < l.length := by omega
      simp only [getE_ok_of_lt hrl, getE_ok_of_lt hcl]
      set vr := l.get ⟨root, hrl⟩ with hvrdef
      set vc := l.get ⟨2 * root + 1, hcl⟩ with hvcdef
      have hvr? : l[root]? = some vr := by
        rw [List.getElem?_eq_getElem hrl]
        rfl
      have hvc? : l[2 * root + 1]? = some vc := by
        rw [List.getElem?_eq_getElem hcl]
        rfl
      by_cases hc1 : 2 * root + 2 ≤ endI
      case pos =>
        rw [if_pos hc1]
        have hc1l : 2 * root + 2 < l.length := by omega
        simp only [getE_ok_of_lt hc1l]
        set vc1 := l.get ⟨2 * root + 2, hc1l⟩ with hvc1def
        have hvc1? : l[2 * root + 2]? = some vc1 := by
          rw [List.getElem?_eq_getElem hc1l]
          rfl
        by_cases hsw : ltB le (if ltB le vr vc = true then vc else vr) vc1 = true
        case pos =>
          rw [if_pos hsw]
          have hfacts : le vr vc1 = true ∧ le vc vc1 = true := by
            by_cases hlt : ltB le vr vc = true
            · rw [if_pos hlt] at hsw
              simp only [ltB, Bool.not_eq_true'] at hsw hlt
              have h1 : le vc vc1 = true := (htot vc vc1).resolve_right (by simp [hsw])
              have h0 : le vr vc = true := (htot vr vc).resolve_right (by simp [hlt])
              exact ⟨htrans _ _ _ h0 h1, h1⟩
            · rw [if_neg hlt] at hsw
              simp only [ltB, Bool.not_eq_true', Bool.not_eq_false] at hsw hlt
              have h0 : le vr vc1 = true := (htot vr vc1).resolve_right (by simp [hsw])
              exact ⟨h0, htrans _ _ _ hlt h0⟩
          have hvw : elemLe le l root (2 * root + 2) := by
            intro a b ha hb
            rw [hvr?] at ha
            rw [hvc1?] at hb
            obtain rfl : vr = a := Option.some.inj ha
            obtain rfl : vc1 = b := Option.some.inj hb
            exact hfacts.1
          have hother : ∀ o, (o = 2 * root + 1 ∨ o = 2 * root + 2) → o ≠ 2 * root + 2 →
              o ≤ endI → elemLe le l o (2 * root + 2) := by
            intro o ho hne _ a b ha hb
            have hoc : o = 2 * root + 1 := by omega
            subst hoc
            rw [hvc?] at ha
            rw [hvc1?] at hb
            obtain rfl : vc = a := Option.some.inj ha
            obtain rfl : vc1 = b := Option.some.inj hb
            exact hfacts.2
          obtain ⟨l2, hswap, hperm2, hlen2, hfr2, hA2, hQ2⟩ :=
            siftSwap_step hel hsr (Or.inr rfl) hc1 hA hQ hvw hother
          simp only [hswap]
          obtain ⟨l3, hrec, hperm3, hlen3, hfr3, hH3⟩ :=
            ih l2 s0 (2 * root + 2) endI (by omega) (by omega) (by omega) hA2 hQ2
          refine ⟨l3, hrec, hperm3.trans hperm2, by omega, ?_, hH3⟩
          intro j hj
          rw [hfr3 j (by omega), hfr2 j (by omega) (by omega)]
        case neg =>
          rw [if_neg hsw]
          by_cases hlt : ltB le vr vc = true
          case pos =>
            rw [if_neg (show ¬((if ltB le vr vc = true then 2 * root + 1 else root) = root) by
              rw [if_pos hlt]; omega)]
            rw [if_pos hlt] at hsw
            simp only [ltB, Bool.not_eq_true'] at hlt
            simp only [ltB, Bool.not_eq_true', Bool.not_eq_false] at hsw
            have hvrvc : le vr vc = true := (htot vr vc).resolve_right (by simp [hlt])
            have hvw : elemLe le l root (2 * root + 1) := by
              intro a b ha hb
              rw [hvr?] at ha
              rw [hvc?] at hb
              obtain rfl : vr = a := Option.some.inj ha
              obtain rfl : vc = b := Option.some.inj hb
              exact hvrvc
            have hother : ∀ o, (o = 2 * root + 1 ∨ o = 2 * root + 2) → o ≠ 2 * root + 1 →
                o ≤ endI → elemLe le l o (2 * root + 1) := by
              intro o ho hne _ a b ha hb
              have hoc : o = 2 * root + 2 := by omega
              subst hoc
              rw [hvc1?] at ha
              rw [hvc?] at hb
              obtain rfl : vc1 = a := Option.some.inj ha
              obtain rfl : vc = b := Option.some.inj hb
              exact hsw
            obtain ⟨l2, hswap, hperm2, hlen2, hfr2, hA2, hQ2⟩ :=
              siftSwap_step hel hsr (Or.inl rfl) hc hA hQ hvw hother
            simp only [hswap]
            obtain ⟨l3, hrec, hperm3, hlen3, hfr3, hH3⟩ :=
              ih l2 s0 (2 * root + 1) endI (by omega) (by omega) (by omega) hA2 hQ2
            refine ⟨l3, hrec, hperm3.trans hperm2, by omega, ?_, hH3⟩
            intro j hj
            rw [hfr3 j (by omega), hfr2 j (by omega) (by omega)]
          case neg =>
            rw [if_pos (show (if ltB le vr vc = true then 2 * root + 1 else root) = root by
              rw [if_neg hlt])]
            rw [if_neg hlt] at hsw
            simp only [ltB, Bool.not_eq_true', Bool.not_eq_false] at hsw hlt
            refine ⟨l, rfl, List.Perm.refl l, rfl, fun j _ => rfl, ?_⟩
            intro i h1 hi hs a b ha hb
            by_cases hpr : (i - 1) / 2 = root
            · rw [hpr, hvr?] at hb
              obtain rfl : vr = b := Option.some.inj hb
              have hio : i = 2 * root + 1 ∨ i = 2 * root + 2 := by omega
              rcases hio with hio | hio
              · rw [hio, hvc?] at ha
                obtain rfl : vc = a := Option.some.inj ha
                exact hlt
              · rw [hio, hvc1?] at ha
                obtain rfl : vc1 = a := Option.some.inj ha
                exact hsw
            · exact hA i h1 hi hs hpr a b ha hb
      case neg =>
        rw [if_neg hc1]
        by_cases hlt : ltB le vr vc = true
        case pos =>
          rw [if_neg (show ¬((if ltB le vr vc = true then 2 * root + 1 else root) = root) by
            rw [if_pos hlt]; omega)]
          simp only [ltB, Bool.not_eq_true'] at hlt
          have hvrvc : le vr vc = true := (htot vr vc).resolve_right (by simp [hlt])
          have hvw : elemLe le l root (2 * root + 1) := by
            intro a b ha hb
            rw [hvr?] at ha
            rw [hvc?] at hb
            obtain rfl : vr = a := Option.some.inj ha
            obtain rfl : vc = b := Option.some.inj hb
            exact hvrvc
          have hother : ∀ o, (o = 2 * root + 1 ∨ o = 2 * root + 2) → o ≠ 2 * root + 1 →
              o ≤ endI → elemLe le l o (2 * root + 1) := by
            intro o ho hne hoe a b ha hb
            exfalso
            omega
          obtain ⟨l2, hswap, hperm2, hlen2, hfr2, hA2, hQ2⟩ :=
            siftSwap_step hel hsr (Or.inl rfl) hc hA hQ hvw hother
          simp only [hswap]
          obtain ⟨l3, hrec, hperm3, hlen3, hfr3, hH3⟩ :=
            ih l2 s0 (2 * root + 1) endI (by omega) (by omega) (by omega) hA2 hQ2
          refine ⟨l3, hrec, hperm3.trans hperm2, by omega, ?_, hH3⟩
          intro j hj
          rw [hfr3 j (by omega), hfr2 j (by omega) (by omega)]
        case neg =>
          rw [if_pos (show (if ltB le vr vc = true then 2 * root + 1 else root) = root by
            rw [if_neg hlt])]
          simp only [ltB, Bool.not_eq_true', Bool.not_eq_false] at hlt
          refine ⟨l, rfl, List.Perm.refl l, rfl, fun j _ => rfl, ?_⟩
          intro i h1 hi hs a b ha hb
          by_cases hpr : (i - 1) / 2 = root
          · rw [hpr, hvr?] at hb
            obtain rfl : vr = b := Option.some.inj hb
            have hio : i = 2 * root + 1 := by omega
            rw [hio, hvc?] at ha
            obtain rfl : vc = a := Option.some.inj ha
            exact hlt
          · exact hA i h1 hi hs hpr a b ha hb

/-- `siftLoop` only ever swaps elements: any successful run is a permutation,
with no ordering assumptions on `le`. -/
theorem siftLoop_perm {le : α → α → Bool} :
    ∀ (fuel : Nat) (l l2 : List α) (root endI : Nat),
      siftLoop le fuel l root endI = .ok l2 → l2.Perm l := by
  intro fuel
  induction fuel with
  | zero =>
    intro l l2 root endI h
    simp [siftLoop] at h
  | succ fuel ih =>
    intro l l2 root endI h
    rw [siftLoop] at h
    by_cases hc : 2 * root + 1 ≤ endI
    case neg =>
      rw [if_neg hc] at h
      injection h with h
      subst h
      exact List.Perm.refl _
    case pos =>
      rw [if_pos hc] at h
      cases hgr : getE l root with
      | error e =>
        simp only [hgr] at h
        exact Except.noConfusion h
      | ok vr =>
        cases hgc : getE l (2 * root + 1) with
        | error e =>
          simp only [hgr, hgc] at h
          exact Except.noConfusion h
        | ok vc =>
          simp only [hgr, hgc] at h
          by_cases hc1 : 2 * root + 2 ≤ endI
          case pos =>
            rw [if_pos hc1] at h
            cases hg1 : getE l (2 * root + 2) with
            | error e =>
              simp only [hg1] at h
              exact Except.noConfusion h
            | ok vc1 =>
              simp only [hg1] at h
              by_cases hsw : ltB le (if ltB le vr vc = true then vc else vr) vc1 = true
              case pos =>
                rw [if_pos hsw] at h
                cases hs : swapE l root (2 * root + 2) with
                | error e =>
                  simp only [hs] at h
                  exact Except.noConfusion h
                | ok lx =>
                  simp only [hs] at h
                  exact (ih _ _ _ _ h).trans (swapE_perm hs)
              case neg =>
                rw [if_neg hsw] at h
                by_cases hrt : (if ltB le vr vc = true then 2 * root + 1 else root) = root
                · rw [if_pos hrt] at h
                  injection h with h
                  subst h
                  exact List.Perm.refl _
                · rw [if_neg hrt] at h
                  cases hs : swapE l root (2 * root + 1) with
                  | error e =>
                    simp only [hs] at h
                    exact Except.noConfusion h
                  | ok lx =>
                    simp only [hs] at h
                    exact (ih _ _ _ _ h).trans (swapE_perm hs)
          case neg =>
            rw [if_neg hc1] at h
            by_cases hrt : (if ltB le vr vc = true then 2 * root + 1 else root) = root
            · rw [if_pos hrt] at h
              injection h with h
              subst h
              exact List.Perm.refl _
            · rw [if_neg hrt] at h
              cases hs : swapE l root (2 * root + 1) with
              | error e =>
                simp only [hs] at h
                exact Except.noConfusion h
              | ok lx =>
                simp only [hs] at h
                exact (ih _ _ _ _ h).trans (swapE_perm hs)

/-- The heapify countdown establishes the full heap property, given the heap
property above `start + 1` at entry. -/
theorem heapifyLoop_spec {le : α → α → Bool} (htot : TotalLe le) (htrans : TransLe le) :
    ∀ (start : Nat) (l : List α), 1 ≤ l.length →
      HeapUpTo le l (start + 1) (l.length - 1) →
      ∃ l2, heapifyLoop le l start = .ok l2 ∧ l2.Perm l ∧ l2.length = l.length ∧
        HeapUpTo le l2 0 (l.length - 1) := by
  intro start
  induction start with
  | zero =>
    intro l hlen hH
    rw [heapifyLoop]
    have hA : HeapExcept le l 0 (l.length - 1) 0 := by
      intro i h1 hi hs hne a b ha hb
      exact hH i h1 hi (by omega) a b ha hb
    have hQ : HoleBound le l 0 (l.length - 1) 0 := fun hne => absurd rfl hne
    obtain ⟨l2, hsift, hperm, hlen2, _, hH2⟩ :=
      siftLoop_spec htot htrans (l.length + 1) l 0 0 (l.length - 1)
        (by omega) (by omega) (by omega) hA hQ
    simp only [hsift]
    exact ⟨l2, rfl, hperm, hlen2, hH2⟩
  | succ s ih =>
    intro l hlen hH
    rw [heapifyLoop]
    have hA : HeapExcept le l (s + 1) (l.length - 1) (s + 1) := by
      intro i h1 hi hs hne a b ha hb
      exact hH i h1 hi (by omega) a b ha hb
    have hQ : HoleBound le l (s + 1) (l.length - 1) (s + 1) := fun hne => absurd rfl hne
    obtain ⟨l2, hsift, hperm, hlen2, _, hH2⟩ :=
      siftLoop_spec htot htrans (l.length + 1) l (s + 1) (s + 1) (l.length - 1)
        (by omega) (by omega) (by omega) hA hQ
    simp only [hsift]
    have hH2' : HeapUpTo le l2 (s + 1) (l2.length - 1) := by
      rw [hlen2]
      exact hH2
    obtain ⟨r, hrec, hpermr, hlenr, hHr⟩ := ih l2 (by omega) hH2'
    refine ⟨r, hrec, hpermr.trans hperm, by omega, ?_⟩
    rw [show l.length = l2.length from hlen2.symm]
    exact hHr

/-- `HeapSort::heapify` builds a max heap on any slice of length at least
two. -/
theorem heapify_spec {le : α → α → Bool} (htot : TotalLe le) (htrans : TransLe le)
    {l : List α} (h2 : 2 ≤ l.length) :
    ∃ l2, heapify le l = .ok l2 ∧ l2.Perm l ∧ l2.length = l.length ∧
      HeapUpTo le l2 0 (l.length - 1) := by
  obtain ⟨n, hn⟩ : ∃ n, l.length = n + 2 := ⟨l.length - 2, by omega⟩
  have hH : HeapUpTo le l (n / 2 + 1) (l.length - 1) := by
    intro i h1 hi hs a b ha hb
    exfalso
    rw [hn] at hi
    omega
  obtain ⟨l2, hrec, hperm, hlen, hH2⟩ := heapifyLoop_spec htot htrans (n / 2) l (by omega) hH
  refine ⟨l2, ?_, hperm, hlen, hH2⟩
  rw [heapify, hn]
  exact hrec

/-- In a max heap on `[0, endI]`, every element in range is `le` the root. -/
theorem heap_root_max {le : α → α → Bool} (htot : TotalLe le) (htrans : TransLe le)
    {l : List α} {endI : Nat} (hel : endI < l.length) (hH : HeapUpTo le l 0 endI) :
    ∀ i, i ≤ endI → elemLe le l i 0 := by
  intro i
  induction i using Nat.strong_induction_on with
  | _ i ih =>
    intro hi a b ha hb
    by_cases h0 : i = 0
    · subst h0
      rw [ha] at hb
      obtain rfl : a = b := Option.some.inj hb
      rcases htot a a with h | h
      · exact h
      · exact h
    · have h1 : 1 ≤ i := by omega
      have hpl : (i - 1) / 2 < l.length := by omega
      obtain ⟨c, hc⟩ : ∃ c, l[(i - 1) / 2]? = some c := ⟨_, List.getElem?_eq_getElem hpl⟩
      have hstep : le a c = true := hH i h1 hi (by omega) a c ha hc
      have hrest : le c b = true := ih ((i - 1) / 2) (by omega) (by omega) c b hc hb
      exact htrans _ _ _ hstep hrest

/-- Lists of length at most one are sorted. -/
theorem sortedLe_short {le : α → α → Bool} {l : List α} (h : l.length ≤ 1) :
    SortedLe le l := by
  cases l with
  | nil => exact List.Pairwise.nil
  | cons x t =>
    cases t with
    | nil => exact List.pairwise_singleton _ x
    | cons y t2 =>
      exfalso
      simp only [List.length_cons] at h
      omega

/-- The extraction loop of `HeapSort::sort`: given a max heap on `[0, endI]`,
a sorted suffix after `endI`, and the boundary condition between the two
regions, it succeeds and sorts the whole list. -/
theorem extractLoop_spec {le : α → α → Bool} (htot : TotalLe le) (htrans : TransLe le) :
    ∀ (endI : Nat) (l : List α), endI < l.length →
      HeapUpTo le l 0 endI →
      SortedLe le (l.drop (endI + 1)) →
      (∀ a ∈ l.take (endI + 1), ∀ b ∈ l.drop (endI + 1), le a b = true) →
      ∃ r, extractLoop le l endI = .ok r ∧ r.Perm l ∧ SortedLe le r := by
  intro endI
  induction endI with
  | zero =>
    intro l hel hH hsorted hbd
    refine ⟨l, rfl, List.Perm.refl l, ?_⟩
    obtain ⟨x, t, rfl⟩ : ∃ x t, l = x :: t := by
      cases l with
      | nil => simp at hel
      | cons x t => exact ⟨x, t, rfl⟩
    refine List.pairwise_cons.mpr ⟨?_, ?_⟩
    · intro b hb
      exact hbd x (by simp) b (by simpa using hb)
    · simpa using hsorted
  | succ e ih =>
    intro l hel hH hsorted hbd
    have hsorted' : SortedLe le (l.drop (e + 2)) := hsorted
    have hbd' : ∀ a ∈ l.take (e + 2), ∀ b ∈ l.drop (e + 2), le a b = true := hbd
    rw [extractLoop]
    have h0l : 0 < l.length := by omega
    have hel1 : e + 1 < l.length := hel
    obtain ⟨l2, hswap⟩ : ∃ l2, swapE l 0 (e + 1) = .ok l2 := ⟨_, swapE_ok_of_lt h0l hel1⟩
    have hg := swapE_getElem? hswap
    have hlen2 := swapE_length hswap
    have hperm2 := swapE_perm hswap
    simp only [hswap]
    obtain ⟨v0, hv0⟩ : ∃ v, l[0]? = some v := ⟨_, List.getElem?_eq_getElem h0l⟩
    obtain ⟨ve, hve⟩ : ∃ v, l[e + 1]? = some v := ⟨_, List.getElem?_eq_getElem hel1⟩
    have hmax : ∀ i, i ≤ e + 1 → elemLe le l i 0 := heap_root_max htot htrans hel hH
    have hA : HeapExcept le l2 0 e 0 := by
      intro i h1 hi hs hne a b ha hb
      rw [hg i, if_neg (by omega), if_neg (by omega)] at ha
      rw [hg ((i - 1) / 2), if_neg (by omega), if_neg (by omega)] at hb
      exact hH i h1 (by omega) (by omega) a b ha hb
    have hQ : HoleBound le l2 0 e 0 := fun hne => absurd rfl hne
    obtain ⟨l3, hsift, hperm3, hlen3, hfr3, hH3⟩ :=
      siftLoop_spec htot htrans (l2.length + 1) l2 0 0 e (by omega) (by omega)
        (by omega) hA hQ
    simp only [hsift]
    have hdrop3 : ∀ j, e + 1 ≤ j → l3[j]? = l2[j]? := fun j hj => hfr3 j (Or.inr (by omega))
    have hd3 : l3.drop (e + 1) = v0 :: l.drop (e + 2) := by
      apply List.ext_getElem?
      intro k
      cases k with
      | zero =>
        rw [List.getElem?_drop]
        rw [show e + 1 + 0 = e + 1 from rfl]
        rw [hdrop3 (e + 1) (by omega), hg (e + 1), if_pos rfl, hv0]
        simp
      | succ k =>
        rw [List.getElem?_drop, List.getElem?_cons_succ, List.getElem?_drop]
        rw [hdrop3 (e + 1 + (k + 1)) (by omega), hg (e + 1 + (k + 1)),
          if_neg (by omega), if_neg (by omega)]
        congr 1
        omega
    have hd32 : l3.drop (e + 1) = l2.drop (e + 1) := by
      apply List.ext_getElem?
      intro k
      rw [List.getElem?_drop, List.getElem?_drop]
      exact hdrop3 (e + 1 + k) (by omega)
    have htperm : (l3.take (e + 1)).Perm (l2.take (e + 1)) := by
      have h1 : (l3.take (e + 1) ++ l3.drop (e + 1)).Perm
          (l2.take (e + 1) ++ l2.drop (e + 1)) := by
        rw [List.take_append_drop, List.take_append_drop]
        exact hperm3
      rw [hd32] at h1
      exact (List.perm_append_right_iff _).mp h1
    have hmem2 : ∀ a ∈ l2.take (e + 1), ∃ k, k ≤ e + 1 ∧ l[k]? = some a := by
      intro a ha
      obtain ⟨k, hk⟩ := List.mem_iff_getElem?.mp ha
      have hkl : k < e + 1 := by
        by_contra hcon
        have hnone : (l2.take (e + 1))[k]? = none :=
          List.getElem?_eq_none (by simp [List.length_take]; omega)
        rw [hnone] at hk
        exact Option.noConfusion hk
      rw [List.getElem?_take_of_lt hkl] at hk
      by_cases hk0 : k = 0
      · subst hk0
        rw [hg 0, if_neg (by omega), if_pos rfl] at hk
        exact ⟨e + 1, by omega, hk⟩
      · rw [hg k, if_neg (by omega), if_neg hk0] at hk
        exact ⟨k, by omega, hk⟩
    have hbd3 : ∀ a ∈ l3.take (e + 1), ∀ b ∈ l3.drop (e + 1), le a b = true := by
      intro a ha b hb
      obtain ⟨k, hke, hka⟩ := hmem2 a (htperm.mem_iff.mp ha)
      rw [hd3] at hb
      rcases List.mem_cons.mp hb with rfl | hb2
      · exact hmax k hke a b hka hv0
      · refine hbd' a ?_ b hb2
        exact List.mem_iff_getElem?.mpr ⟨k, by rw [List.getElem?_take_of_lt (by omega)]; exact hka⟩
    have hs3 : SortedLe le (l3.drop (e + 1)) := by
      rw [hd3]
      refine List.pairwise_cons.mpr ⟨?_, hsorted'⟩
      intro b hb
      refine hbd' v0 ?_ b hb
      exact List.mem_iff_getElem?.mpr ⟨0, by rw [List.getElem?_take_of_lt (by omega)]; exact hv0⟩
    obtain ⟨r, hrec, hpermr, hsr⟩ := ih l3 (by omega) hH3 hs3 hbd3
    exact ⟨r, hrec, hpermr.trans (hperm3.trans hperm2), hsr⟩

/-- `HeapSort::sort` succeeds on every input and sorts it, for any lawful
comparison. -/
theorem heapSort_main {le : α → α → Bool} (htot : TotalLe le) (htrans : TransLe le)
    (l : List α) :
    ∃ r, heapSort le l = .ok r ∧ r.Perm l ∧ SortedLe le r := by
  by_cases hs : l.length ≤ 1
  · exact ⟨l, by rw [heapSort, if_pos hs], List.Perm.refl l, sortedLe_short hs⟩
  · rw [heapSort, if_neg hs]
    obtain ⟨l2, hheap, hperm2, hlen2, hH⟩ := @heapify_spec _ le htot htrans l (by omega)
    simp only [hheap]
    have hnil : l2.drop (l.length - 1 + 1) = [] := List.drop_eq_nil_of_le (by omega)
    obtain ⟨r, hrec, hpermr, hsr⟩ :=
      extractLoop_spec htot htrans (l.length - 1) l2 (by omega)
        hH
        (by rw [hnil]; exact List.Pairwise.nil)
        (by intro a _ b hb; rw [hnil] at hb; exact absurd hb (List.not_mem_nil b))
    exact ⟨r, hrec, hpermr.trans hperm2, hsr⟩

/-- `heapifyLoop` output is a permutation of its input, unconditionally. -/
theorem heapifyLoop_perm {le : α → α → Bool} :
    ∀ (start : Nat) (l r : List α), heapifyLoop le l start = .ok r → r.Perm l := by
  intro start
  induction start with
  | zero =>
    intro l r h
    rw [heapifyLoop] at h
    cases hs : siftLoop le (l.length + 1) l 0 (l.length - 1) with
    | error e =>
      rw [hs] at h
      exact Except.noConfusion h
    | ok l2 =>
      rw [hs] at h
      injection h with h
      subst h
      exact siftLoop_perm _ _ _ _ _ hs
  | succ s ih =>
    intro l r h
    rw [heapifyLoop] at h
    cases hs : siftLoop le (l.length + 1) l (s + 1) (l.length - 1) with
    | error e =>
      rw [hs] at h
      exact Except.noConfusion h
    | ok l2 =>
      rw [hs] at h
      exact (ih l2 r h).trans (siftLoop_perm _ _ _ _ _ hs)

/-- `heapify` output is a permutation of its input, unconditionally. -/
theorem heapify_perm {le : α → α → Bool} {l r : List α} (h : heapify le l = .ok r) :
    r.Perm l := by
  rw [heapify] at h
  rcases hlen : l.length with _ | (_ | n)
  · rw [hlen] at h
    exact Except.noConfusion h
  · rw [hlen] at h
    exact Except.noConfusion h
  · rw [hlen] at h
    exact heapifyLoop_perm _ _ _ h

/-- `extractLoop` output is a permutation of its input, unconditionally. -/
theorem extractLoop_perm {le : α → α → Bool} :
    ∀ (endI : Nat) (l r : List α), extractLoop le l endI = .ok r → r.Perm l := by
  intro endI
  induction endI with
  | zero =>
    intro l r h
    rw [extractLoop] at h
    injection h with h
    subst h
    exact List.Perm.refl _
  | succ e ih =>
    intro l r h
    rw [extractLoop] at h
    cases hs : swapE l 0 (e + 1) with
    | error er =>
      rw [hs] at h
      exact Except.noConfusion h
    | ok l2 =>
      simp only [hs] at h
      cases hs2 : siftLoop le (l2.length + 1) l2 0 e with
      | error er =>
        simp only [hs2] at h
        exact Except.noConfusion h
      | ok l3 =>
        simp only [hs2] at h
        exact ((ih l3 r h).trans (siftLoop_perm _ _ _ _ _ hs2)).trans (swapE_perm hs)

/-- `HeapSort::sort` output is a permutation of its input, with no ordering
assumptions on the comparison. -/
theorem heapSort_perm {le : α → α → Bool} {l r : List α} (h : heapSort le l = .ok r) :
    r.Perm l := by
  rw [heapSort] at h
  by_cases hs : l.length ≤ 1
  · rw [if_pos hs] at h
    injection h with h
    subst h
    exact List.Perm.refl _
  · rw [if_neg hs] at h
    cases hh : heapify le l with
    | error e =>
      rw [hh] at h
      exact Except.noConfusion h
    | ok l2 =>
      rw [hh] at h
      exact (extractLoop_perm _ _ _ h).trans (heapify_perm hh)

/-- `HeapSort::sort` is the identity on short slices. -/
theorem heapSort_small {le : α → α → Bool} {l : List α} (h : l.length ≤ 1) :
    heapSort le l = .ok l := by
  rw [heapSort, if_pos h]

/-! ### Merge sort -/

/-- Textbook merge is a permutation of the concatenation. -/
theorem mergeL_perm (le : α → α → Bool) :
    ∀ ls rs : List α, (mergeL le ls rs).Perm (ls ++ rs) := by
  intro ls
  induction ls with
  | nil =>
    intro rs
    rw [mergeL]
    exact List.Perm.refl _
  | cons x ls1 ihl =>
    intro rs
    induction rs with
    | nil =>
      rw [mergeL]
      simp
    | cons y rs1 ihr =>
      rw [mergeL]
      by_cases hle : le x y = true
      · rw [if_pos hle]
        exact (ihl (y :: rs1)).cons x
      · rw [if_neg hle]
        exact (ihr.cons y).trans List.perm_middle.symm

/-- Textbook merge of sorted inputs is sorted. -/
theorem mergeL_sorted {le : α → α → Bool} (htot : TotalLe le) (htrans : TransLe le) :
    ∀ ls rs : List α, SortedLe le ls → SortedLe le rs →
      SortedLe le (mergeL le ls rs) := by
  intro ls
  induction ls with
  | nil =>
    intro rs _ hrs
    rw [mergeL]
    exact hrs
  | cons x ls1 ihl =>
    intro rs hls hrs
    induction rs with
    | nil =>
      rw [mergeL]
      exact hls
    | cons y rs1 ihr =>
      obtain ⟨hxls, hls1⟩ := List.pairwise_cons.mp hls
      obtain ⟨hyrs, hrs1⟩ := List.pairwise_cons.mp hrs
      rw [mergeL]
      by_cases hle : le x y = true
      · rw [if_pos hle]
        refine List.pairwise_cons.mpr ⟨?_, ihl (y :: rs1) hls1 hrs⟩
        intro z hz
        have hz2 : z ∈ ls1 ++ y :: rs1 := (mergeL_perm le ls1 (y :: rs1)).mem_iff.mp hz
        rcases List.mem_append.mp hz2 with hz2 | hz2
        · exact hxls z hz2
        · rcases List.mem_cons.mp hz2 with rfl | hz2
          · exact hle
          · exact htrans _ _ _ hle (hyrs z hz2)
      · rw [if_neg hle]
        have hyx : le y x = true := (htot x y).resolve_left hle
        refine List.pairwise_cons.mpr ⟨?_, ihr hrs1⟩
        intro z hz
        have hz2 : z ∈ (x :: ls1) ++ rs1 := (mergeL_perm le (x :: ls1) rs1).mem_iff.mp hz
        rcases List.mem_append.mp hz2 with hz2 | hz2
        · rcases List.mem_cons.mp hz2 with rfl | hz2
          · exact hyx
          · exact htrans _ _ _ hyx (hxls z hz2)
        · exact hyrs z hz2

/-- When every left element is `le` every right element, textbook merge is
plain concatenation. -/
theorem mergeL_eq_append {le : α → α → Bool} :
    ∀ ls rs : List α, (∀ u ∈ ls, ∀ v ∈ rs, le u v = true) →
      mergeL le ls rs = ls ++ rs := by
  intro ls
  induction ls with
  | nil =>
    intro rs _
    rw [mergeL]
    rfl
  | cons x ls1 ihl =>
    intro rs hb
    cases rs with
    | nil =>
      rw [mergeL]
      simp
    | cons y rs1 =>
      rw [mergeL, if_pos (hb x (by simp) y (by simp))]
      rw [ihl (y :: rs1) (fun u hu v hv => hb u (by simp [hu]) v hv)]
      rfl

/-- Stability of textbook merge: filtering by a predicate supported on a
single `le`-equivalence class commutes with merging, when the left run is
sorted. -/
theorem mergeL_filter {le : α → α → Bool} (htrans : TransLe le) {p : α → Bool}
    (hp : ∀ a b, p a = true → p b = true → le a b = true) :
    ∀ ls rs : List α, SortedLe le ls →
      (mergeL le ls rs).filter p = ls.filter p ++ rs.filter p := by
  intro ls
  induction ls with
  | nil =>
    intro rs _
    rw [mergeL]
    simp
  | cons x ls1 ihl =>
    intro rs hls
    obtain ⟨hxls, hls1⟩ := List.pairwise_cons.mp hls
    induction rs with
    | nil =>
      rw [mergeL]
      simp
    | cons y rs1 ihr =>
      rw [mergeL]
      by_cases hle : le x y = true
      · rw [if_pos hle]
        simp only [List.filter_cons, ihl (y :: rs1) hls1]
        by_cases hpx : p x = true
        · simp [hpx]
        · simp [hpx]
      · rw [if_neg hle]
        by_cases hpy : p y = true
        · have hpxf : p x = false := by
            cases hpx2 : p x with
            | false => rfl
            | true => exact absurd (hp x y hpx2 hpy) hle
          have hnil : ls1.filter p = [] := by
            apply List.filter_eq_nil_iff.mpr
            intro z hz hpz
            exact hle (htrans x z y (hxls z hz) (hp z y hpz hpy))
          rw [List.filter_cons, if_pos hpy, ihr]
          simp [List.filter_cons, hpxf, hnil, hpy]
        · have hpyf : p y = false := by
            cases hpy2 : p y with
            | false => rfl
            | true => exact absurd hpy2 hpy
          rw [List.filter_cons, if_neg (by simp [hpyf]), ihr]
          simp [List.filter_cons, hpyf]

/-- The rotation loop of `MergeSort::merge` computes the textbook merge of the
two adjacent runs `U` and `V`, leaving the surrounding `P` and `B` in place. -/
theorem mergeLoop_bridge {le : α → α → Bool} :
    ∀ (fuel : Nat) (P U V B : List α) (mid start2 endI : Nat),
      U.length + V.length < fuel →
      mid + 1 = P.length + U.length → start2 = P.length + U.length →
      endI + 1 = P.length + U.length + V.length →
      mergeLoop le fuel (P ++ U ++ V ++ B) P.length mid start2 endI =
        .ok (P ++ mergeL le U V ++ B) := by
  intro fuel
  induction fuel with
  | zero =>
    intro P U V B mid start2 endI hf
    omega
  | succ fuel ih =>
    intro P U V B mid start2 endI hf hmid hs2 hend
    rw [mergeLoop]
    cases U with
    | nil =>
      simp only [List.length_nil] at hmid hs2 hend
      rw [if_neg (by omega)]
      rw [mergeL]
      simp
    | cons u U' =>
      cases V with
      | nil =>
        simp only [List.length_cons, List.length_nil] at hmid hs2 hend
        rw [if_neg (by omega)]
        rw [mergeL]
        simp
      | cons v V' =>
        simp only [List.length_cons] at hmid hs2 hend hf
        rw [if_pos ⟨by omega, by omega⟩]
        have hu : (P ++ (u :: U') ++ (v :: V') ++ B)[P.length]? = some u := by
          rw [show P ++ (u :: U') ++ (v :: V') ++ B =
            P ++ ((u :: U') ++ ((v :: V') ++ B)) by simp]
          rw [List.getElem?_append_right (Nat.le_refl P.length)]
          simp
        have hv : (P ++ (u :: U') ++ (v :: V') ++ B)[start2]? = some v := by
          rw [show P ++ (u :: U') ++ (v :: V') ++ B = (P ++ u :: U') ++ ((v :: V') ++ B) by
            simp]
          rw [List.getElem?_append_right (by simp [List.length_append]; omega)]
          rw [show start2 - (P ++ u :: U').length = 0 by simp [List.length_append]; omega]
          simp
        have hgu : getE (P ++ (u :: U') ++ (v :: V') ++ B) P.length = .ok u :=
          getE_eq_ok_iff.mpr hu
        have hgv : getE (P ++ (u :: U') ++ (v :: V') ++ B) start2 = .ok v :=
          getE_eq_ok_iff.mpr hv
        simp only [hgu, hgv]
        by_cases hle : le u v = true
        · rw [if_pos hle]
          have heq : mergeL le (u :: U') (v :: V') = u :: mergeL le U' (v :: V') := by
            rw [mergeL, if_pos hle]
          rw [show P ++ (u :: U') ++ (v :: V') ++ B = (P ++ [u]) ++ U' ++ (v :: V') ++ B by
            simp]
          rw [show P.length + 1 = (P ++ [u]).length by simp]
          rw [heq]
          rw [show P ++ (u :: mergeL le U' (v :: V')) ++ B =
            (P ++ [u]) ++ mergeL le U' (v :: V') ++ B by simp]
          exact ih (P ++ [u]) U' (v :: V') B mid start2 endI
            (by simp [List.length_cons]; omega) (by simp; omega) (by simp; omega)
            (by simp [List.length_cons]; omega)
        · rw [if_neg hle]
          have heq : mergeL le (u :: U') (v :: V') = v :: mergeL le (u :: U') V' := by
            rw [mergeL, if_neg hle]
          have hsplit : P ++ (u :: U') ++ (v :: V') ++ B =
              (P ++ u :: U') ++ v :: (V' ++ B) := by
            simp
          have hrot : rotSegE (P ++ (u :: U') ++ (v :: V') ++ B) P.length start2 =
              .ok (P ++ v :: ((u :: U') ++ (V' ++ B))) := by
            rw [hsplit, show start2 = (P ++ u :: U').length by simp; omega]
            rw [@rotSegE_insert _ (P ++ u :: U') (V' ++ B) v P.length (by simp)]
            rw [List.take_left' rfl, List.drop_left' rfl]
          simp only [hrot]
          rw [show P ++ v :: ((u :: U') ++ (V' ++ B)) =
            (P ++ [v]) ++ (u :: U') ++ V' ++ B by simp]
          rw [show P.length + 1 = (P ++ [v]).length by simp]
          rw [heq]
          rw [show P ++ (v :: mergeL le (u :: U') V') ++ B =
            (P ++ [v]) ++ mergeL le (u :: U') V' ++ B by simp]
          exact ih (P ++ [v]) (u :: U') V' B (mid + 1) (start2 + 1) endI
            (by simp [List.length_cons]; omega) (by simp [List.length_cons]; omega)
            (by simp [List.length_cons]; omega) (by simp [List.length_cons]; omega)

/-- `MergeSort::merge` (`mergeSeg`), including the early exit, replaces the two
adjacent sorted nonempty runs `U` and `V` by their textbook merge. -/
theorem mergeSeg_spec {le : α → α → Bool} (htrans : TransLe le)
    (A U V B : List α) (hU : U ≠ []) (hV : V ≠ [])
    (hsU : SortedLe le U) (hsV : SortedLe le V) :
    mergeSeg le (A ++ U ++ V ++ B) A.length (A.length + U.length - 1)
      (A.length + U.length + V.length - 1) = .ok (A ++ mergeL le U V ++ B) := by
  obtain ⟨v0, V', rfl⟩ := List.exists_cons_of_ne_nil hV
  have hUd : U.dropLast ++ [U.getLast hU] = U := List.dropLast_concat_getLast hU
  set U0 := U.dropLast with hU0
  set ul := U.getLast hU with hul
  have hlenU : U.length = U0.length + 1 := by
    rw [← hUd]
    simp
  have hmidx : A.length + U.length - 1 = A.length + U0.length := by omega
  have hum : (A ++ U ++ (v0 :: V') ++ B)[A.length + U.length - 1]? = some ul := by
    rw [hmidx]
    rw [show A ++ U ++ (v0 :: V') ++ B = (A ++ U0) ++ (ul :: ((v0 :: V') ++ B)) by
      rw [← hUd]; simp]
    rw [List.getElem?_append_right (by simp)]
    simp
  have hvm : (A ++ U ++ (v0 :: V') ++ B)[A.length + U.length - 1 + 1]? = some v0 := by
    rw [show A.length + U.length - 1 + 1 = A.length + U.length by omega]
    rw [show A ++ U ++ (v0 :: V') ++ B = (A ++ U) ++ (v0 :: (V' ++ B)) by simp]
    rw [List.getElem?_append_right (by simp)]
    simp
  have hgu : getE (A ++ U ++ (v0 :: V') ++ B) (A.length + U.length - 1) = .ok ul :=
    getE_eq_ok_iff.mpr hum
  have hgv : getE (A ++ U ++ (v0 :: V') ++ B) (A.length + U.length - 1 + 1) = .ok v0 :=
    getE_eq_ok_iff.mpr hvm
  rw [mergeSeg]
  simp only [hgu, hgv]
  by_cases hexit : le ul v0 = true
  · rw [if_pos hexit]
    have hUV : ∀ u ∈ U, ∀ v ∈ v0 :: V', le u v = true := by
      intro u hu v hv
      have huv0 : le u v0 = true := by
        rw [← hUd] at hu
        rcases List.mem_append.mp hu with hu | hu
        · have hle1 : le u ul = true := by
            rw [← hUd] at hsU
            exact (List.pairwise_append.mp hsU).2.2 u hu ul (by simp)
          exact htrans _ _ _ hle1 hexit
        · obtain rfl : u = ul := by simpa using hu
          exact hexit
      rcases List.mem_cons.mp hv with rfl | hv
      · exact huv0
      · exact htrans _ _ _ huv0 ((List.pairwise_cons.mp hsV).1 v hv)
    rw [mergeL_eq_append U (v0 :: V') hUV]
    rw [show A ++ (U ++ (v0 :: V')) ++ B = A ++ U ++ (v0 :: V') ++ B by simp]
  · rw [if_neg hexit]
    exact mergeLoop_bridge (A.length + U.length + (v0 :: V').length - 1 + 2 - A.length)
      A U (v0 :: V') B (A.length + U.length - 1) (A.length + U.length - 1 + 1)
      (A.length + U.length + (v0 :: V').length - 1)
      (by simp only [List.length_cons]; omega) (by omega) (by omega)
      (by simp only [List.length_cons]; omega)

/-- Full specification of `MergeSort::merge_sort` (`mergeSortRec`): with
sufficient fuel it succeeds, leaves everything outside `[left, right]` in
place, and leaves that segment a sorted, filter-preserving permutation of its
former content. -/
theorem mergeSortRec_spec {le : α → α → Bool} (htot : TotalLe le) (htrans : TransLe le)
    {p : α → Bool} (hp : ∀ a b, p a = true → p b = true → le a b = true) :
    ∀ (fuel : Nat) (l : List α) (left right : Nat),
      right < l.length → right - left < fuel →
      ∃ r, mergeSortRec le fuel l left right = .ok r ∧
        r.length = l.length ∧
        r.take left = l.take left ∧
        r.drop (right + 1) = l.drop (right + 1) ∧
        ((r.drop left).take (right + 1 - left)).Perm
          ((l.drop left).take (right + 1 - left)) ∧
        SortedLe le ((r.drop left).take (right + 1 - left)) ∧
        ((r.drop left).take (right + 1 - left)).filter p =
          ((l.drop left).take (right + 1 - left)).filter p := by
  intro fuel
  induction fuel with
  | zero =>
    intro l left right h1 h2
    omega
  | succ fuel ih =>
    intro l left right hrl hf
    rw [mergeSortRec]
    by_cases hlr : left < right
    case neg =>
      rw [if_neg hlr]
      refine ⟨l, rfl, rfl, rfl, rfl, List.Perm.refl _, ?_, rfl⟩
      apply sortedLe_short
      simp only [List.length_take]
      omega
    case pos =>
      rw [if_pos hlr]
      obtain ⟨mid, hmideq⟩ : ∃ m, (left + right) / 2 = m := ⟨_, rfl⟩
      rw [hmideq]
      have hm1 : left ≤ mid := by omega
      have hm2 : mid < right := by omega
      obtain ⟨l2, h2, hlen2, htk2, hdr2, hperm2, hsort2, hfil2⟩ :=
        ih l left mid (by omega) (by omega)
      simp only [h2]
      obtain ⟨l3, h3, hlen3, htk3, hdr3, hperm3, hsort3, hfil3⟩ :=
        ih l2 (mid + 1) right (by omega) (by omega)
      simp only [h3]
      rw [show right + 1 - (mid + 1) = right - mid from by omega] at hperm3 hsort3 hfil3
      have hl3len : l3.length = l.length := by omega
      have hAlen : (l3.take left).length = left := by
        simp only [List.length_take]
        omega
      have hUlen : ((l3.drop left).take (mid + 1 - left)).length = mid + 1 - left := by
        simp only [List.length_take, List.length_drop]
        omega
      have hVlen : ((l3.drop (mid + 1)).take (right - mid)).length = right - mid := by
        simp only [List.length_take, List.length_drop]
        omega
      have hAU : l3.take (mid + 1) =
          l3.take left ++ (l3.drop left).take (mid + 1 - left) := by
        have h := List.take_add l3 left (mid + 1 - left)
        rw [show left + (mid + 1 - left) = mid + 1 from by omega] at h
        exact h
      have hAUV : l3.take (right + 1) =
          l3.take (mid + 1) ++ (l3.drop (mid + 1)).take (right - mid) := by
        have h := List.take_add l3 (mid + 1) (right - mid)
        rw [show mid + 1 + (right - mid) = right + 1 from by omega] at h
        exact h
      have hdecomp : l3.take left ++ (l3.drop left).take (mid + 1 - left) ++
          (l3.drop (mid + 1)).take (right - mid) ++ l3.drop (right + 1) = l3 := by
        rw [← hAU, ← hAUV]
        exact List.take_append_drop _ _
      have hUeq : (l3.drop left).take (mid + 1 - left) =
          (l2.drop left).take (mid + 1 - left) := by
        have h1 : (l3.take (mid + 1)).drop left = (l2.take (mid + 1)).drop left := by
          rw [htk3]
        rw [List.drop_take] at h1
        rw [List.drop_take] at h1
        rw [show mid + 1 - left = mid + 1 - left from rfl] at h1
        exact h1
      have hsU : SortedLe le ((l3.drop left).take (mid + 1 - left)) := by
        rw [hUeq]
        exact hsort2
      have hUne : (l3.drop left).take (mid + 1 - left) ≠ [] :=
        List.ne_nil_of_length_pos (by rw [hUlen]; omega)
      have hVne : (l3.drop (mid + 1)).take (right - mid) ≠ [] :=
        List.ne_nil_of_length_pos (by rw [hVlen]; omega)
      have hseg := mergeSeg_spec htrans (l3.take left)
        ((l3.drop left).take (mid + 1 - left))
        ((l3.drop (mid + 1)).take (right - mid))
        (l3.drop (right + 1)) hUne hVne hsU hsort3
      rw [hdecomp, hAlen, hUlen, hVlen] at hseg
      rw [show left + (mid + 1 - left) - 1 = mid from by omega] at hseg
      rw [show left + (mid + 1 - left) + (right - mid) - 1 = right from by omega] at hseg
      have hMlen : (mergeL le ((l3.drop left).take (mid + 1 - left))
          ((l3.drop (mid + 1)).take (right - mid))).length = right + 1 - left := by
        rw [(mergeL_perm le _ _).length_eq]
        simp only [List.length_append]
        omega
      have hABlen : (l3.take left ++ mergeL le ((l3.drop left).take (mid + 1 - left))
          ((l3.drop (mid + 1)).take (right - mid))).length = right + 1 := by
        simp only [List.length_append]
        rw [hAlen, hMlen]
        omega
      have htkl3 : l3.take left = l.take left := by
        have h1 : (l3.take (mid + 1)).take left = (l2.take (mid + 1)).take left := by
          rw [htk3]
        rw [List.take_take] at h1
        rw [List.take_take] at h1
        rw [show min left (mid + 1) = left from by omega] at h1
        exact h1.trans htk2
      have hdrl3 : l3.drop (right + 1) = l.drop (right + 1) := by
        have h1 : (l2.drop (mid + 1)).drop (right - mid) =
            (l.drop (mid + 1)).drop (right - mid) := by
          rw [hdr2]
        rw [List.drop_drop] at h1
        rw [List.drop_drop] at h1
        rw [show mid + 1 + (right - mid) = right + 1 from by omega] at h1
        exact hdr3.trans h1
      have hsegr : ((l3.take left ++ mergeL le ((l3.drop left).take (mid + 1 - left))
          ((l3.drop (mid + 1)).take (right - mid)) ++ l3.drop (right + 1)).drop left).take
            (right + 1 - left) =
          mergeL le ((l3.drop left).take (mid + 1 - left))
            ((l3.drop (mid + 1)).take (right - mid)) := by
        rw [List.append_assoc, List.drop_left' hAlen, List.take_left' hMlen]
      have hUperm : ((l3.drop left).take (mid + 1 - left)).Perm
          ((l.drop left).take (mid + 1 - left)) := by
        rw [hUeq]
        exact hperm2
      have hVeq2 : (l2.drop (mid + 1)).take (right - mid) =
          (l.drop (mid + 1)).take (right - mid) := by
        rw [hdr2]
      have hVperm : ((l3.drop (mid + 1)).take (right - mid)).Perm
          ((l.drop (mid + 1)).take (right - mid)) := by
        rw [← hVeq2]
        exact hperm3
      have hsegl : (l.drop left).take (right + 1 - left) =
          (l.drop left).take (mid + 1 - left) ++ (l.drop (mid + 1)).take (right - mid) := by
        have h := List.take_add (l.drop left) (mid + 1 - left) (right - mid)
        rw [show mid + 1 - left + (right - mid) = right + 1 - left from by omega] at h
        rw [List.drop_drop] at h
        rw [show left + (mid + 1 - left) = mid + 1 from by omega] at h
        exact h
      refine ⟨l3.take left ++ mergeL le ((l3.drop left).take (mid + 1 - left))
        ((l3.drop (mid + 1)).take (right - mid)) ++ l3.drop (right + 1),
        hseg, ?_, ?_, ?_, ?_, ?_, ?_⟩
      · simp only [List.length_append, List.length_drop]
        rw [hAlen, hMlen]
        omega
      · rw [List.append_assoc, List.take_left' hAlen, htkl3]
      · rw [List.drop_left' hABlen, hdrl3]
      · rw [hsegr, hsegl]
        exact (mergeL_perm le _ _).trans (hUperm.append hVperm)
      · rw [hsegr]
        exact mergeL_sorted htot htrans _ _ hsU hsort3
      · rw [hsegr, hsegl, List.filter_append]
        rw [mergeL_filter htrans hp _ _ hsU]
        rw [hUeq, hfil2, hfil3, hVeq2]

/-- `MergeSort::sort` succeeds on every input and sorts it stably, for any
lawful comparison and any predicate supported on one `le`-class. -/
theorem mergeSort_main {le : α → α → Bool} (htot : TotalLe le) (htrans : TransLe le)
    (p : α → Bool) (hp : ∀ a b, p a = true → p b = true → le a b = true) (l : List α) :
    ∃ r, mergeSort le l = .ok r ∧ r.Perm l ∧ SortedLe le r ∧
      r.filter p = l.filter p := by
  by_cases hs : l.length ≤ 1
  · exact ⟨l, by rw [mergeSort, if_pos hs], List.Perm.refl l, sortedLe_short hs, rfl⟩
  · rw [mergeSort, if_neg hs]
    obtain ⟨r, hrec, hlen, _, _, hperm, hsort, hfil⟩ :=
      mergeSortRec_spec htot htrans hp l.length l 0 (l.length - 1) (by omega) (by omega)
    have hsegr : (r.drop 0).take (l.length - 1 + 1 - 0) = r := by
      rw [List.drop_zero, show l.length - 1 + 1 - 0 = r.length from by omega]
      exact List.take_length r
    have hsegl : (l.drop 0).take (l.length - 1 + 1 - 0) = l := by
      rw [List.drop_zero, show l.length - 1 + 1 - 0 = l.length from by omega]
      exact List.take_length l
    rw [hsegr, hsegl] at hperm hfil
    rw [hsegr] at hsort
    exact ⟨r, hrec, hperm, hsort, hfil⟩

/-- The rotation loop only ever rotates segments: any successful run is a
permutation, with no ordering assumptions. -/
theorem mergeLoop_perm {le : α → α → Bool} :
    ∀ (fuel : Nat) (l r : List α) (start mid start2 endI : Nat),
      mergeLoop le fuel l start mid start2 endI = .ok r → r.Perm l := by
  intro fuel
  induction fuel with
  | zero =>
    intro l r start mid start2 endI h
    simp [mergeLoop] at h
  | succ fuel ih =>
    intro l r start mid start2 endI h
    rw [mergeLoop] at h
    by_cases hc : start ≤ mid ∧ start2 ≤ endI
    case neg =>
      rw [if_neg hc] at h
      injection h with h
      subst h
      exact List.Perm.refl _
    case pos =>
      rw [if_pos hc] at h
      cases hga : getE l start with
      | error e =>
        simp only [hga] at h
        exact Except.noConfusion h
      | ok a =>
        cases hgb : getE l start2 with
        | error e =>
          simp only [hga, hgb] at h
          exact Except.noConfusion h
        | ok b =>
          simp only [hga, hgb] at h
          by_cases hle : le a b = true
          · rw [if_pos hle] at h
            exact ih _ _ _ _ _ _ h
          · rw [if_neg hle] at h
            cases hrot : rotSegE l start start2 with
            | error e =>
              simp only [hrot] at h
              exact Except.noConfusion h
            | ok l2 =>
              simp only [hrot] at h
              exact (ih _ _ _ _ _ _ h).trans (rotSegE_perm hrot)

/-- `MergeSort::merge` output is a permutation of its input, unconditionally. -/
theorem mergeSeg_perm {le : α → α → Bool} {l r : List α} {start mid endI : Nat}
    (h : mergeSeg le l start mid endI = .ok r) : r.Perm l := by
  rw [mergeSeg] at h
  cases hga : getE l mid with
  | error e =>
    simp only [hga] at h
    exact Except.noConfusion h
  | ok a =>
    cases hgb : getE l (mid + 1) with
    | error e =>
      simp only [hga, hgb] at h
      exact Except.noConfusion h
    | ok b =>
      simp only [hga, hgb] at h
      by_cases hle : le a b = true
      · rw [if_pos hle] at h
        injection h with h
        subst h
        exact List.Perm.refl _
      · rw [if_neg hle] at h
        exact mergeLoop_perm _ _ _ _ _ _ _ h

/-- `MergeSort::merge_sort` output is a permutation of its input,
unconditionally. -/
theorem mergeSortRec_perm {le : α → α → Bool} :
    ∀ (fuel : Nat) (l r : List α) (left right : Nat),
      mergeSortRec le fuel l left right = .ok r → r.Perm l := by
  intro fuel
  induction fuel with
  | zero =>
    intro l r left right h
    simp [mergeSortRec] at h
  | succ fuel ih =>
    intro l r left right h
    rw [mergeSortRec] at h
    by_cases hc : left < right
    case neg =>
      rw [if_neg hc] at h
      injection h with h
      subst h
      exact List.Perm.refl _
    case pos =>
      rw [if_pos hc] at h
      cases h1 : mergeSortRec le fuel l left ((left + right) / 2) with
      | error e =>
        simp only [h1] at h
        exact Except.noConfusion h
      | ok l2 =>
        simp only [h1] at h
        cases h2 : mergeSortRec le fuel l2 ((left + right) / 2 + 1) right with
        | error e =>
          simp only [h2] at h
          exact Except.noConfusion h
        | ok l3 =>
          simp only [h2] at h
          exact ((mergeSeg_perm h).trans (ih _ _ _ _ h2)).trans (ih _ _ _ _ h1)

/-- `MergeSort::sort` output is a permutation of its input, unconditionally. -/
theorem mergeSort_perm {le : α → α → Bool} {l r : List α}
    (h : mergeSort le l = .ok r) : r.Perm l := by
  rw [mergeSort] at h
  by_cases hs : l.length ≤ 1
  · rw [if_pos hs] at h
    injection h with h
    subst h
    exact List.Perm.refl _
  · rw [if_neg hs] at h
    exact mergeSortRec_perm _ _ _ _ _ h

/-- `MergeSort::sort` is the identity on short slices. -/
theorem mergeSort_small {le : α → α → Bool} {l : List α} (h : l.length ≤ 1) :
    mergeSort le l = .ok l := by
  rw [mergeSort, if_pos h]

/-! ### The standard library sort (modelled from the spec) -/

/-- Repeated ordered insertion is a permutation of its input. -/
theorem stdSort_perm (le : α → α → Bool) (l : List α) : (stdSort le l).Perm l := by
  suffices h : ∀ (t acc : List α), (t.foldl (fun a x => insUB le a x) acc).Perm (acc ++ t) by
    have h2 := h l []
    simpa [stdSort] using h2
  intro t
  induction t with
  | nil => intro acc; simp
  | cons x t2 ih =>
    intro acc
    rw [List.foldl_cons]
    refine (ih (insUB le acc x)).trans ?_
    refine ((insUB_perm le x acc).append (List.Perm.refl t2)).trans ?_
    exact (@List.perm_middle _ x acc t2).symm

/-- Repeated ordered insertion yields a sorted list. -/
theorem stdSort_sorted {le : α → α → Bool} (htot : TotalLe le) (htrans : TransLe le)
    (l : List α) : SortedLe le (stdSort le l) := by
  suffices h : ∀ (t acc : List α), SortedLe le acc →
      SortedLe le (t.foldl (fun a x => insUB le a x) acc) by
    exact h l [] List.Pairwise.nil
  intro t
  induction t with
  | nil => intro acc hacc; simpa using hacc
  | cons x t2 ih =>
    intro acc hacc
    rw [List.foldl_cons]
    exact ih (insUB le acc x) (insUB_sorted htot htrans x acc hacc)

/-- Repeated ordered insertion is the identity on short slices. -/
theorem stdSort_small {le : α → α → Bool} {l : List α} (h : l.length ≤ 1) :
    stdSort le l = l := by
  cases l with
  | nil => rfl
  | cons x t =>
    cases t with
    | nil => rfl
    | cons y t2 =>
      exfalso
      simp only [List.length_cons] at h
      omega

/-! ### Shared wrappers and instances for the claims -/

/-- `InsertionSort::sort` output is a permutation of its input (both variants),
unconditionally. -/
theorem insertionSort_perm {le : α → α → Bool} {smart : Bool} {l r : List α}
    (h : insertionSort le smart l = .ok r) : r.Perm l := by
  rw [insertionSort] at h
  exact insertionOuter_perm (l.length - 1) l 1 r h

/-- `SelectionSort::sort` output is a permutation of its input,
unconditionally. -/
theorem selectionSort_perm {le : α → α → Bool} {l r : List α}
    (h : selectionSort le l = .ok r) : r.Perm l := by
  rw [selectionSort] at h
  exact selectOuter_perm l.length l 0 r h

/-- A computation that returns a value never returns an error. -/
theorem ne_error_of_ok {β : Type u} {x : M β} {r : β} (h : x = .ok r) :
    ∀ e, x ≠ .error e := by
  intro e he
  rw [he] at h
  exact Except.noConfusion h

/-- `Nat.ble` is total: the comparison of a lawful `Ord` instance. -/
theorem totalLe_ble : TotalLe Nat.ble := by
  intro a b
  rcases Nat.le_total a b with h | h
  · exact Or.inl (Nat.ble_eq.mpr h)
  · exact Or.inr (Nat.ble_eq.mpr h)

/-- `Nat.ble` is transitive. -/
theorem transLe_ble : TransLe Nat.ble := by
  intro a b c hab hbc
  exact Nat.ble_eq.mpr (Nat.le_trans (Nat.ble_eq.mp hab) (Nat.ble_eq.mp hbc))

/-- Key-only comparison on key-tag pairs is total. -/
theorem totalLe_keyLe {κ : Type u} [LinearOrder κ] : TotalLe (@keyLe κ _) := by
  intro a b
  rcases le_total a.1 b.1 with h | h
  · exact Or.inl (by simp [keyLe, h])
  · exact Or.inr (by simp [keyLe, h])

/-- Key-only comparison on key-tag pairs is transitive. -/
theorem transLe_keyLe {κ : Type u} [LinearOrder κ] : TransLe (@keyLe κ _) := by
  intro a b c hab hbc
  simp only [keyLe, decide_eq_true_eq] at hab hbc ⊢
  exact le_trans hab hbc

/-- Two pairs with the same key `k` are never strictly ordered by `keyLe`. -/
theorem keyLe_hp {κ : Type u} [LinearOrder κ] (k : κ) :
    ∀ a b : κ × Nat, ltB (@keyLe κ _) b a = true →
      ¬((decide (a.1 = k)) = true ∧ (decide (b.1 = k)) = true) := by
  intro a b h hc
  simp only [decide_eq_true_eq] at hc
  simp only [ltB, keyLe, Bool.not_eq_true', decide_eq_false_iff_not] at h
  exact h (by rw [hc.1, hc.2])

/-- Two pairs with the same key `k` compare `keyLe` in either order. -/
theorem keyLe_hp2 {κ : Type u} [LinearOrder κ] (k : κ) :
    ∀ a b : κ × Nat, (decide (a.1 = k)) = true → (decide (b.1 = k)) = true →
      (@keyLe κ _) a b = true := by
  intro a b ha hb
  simp only [decide_eq_true_eq] at ha hb
  simp [keyLe, ha, hb]

/-! ### The claims -/

/-- Claim C1: for every Sorter implementation (BubbleSort, InsertionSort with
smart=false, InsertionSort with smart=true, SelectionSort, QuickSort, HeapSort,
MergeSort, StdSorter) and every finite slice of a totally ordered element
type, after `sort` returns the slice is non-decreasing: for every pair of
indices `i < j`, `slice[i] ≤ slice[j]` (as `SortedLe`). -/
theorem claim_C1 {le : α → α → Bool} (htot : TotalLe le) (htrans : TransLe le)
    (l : List α) :
    (∃ r, bubbleSort le l = .ok r ∧ SortedLe le r) ∧
    (∃ r, insertionSort le false l = .ok r ∧ SortedLe le r) ∧
    (∃ r, insertionSort le true l = .ok r ∧ SortedLe le r) ∧
    (∃ r, selectionSort le l = .ok r ∧ SortedLe le r) ∧
    (∃ r, quickSort le l = .ok r ∧ SortedLe le r) ∧
    (∃ r, heapSort le l = .ok r ∧ SortedLe le r) ∧
    (∃ r, mergeSort le l = .ok r ∧ SortedLe le r) ∧
    SortedLe le (stdSort le l) := by
  obtain ⟨r1, h1⟩ := bubbleSort_ok htot l
  obtain ⟨r2, h2, _, hs2, _⟩ := insertionSortDumb_main htot htrans (fun _ => false)
    (fun a b h => by simp) l
  obtain ⟨r3, h3, _, hs3⟩ := insertionSortSmart_main htot htrans l
  obtain ⟨r4, h4, _, hs4⟩ := selectionSort_main htot htrans l
  obtain ⟨r5, h5, _, hs5⟩ := quickSort_main htot htrans l
  obtain ⟨r6, h6, _, hs6⟩ := heapSort_main htot htrans l
  obtain ⟨r7, h7, _, hs7, _⟩ := mergeSort_main htot htrans (fun _ => false)
    (fun a b ha => by simp at ha) l
  exact ⟨⟨r1, h1, bubbleSort_sorted htrans h1⟩, ⟨r2, h2, hs2⟩, ⟨r3, h3, hs3⟩,
    ⟨r4, h4, hs4⟩, ⟨r5, h5, hs5⟩, ⟨r6, h6, hs6⟩, ⟨r7, h7, hs7⟩,
    stdSort_sorted htot htrans l⟩

/-- Closed witness for C1 at `Nat.ble` and `[5, 1, 4, 2, 3]`. -/
theorem claim_C1_witness :
    (∃ r, bubbleSort Nat.ble [5, 1, 4, 2, 3] = .ok r ∧ SortedLe Nat.ble r) ∧
    (∃ r, insertionSort Nat.ble false [5, 1, 4, 2, 3] = .ok r ∧ SortedLe Nat.ble r) ∧
    (∃ r, insertionSort Nat.ble true [5, 1, 4, 2, 3] = .ok r ∧ SortedLe Nat.ble r) ∧
    (∃ r, selectionSort Nat.ble [5, 1, 4, 2, 3] = .ok r ∧ SortedLe Nat.ble r) ∧
    (∃ r, quickSort Nat.ble [5, 1, 4, 2, 3] = .ok r ∧ SortedLe Nat.ble r) ∧
    (∃ r, heapSort Nat.ble [5, 1, 4, 2, 3] = .ok r ∧ SortedLe Nat.ble r) ∧
    (∃ r, mergeSort Nat.ble [5, 1, 4, 2, 3] = .ok r ∧ SortedLe Nat.ble r) ∧
    SortedLe Nat.ble (stdSort Nat.ble [5, 1, 4, 2, 3]) :=
  claim_C1 totalLe_ble transLe_ble [5, 1, 4, 2, 3]

/-- Claim C2: for every Sorter implementation and every finite slice, the
multiset of elements after `sort` returns equals the multiset before the call:
the output is a permutation of the input, with the same length; no ordering
assumptions on the comparison are needed. -/
theorem claim_C2 (le : α → α → Bool) (l : List α) :
    (∀ r, bubbleSort le l = .ok r → r.Perm l ∧ r.length = l.length) ∧
    (∀ r, insertionSort le false l = .ok r → r.Perm l ∧ r.length = l.length) ∧
    (∀ r, insertionSort le true l = .ok r → r.Perm l ∧ r.length = l.length) ∧
    (∀ r, selectionSort le l = .ok r → r.Perm l ∧ r.length = l.length) ∧
    (∀ r, quickSort le l = .ok r → r.Perm l ∧ r.length = l.length) ∧
    (∀ r, heapSort le l = .ok r → r.Perm l ∧ r.length = l.length) ∧
    (∀ r, mergeSort le l = .ok r → r.Perm l ∧ r.length = l.length) ∧
    ((stdSort le l).Perm l ∧ (stdSort le l).length = l.length) := by
  refine ⟨fun r h => ⟨bubbleSort_perm h, (bubbleSort_perm h).length_eq⟩,
    fun r h => ⟨insertionSort_perm h, (insertionSort_perm h).length_eq⟩,
    fun r h => ⟨insertionSort_perm h, (insertionSort_perm h).length_eq⟩,
    fun r h => ⟨selectionSort_perm h, (selectionSort_perm h).length_eq⟩,
    fun r h => ⟨quickSort_perm h, (quickSort_perm h).length_eq⟩,
    fun r h => ⟨heapSort_perm h, (heapSort_perm h).length_eq⟩,
    fun r h => ⟨mergeSort_perm h, (mergeSort_perm h).length_eq⟩,
    stdSort_perm le l, (stdSort_perm le l).length_eq⟩

/-- Closed witness for C2: the conditional permutation conjuncts fire at the
concrete run on `[5, 1, 4, 2, 3]`, whose result is `[1, 2, 3, 4, 5]`. -/
theorem claim_C2_witness :
    (([1, 2, 3, 4, 5] : List Nat).Perm [5, 1, 4, 2, 3] ∧
      ([1, 2, 3, 4, 5] : List Nat).length = ([5, 1, 4, 2, 3] : List Nat).length) ∧
    (([1, 2, 3, 4, 5] : List Nat).Perm [5, 1, 4, 2, 3] ∧
      ([1, 2, 3, 4, 5] : List Nat).length = ([5, 1, 4, 2, 3] : List Nat).length) :=
  ⟨(claim_C2 Nat.ble [5, 1, 4, 2, 3]).1 [1, 2, 3, 4, 5] rfl,
    (claim_C2 Nat.ble [5, 1, 4, 2, 3]).2.2.2.2.2.1 [1, 2, 3, 4, 5] rfl⟩

/-- Claim C3: after the partition loop of `quicksort` finishes and the pivot
is swapped into position `lf`, every element left of `lf` is `le` the pivot,
every element right of `lf` is `ge` the pivot, and the asserted boundary check
`left.last() <= right.first()` (`optLe` over the split at `lf`) is true; in
particular `quicksort` never hits the assertion panic on any input. -/
theorem claim_C3 {le : α → α → Bool} (htot : TotalLe le) (htrans : TransLe le) :
    (∀ (x : α) (rest : List α), 1 ≤ rest.length →
      ∃ rest2 lf l2,
        partitionLoop le x rest (rest.length + 1) 0 (rest.length - 1) = .ok (rest2, lf) ∧
        swapE (x :: rest2) 0 lf = .ok l2 ∧ l2[lf]? = some x ∧
        (∀ (j : Nat) (a : α), j < lf → l2[j]? = some a → le a x = true) ∧
        (∀ (j : Nat) (a : α), lf < j → l2[j]? = some a → le x a = true) ∧
        optLe le (l2.take lf).getLast? (l2.drop lf).head? = true) ∧
    (∀ l : List α, quickSort le l ≠ .error .assertPanic) := by
  refine ⟨fun x rest hrl => quicksortPartition_claim htot hrl, fun l => ?_⟩
  obtain ⟨r, hr, _, _⟩ := quickSort_main htot htrans l
  exact ne_error_of_ok hr .assertPanic

/-- Closed witness for C3 at `Nat.ble`: the partition conjunct at pivot `3`
with rest `[1, 2]`, and the no-assert-panic conjunct at `[5, 1, 4, 2, 3]`. -/
theorem claim_C3_witness :
    (∃ rest2 lf l2,
      partitionLoop Nat.ble 3 [1, 2] (([1, 2] : List Nat).length + 1) 0
          (([1, 2] : List Nat).length - 1) = .ok (rest2, lf) ∧
      swapE (3 :: rest2) 0 lf = .ok l2 ∧ l2[lf]? = some 3 ∧
      (∀ (j : Nat) (a : Nat), j < lf → l2[j]? = some a → Nat.ble a 3 = true) ∧
      (∀ (j : Nat) (a : Nat), lf < j → l2[j]? = some a → Nat.ble 3 a = true) ∧
      optLe Nat.ble (l2.take lf).getLast? (l2.drop lf).head? = true) ∧
    quickSort Nat.ble [5, 1, 4, 2, 3] ≠ .error .assertPanic :=
  ⟨(claim_C3 totalLe_ble transLe_ble).1 3 [1, 2] (by decide),
    (claim_C3 totalLe_ble transLe_ble).2 [5, 1, 4, 2, 3]⟩

/-- Claim C4, counterexample: in the smart insertion path, the index located
by the code's binary search (std `binary_search`, collapsing `Ok(i) | Err(i)`
to `i`) on the sorted prefix `[1, 1]` for the new element `1` is `1`, which is
neither the "first position not less than the new element" (that is `0`) nor
the position "after existing equal elements" (that is `2`), refuting the
claimed tie placement. -/
theorem claim_C4_counterexample :
    binSearchIdx Nat.ble [1, 1] 1 = .ok 1 ∧
    lowIdx Nat.ble [1, 1] 1 = 0 ∧ upIdx Nat.ble [1, 1] 1 = 2 ∧
    (1 : Nat) ≠ 0 ∧ (1 : Nat) ≠ 2 :=
  ⟨rfl, rfl, rfl, by decide, by decide⟩

/-- Claim C4, amended: the insertion index located in a sorted prefix is a
valid partition point for the new element — every prefix element strictly
before it is `le` the element and the element is `le` every prefix element
from it on, so the one-step right rotation keeps the prefix sorted; on ties
the index may fall between equal elements rather than after all of them. -/
theorem claim_C4_amended {le : α → α → Bool} (htot : TotalLe le) (htrans : TransLe le)
    (l : List α) (hsort : SortedLe le l) (tgt : α) :
    ∃ i, binSearchIdx le l tgt = .ok i ∧ i ≤ l.length ∧
      (∀ j a, j < i → l[j]? = some a → le a tgt = true) ∧
      (∀ j a, i ≤ j → l[j]? = some a → le tgt a = true) :=
  binSearchIdx_spec htot htrans hsort tgt

/-- Closed witness for the amended C4 at the counterexample's own input. -/
theorem claim_C4_amended_witness :
    ∃ i, binSearchIdx Nat.ble [1, 1] 1 = .ok i ∧ i ≤ ([1, 1] : List Nat).length ∧
      (∀ j a, j < i → ([1, 1] : List Nat)[j]? = some a → Nat.ble a 1 = true) ∧
      (∀ j a, i ≤ j → ([1, 1] : List Nat)[j]? = some a → Nat.ble 1 a = true) :=
  claim_C4_amended totalLe_ble transLe_ble [1, 1] (by decide) 1

/-- Claim C5: every strategy's `sort` terminates on every finite input —
each fueled loop (BubbleSort's outer while, the quicksort and merge_sort
recursions, HeapSort's heapify and sift loops) completes within its fuel and
`sort` returns a value. -/
theorem claim_C5 {le : α → α → Bool} (htot : TotalLe le) (htrans : TransLe le)
    (l : List α) :
    (∃ r, bubbleSort le l = .ok r) ∧ (∃ r, insertionSort le false l = .ok r) ∧
    (∃ r, insertionSort le true l = .ok r) ∧ (∃ r, selectionSort le l = .ok r) ∧
    (∃ r, quickSort le l = .ok r) ∧ (∃ r, heapSort le l = .ok r) ∧
    (∃ r, mergeSort le l = .ok r) := by
  obtain ⟨r1, h1⟩ := bubbleSort_ok htot l
  obtain ⟨r2, h2, _⟩ := insertionSortDumb_main htot htrans (fun _ => false)
    (fun a b h => by simp) l
  obtain ⟨r3, h3, _⟩ := insertionSortSmart_main htot htrans l
  obtain ⟨r4, h4, _⟩ := selectionSort_main htot htrans l
  obtain ⟨r5, h5, _⟩ := quickSort_main htot htrans l
  obtain ⟨r6, h6, _⟩ := heapSort_main htot htrans l
  obtain ⟨r7, h7, _⟩ := mergeSort_main htot htrans (fun _ => false)
    (fun a b ha => by simp at ha) l
  exact ⟨⟨r1, h1⟩, ⟨r2, h2⟩, ⟨r3, h3⟩, ⟨r4, h4⟩, ⟨r5, h5⟩, ⟨r6, h6⟩, ⟨r7, h7⟩⟩

/-- Closed witness for C5 at `Nat.ble` on the empty, singleton and a
five-element list. -/
theorem claim_C5_witness :
    ((∃ r, bubbleSort Nat.ble ([] : List Nat) = .ok r) ∧
      (∃ r, insertionSort Nat.ble false ([] : List Nat) = .ok r) ∧
      (∃ r, insertionSort Nat.ble true ([] : List Nat) = .ok r) ∧
      (∃ r, selectionSort Nat.ble ([] : List Nat) = .ok r) ∧
      (∃ r, quickSort Nat.ble ([] : List Nat) = .ok r) ∧
      (∃ r, heapSort Nat.ble ([] : List Nat) = .ok r) ∧
      (∃ r, mergeSort Nat.ble ([] : List Nat) = .ok r)) ∧
    ((∃ r, bubbleSort Nat.ble [7] = .ok r) ∧
      (∃ r, insertionSort Nat.ble false [7] = .ok r) ∧
      (∃ r, insertionSort Nat.ble true [7] = .ok r) ∧
      (∃ r, selectionSort Nat.ble [7] = .ok r) ∧
      (∃ r, quickSort Nat.ble [7] = .ok r) ∧
      (∃ r, heapSort Nat.ble [7] = .ok r) ∧
      (∃ r, mergeSort Nat.ble [7] = .ok r)) ∧
    ((∃ r, bubbleSort Nat.ble [5, 1, 4, 2, 3] = .ok r) ∧
      (∃ r, insertionSort Nat.ble false [5, 1, 4, 2, 3] = .ok r) ∧
      (∃ r, insertionSort Nat.ble true [5, 1, 4, 2, 3] = .ok r) ∧
      (∃ r, selectionSort Nat.ble [5, 1, 4, 2, 3] = .ok r) ∧
      (∃ r, quickSort Nat.ble [5, 1, 4, 2, 3] = .ok r) ∧
      (∃ r, heapSort Nat.ble [5, 1, 4, 2, 3] = .ok r) ∧
      (∃ r, mergeSort Nat.ble [5, 1, 4, 2, 3] = .ok r)) :=
  ⟨claim_C5 totalLe_ble transLe_ble [], claim_C5 totalLe_ble transLe_ble [7],
    claim_C5 totalLe_ble transLe_ble [5, 1, 4, 2, 3]⟩

/-- Claim C6: BubbleSort and MergeSort are stable: on key-tag pairs compared
only by key, the pairs carrying any fixed key `k` appear in the output in
exactly their input order (their filtered subsequences coincide). -/
theorem claim_C6 {κ : Type u} [LinearOrder κ] (l : List (κ × Nat)) (k : κ) :
    (∀ r, bubbleSort (@keyLe κ _) l = .ok r →
      r.filter (fun a => decide (a.1 = k)) = l.filter (fun a => decide (a.1 = k))) ∧
    (∀ r, mergeSort (@keyLe κ _) l = .ok r →
      r.filter (fun a => decide (a.1 = k)) = l.filter (fun a => decide (a.1 = k))) := by
  constructor
  · intro r h
    exact @bubbleSort_filter _ (@keyLe κ _) (fun a => decide (a.1 = k)) (keyLe_hp k) l r h
  · intro r h
    obtain ⟨r0, h0, _, _, hf⟩ := mergeSort_main totalLe_keyLe transLe_keyLe
      (fun a => decide (a.1 = k)) (keyLe_hp2 k) l
    rw [h0] at h
    injection h with h
    rw [← h]
    exact hf

/-- Closed witness for C6 at `κ := Nat`, input `[(2,0), (2,1), (1,0), (1,1)]`,
key `1`: both sorts return `[(1,0), (1,1), (2,0), (2,1)]` and the tag order of
the key-1 pairs is preserved. -/
theorem claim_C6_witness :
    (([(1, 0), (1, 1), (2, 0), (2, 1)] : List (Nat × Nat)).filter
        (fun a => decide (a.1 = 1)) =
      ([(2, 0), (2, 1), (1, 0), (1, 1)] : List (Nat × Nat)).filter
        (fun a => decide (a.1 = 1))) ∧
    (([(1, 0), (1, 1), (2, 0), (2, 1)] : List (Nat × Nat)).filter
        (fun a => decide (a.1 = 1)) =
      ([(2, 0), (2, 1), (1, 0), (1, 1)] : List (Nat × Nat)).filter
        (fun a => decide (a.1 = 1))) :=
  ⟨(claim_C6 [(2, 0), (2, 1), (1, 0), (1, 1)] 1).1 [(1, 0), (1, 1), (2, 0), (2, 1)] rfl,
    (claim_C6 [(2, 0), (2, 1), (1, 0), (1, 1)] 1).2 [(1, 0), (1, 1), (2, 0), (2, 1)] rfl⟩

/-- Claim C7: for every strategy, `sort` on a zero-length or one-length slice
returns the slice exactly unchanged and does not fault. -/
theorem claim_C7 {le : α → α → Bool} (l : List α) (h : l.length ≤ 1) :
    bubbleSort le l = .ok l ∧ insertionSort le false l = .ok l ∧
    insertionSort le true l = .ok l ∧ selectionSort le l = .ok l ∧
    quickSort le l = .ok l ∧ heapSort le l = .ok l ∧ mergeSort le l = .ok l ∧
    stdSort le l = l :=
  ⟨bubbleSort_small h, insertionSort_small h, insertionSort_small h,
    selectionSort_small h, quickSort_small h, heapSort_small h, mergeSort_small h,
    stdSort_small h⟩

/-- Closed witness for C7 at the empty and singleton `Nat` lists. -/
theorem claim_C7_witness :
    (bubbleSort Nat.ble ([] : List Nat) = .ok [] ∧
      insertionSort Nat.ble false ([] : List Nat) = .ok [] ∧
      insertionSort Nat.ble true ([] : List Nat) = .ok [] ∧
      selectionSort Nat.ble ([] : List Nat) = .ok [] ∧
      quickSort Nat.ble ([] : List Nat) = .ok [] ∧
      heapSort Nat.ble ([] : List Nat) = .ok [] ∧
      mergeSort Nat.ble ([] : List Nat) = .ok [] ∧
      stdSort Nat.ble ([] : List Nat) = []) ∧
    (bubbleSort Nat.ble [7] = .ok [7] ∧ insertionSort Nat.ble false [7] = .ok [7] ∧
      insertionSort Nat.ble true [7] = .ok [7] ∧ selectionSort Nat.ble [7] = .ok [7] ∧
      quickSort Nat.ble [7] = .ok [7] ∧ heapSort Nat.ble [7] = .ok [7] ∧
      mergeSort Nat.ble [7] = .ok [7] ∧ stdSort Nat.ble [7] = [7]) :=
  ⟨claim_C7 [] (by decide), claim_C7 [7] (by decide)⟩

/-- Claim C8: at each outer position `u` of SelectionSort, the located index
`m` points at a minimum of the suffix from `u` on, no strictly earlier index
in that suffix holds an element that is `le` it and distinct in order (first
occurrence wins: every index in `[u, m)` holds a strictly greater element),
and the swap is performed exactly when `m ≠ u`. -/
theorem claim_C8 {le : α → α → Bool} (htot : TotalLe le) (htrans : TransLe le)
    (l : List α) (u : Nat) (hul : u < l.length) :
    ∃ m, selectIdx le l u = .ok m ∧ u ≤ m ∧ m < l.length ∧
      (∀ j a b, u ≤ j → l[j]? = some a → l[m]? = some b → le b a = true) ∧
      (∀ j a b, u ≤ j → j < m → l[j]? = some a → l[m]? = some b → le a b = false) ∧
      selectStep le l u = (if u ≠ m then swapE l u m else .ok l) := by
  obtain ⟨m, hm, h1, h2, h3, h4⟩ := selectIdx_spec htot htrans hul
  refine ⟨m, hm, h1, h2, h3, h4, ?_⟩
  simp only [selectStep, hm]

/-- Closed witness for C8 at `[3, 1, 1, 2]`, position `0`: the located index
is `1` (the first of the two minima) and the swap fires. -/
theorem claim_C8_witness :
    ∃ m, selectIdx Nat.ble [3, 1, 1, 2] 0 = .ok m ∧ 0 ≤ m ∧
      m < ([3, 1, 1, 2] : List Nat).length ∧
      (∀ j a b, 0 ≤ j → ([3, 1, 1, 2] : List Nat)[j]? = some a →
        ([3, 1, 1, 2] : List Nat)[m]? = some b → Nat.ble b a = true) ∧
      (∀ j a b, 0 ≤ j → j < m → ([3, 1, 1, 2] : List Nat)[j]? = some a →
        ([3, 1, 1, 2] : List Nat)[m]? = some b → Nat.ble a b = false) ∧
      selectStep Nat.ble [3, 1, 1, 2] 0 =
        (if 0 ≠ m then swapE [3, 1, 1, 2] 0 m else .ok [3, 1, 1, 2]) :=
  claim_C8 totalLe_ble transLe_ble [3, 1, 1, 2] 0 (by decide)

/-- Claim C9: no implementation reaches an out-of-bounds access or a panic on
any input over a lawful order: every sorter returns a value and never an
error (`oobPanic` covers out-of-range indexing and the `expect` calls,
`assertPanic` the quicksort assertion). -/
theorem claim_C9 {le : α → α → Bool} (htot : TotalLe le) (htrans : TransLe le)
    (l : List α) :
    (∀ e, bubbleSort le l ≠ .error e) ∧ (∀ e, insertionSort le false l ≠ .error e) ∧
    (∀ e, insertionSort le true l ≠ .error e) ∧ (∀ e, selectionSort le l ≠ .error e) ∧
    (∀ e, quickSort le l ≠ .error e) ∧ (∀ e, heapSort le l ≠ .error e) ∧
    (∀ e, mergeSort le l ≠ .error e) := by
  obtain ⟨r1, h1⟩ := bubbleSort_ok htot l
  obtain ⟨r2, h2, _⟩ := insertionSortDumb_main htot htrans (fun _ => false)
    (fun a b h => by simp) l
  obtain ⟨r3, h3, _⟩ := insertionSortSmart_main htot htrans l
  obtain ⟨r4, h4, _⟩ := selectionSort_main htot htrans l
  obtain ⟨r5, h5, _⟩ := quickSort_main htot htrans l
  obtain ⟨r6, h6, _⟩ := heapSort_main htot htrans l
  obtain ⟨r7, h7, _⟩ := mergeSort_main htot htrans (fun _ => false)
    (fun a b ha => by simp at ha) l
  exact ⟨ne_error_of_ok h1, ne_error_of_ok h2, ne_error_of_ok h3, ne_error_of_ok h4,
    ne_error_of_ok h5, ne_error_of_ok h6, ne_error_of_ok h7⟩

/-- Closed witness for C9 at `Nat.ble` and `[5, 1, 4, 2, 3]`. -/
theorem claim_C9_witness :
    (∀ e, bubbleSort Nat.ble [5, 1, 4, 2, 3] ≠ .error e) ∧
    (∀ e, insertionSort Nat.ble false [5, 1, 4, 2, 3] ≠ .error e) ∧
    (∀ e, insertionSort Nat.ble true [5, 1, 4, 2, 3] ≠ .error e) ∧
    (∀ e, selectionSort Nat.ble [5, 1, 4, 2, 3] ≠ .error e) ∧
    (∀ e, quickSort Nat.ble [5, 1, 4, 2, 3] ≠ .error e) ∧
    (∀ e, heapSort Nat.ble [5, 1, 4, 2, 3] ≠ .error e) ∧
    (∀ e, mergeSort Nat.ble [5, 1, 4, 2, 3] ≠ .error e) :=
  claim_C9 totalLe_ble transLe_ble [5, 1, 4, 2, 3]

/-- Claim C10: the linear ("dumb") InsertionSort variant is stable: it sorts
any list of key-tag pairs compared only by key, and pairs carrying any fixed
key `k` appear in the output in exactly their input order. -/
theorem claim_C10 {κ : Type u} [LinearOrder κ] (l : List (κ × Nat)) (k : κ) :
    ∃ r, insertionSort (@keyLe κ _) false l = .ok r ∧ r.Perm l ∧
      SortedLe (@keyLe κ _) r ∧
      r.filter (fun a => decide (a.1 = k)) = l.filter (fun a => decide (a.1 = k)) :=
  insertionSortDumb_main totalLe_keyLe transLe_keyLe _ (keyLe_hp k) l

/-- Closed witness for C10 at `κ := Nat`, input `[(2,0), (2,1), (1,0), (1,1)]`,
key `2`. -/
theorem claim_C10_witness :
    ∃ r, insertionSort (@keyLe Nat _) false [(2, 0), (2, 1), (1, 0), (1, 1)] = .ok r ∧
      r.Perm [(2, 0), (2, 1), (1, 0), (1, 1)] ∧ SortedLe (@keyLe Nat _) r ∧
      r.filter (fun a => decide (a.1 = 2)) =
        ([(2, 0), (2, 1), (1, 0), (1, 1)] : List (Nat × Nat)).filter
          (fun a => decide (a.1 = 2)) :=
  claim_C10 [(2, 0), (2, 1), (1, 0), (1, 1)] 2

end Pangua
